import Mathlib

/-! # Block log file manager (`libraries/chain/file_manager.cpp`)

A shallow embedding of `hive::chain::file_manager`: the append-only block log,
its cached head, and the indexes that are appended to in lockstep with the log.

Files are modelled by their byte content (`List Nat`, one entry per byte).
Unsigned machine integers are natural numbers reduced modulo `2 ^ 32`
(`unsigned`) or `2 ^ 64` (`uint64_t`) at the places where the source computes
with them.
-/

namespace hive.chain

/-! ## Exceptions and disk accesses -/

/-- The ways a call of the file manager can raise. -/
inductive fc_exception where
  /-- An `FC_ASSERT` did not hold. -/
  | assert_exception
  /-- A positioned read could not transfer the full length. -/
  | io_error
  /-- The bytes handed to `fc::raw::unpack` are not a serialized block. -/
  | parse_error
  /-- The position index has no record for the requested block number. -/
  | not_found
  /-- The `FC_THROW( "bad block index ..." )` of backward extraction. -/
  | bad_block_index
  deriving DecidableEq, Repr

/-- One access to a file made while serving a read call. -/
inductive access where
  /-- A positioned read of `length` bytes of the log at `offset`. -/
  | log_read (offset length : Nat)
  /-- A lookup of `block_num` in the position index. -/
  | index_read (block_num : Nat)
  deriving DecidableEq, Repr

/-! ## Machine arithmetic and byte encodings -/

/-- Subtraction of two `uint64_t` values (wraps modulo `2 ^ 64`). -/
def sub64 (a b : Nat) : Nat :=
  (a % 2 ^ 64 + 2 ^ 64 - b % 2 ^ 64) % 2 ^ 64

/-- The 8 bytes of a `uint64_t` in memory order (least significant first). -/
def le64 (x : Nat) : List Nat :=
  (List.range 8).map fun i => x / 256 ^ i % 256

/-- The `uint64_t` whose memory image is the given bytes (least significant
first); every entry counts with its low 8 bits. -/
def from_le64 (bytes : List Nat) : Nat :=
  bytes.foldr (fun b acc => b % 256 + 256 * acc) 0

/-- The effect of `std::vector<char>::resize(n)`: keep the first `n` bytes, pad with
zero bytes when the vector was shorter. -/
def resize (v : List Nat) (n : Nat) : List Nat :=
  v.take n ++ List.replicate (n - v.length) 0

/-- The effect of `*(uint64_t*)(v.data() + at_) = x`: overwrite 8 bytes of `v`
starting at index `at_` with the image of `x`. -/
def store_le64 (v : List Nat) (at_ x : Nat) : List Nat :=
  v.take at_ ++ le64 x ++ v.drop (at_ + 8)

/-! ## Blocks and their serialization -/

/-- The block type and the `fc::raw` serialization the file manager is compiled
against; both are declared outside `file_manager.cpp` and enter as parameters. -/
structure block_serializer (Block : Type) where
  /-- The bytes `fc::raw::pack_to_vector(b)` returns. -/
  pack_to_vector : Block → List Nat
  /-- The block `fc::raw::unpack` recovers from a byte buffer, if any. -/
  unpack : List Nat → Option Block
  /-- The value of `signed_block::block_num()` (a `uint32_t`). -/
  block_num : Block → Nat

/-! ## Storage descriptors, indexes and the block log -/

/-- The values of `storage_description::status_type`. -/
inductive status_type where
  | none
  | empty
  | reindex
  | resume
  deriving DecidableEq, Repr

/-- The values of `storage_description::storage_type` used by the file manager. -/
inductive storage_type where
  | block_log_idx
  | hash_idx
  deriving DecidableEq, Repr

/-- Position of the position index in `file_manager::idxs`. -/
def BLOCK_LOG_IDX : Nat := 0

/-- Position of the identity index in `file_manager::idxs`. -/
def HASH_IDX : Nat := 1

/-- The fields of `storage_description` that `file_manager.cpp` reads and writes. -/
structure storage_description where
  /-- Recorded size of the file in bytes (`uint64_t`). -/
  size : Nat
  status : status_type
  diff : Nat
  pos : Nat
  deriving DecidableEq, Repr

/-- Modelled from the spec: an index file (`base_index` and its two subclasses,
whose code is outside `file_manager.cpp`). The file holds one fixed-width
record per block; a record is kept as the `(block, position)` pair it was
written for. The position index stores the position, the identity index the
block's id and signing key. -/
structure base_index (Block : Type) where
  kind : storage_type
  storage : storage_description
  records : List (Block × Nat)

/-- Modelled from the spec: `base_index::append(block, position)` appends one
record for `block` at log byte offset `position`. -/
def base_index.append {Block : Type} (idx : base_index Block) (block : Block)
    (position : Nat) : base_index Block :=
  { idx with records := idx.records ++ [(block, position)] }

/-- The offsets stored in the position index, record `N` (from 1) at slot `N - 1`. -/
def base_index.offsets {Block : Type} (idx : base_index Block) : List Nat :=
  idx.records.map Prod.snd

/-- Modelled from the spec: `block_log_index::read(block_num, offset, size)`,
position index only. It fails with a not-found condition when `block_num` is
zero or exceeds the record count; the offset is record `block_num`, and the size
is `(start of record block_num + 1) - (start of record block_num) - 8`, so the
lookup also fails when the following record cannot be read. -/
def base_index.read {Block : Type} (idx : base_index Block) (block_num : Nat) :
    Except fc_exception (Nat × Nat) :=
  match idx.kind with
  | storage_type.hash_idx => Except.error fc_exception.assert_exception
  | storage_type.block_log_idx =>
    if block_num = 0 ∨ idx.records.length < block_num then
      Except.error fc_exception.not_found
    else
      match idx.offsets.get? (block_num - 1), idx.offsets.get? block_num with
      | some offset, some next => Except.ok (offset, sub64 (sub64 next offset) 8)
      | _, _ => Except.error fc_exception.io_error

/-- The block log object: the recorded storage descriptor, the bytes of the file
behind its descriptor, and the published head. -/
structure block_log_file (Block : Type) where
  storage : storage_description
  /-- Content of the file `storage.file_descriptor` refers to. -/
  content : List Nat
  /-- The atomically published head block, `none` while no head was published. -/
  head : Option Block

/-- State of a `file_manager`. -/
structure file_manager (Block : Type) where
  block_log : block_log_file Block
  idxs : List (base_index Block)

/-- A storage descriptor of a file that was just created. -/
def storage_description.fresh : storage_description :=
  { size := 0, status := status_type.none, diff := 0, pos := 0 }

/-- The state after `file_manager::file_manager()` and `open` on a path where
neither the log nor an index exists: an empty log, no head, and the two indexes
the constructor registers, both without records. -/
def file_manager.fresh (Block : Type) : file_manager Block :=
  { block_log := { storage := storage_description.fresh, content := [], head := none },
    idxs := [ { kind := storage_type.block_log_idx, storage := storage_description.fresh,
                records := [] },
              { kind := storage_type.hash_idx, storage := storage_description.fresh,
                records := [] } ] }

/-! ## File operations -/

/-- Modelled from the spec: `file_operation::pread_with_retry(fd, buf, length, offset)`
either transfers the full `length` bytes found at `offset` or fails with an I/O
error. -/
def pread_with_retry (file : List Nat) (length offset : Nat) :
    Except fc_exception (List Nat) :=
  if offset + length ≤ file.length then
    Except.ok ((file.drop offset).take length)
  else
    Except.error fc_exception.io_error

/-- Modelled from the spec: `file_operation::read_block_from_offset_and_size`
reads exactly `size` bytes at `offset` and deserializes them as a block. -/
def read_block_from_offset_and_size {Block : Type} (c : block_serializer Block)
    (file : List Nat) (offset size : Nat) : Except fc_exception Block :=
  match pread_with_retry file size offset with
  | Except.error e => Except.error e
  | Except.ok bytes =>
    match c.unpack bytes with
    | some b => Except.ok b
    | none => Except.error fc_exception.parse_error

/-! ## `file_manager` operations -/

/-- The function `file_manager::get_block_log_idx`: the index at `BLOCK_LOG_IDX`,
guarded by an `FC_ASSERT` on the number of indexes. -/
def file_manager.get_block_log_idx {Block : Type} (fm : file_manager Block) :
    Except fc_exception (base_index Block) :=
  match fm.idxs.get? BLOCK_LOG_IDX with
  | some idx => Except.ok idx
  | none => Except.error fc_exception.assert_exception

/-- The function `file_manager::read_head`, with the reads of the log it issues. -/
def file_manager.read_head_traced {Block : Type} (c : block_serializer Block)
    (fm : file_manager Block) : Except fc_exception Block × List access :=
  let _actual_size := fm.block_log.content.length
  if _actual_size < 8 then
    (Except.error fc_exception.assert_exception, [])
  else
    match pread_with_retry fm.block_log.content 8 (_actual_size - 8) with
    | Except.error e => (Except.error e, [access.log_read (_actual_size - 8) 8])
    | Except.ok bytes =>
      let head_block_offset := from_le64 bytes
      let size := sub64 (sub64 _actual_size head_block_offset) 8
      (read_block_from_offset_and_size c fm.block_log.content head_block_offset size,
        [access.log_read (_actual_size - 8) 8, access.log_read head_block_offset size])

/-- The value `file_manager::read_head` returns or raises. -/
def file_manager.read_head {Block : Type} (c : block_serializer Block)
    (fm : file_manager Block) : Except fc_exception Block :=
  (fm.read_head_traced c).1

/-- The two-argument `file_manager::append(block, position)`: every index appends
a record. -/
def file_manager.append_to_idxs {Block : Type} (fm : file_manager Block) (block : Block)
    (position : Nat) : file_manager Block :=
  { fm with idxs := fm.idxs.map fun idx => idx.append block position }

/-- The bytes `file_manager::append` hands to `write_with_retry`: the serialized
block, resized to its `unsigned` byte count plus 8, with the start position stored
in the last 8 bytes. -/
def append_buffer {Block : Type} (c : block_serializer Block) (block_start_pos : Nat)
    (b : Block) : List Nat :=
  let serialized_block := c.pack_to_vector b
  let serialized_byte_count := serialized_block.length % 2 ^ 32
  let serialized_block := resize serialized_block (serialized_byte_count + 8)
  store_le64 serialized_block serialized_byte_count block_start_pos

/-- A run of `file_manager::append(b)` in which the write to the log and the appends
to the indexes succeed: the new state and the returned offset. -/
def file_manager.append {Block : Type} (c : block_serializer Block)
    (fm : file_manager Block) (b : Block) : file_manager Block × Nat :=
  let block_start_pos := fm.block_log.storage.size
  let serialized_block := append_buffer c block_start_pos b
  let fm1 : file_manager Block :=
    { fm with block_log :=
        { fm.block_log with
          content := fm.block_log.content ++ serialized_block,
          storage := { fm.block_log.storage with
            size := (fm.block_log.storage.size + serialized_block.length) % 2 ^ 64 } } }
  let fm2 := fm1.append_to_idxs b block_start_pos
  let fm3 : file_manager Block :=
    { fm2 with block_log := { fm2.block_log with head := some b } }
  (fm3, block_start_pos)

/-- Successive calls of `append` for the blocks of `bs`: the final state and the
offsets returned, in call order. -/
def file_manager.append_all {Block : Type} (c : block_serializer Block) :
    file_manager Block → List Block → file_manager Block × List Nat
  | fm, [] => (fm, [])
  | fm, b :: bs =>
    let r := fm.append c b
    let rs := file_manager.append_all c r.1 bs
    (rs.1, r.2 :: rs.2)

/-- The function `file_manager::read_block_by_num`, with the accesses to the
position index and to the log it makes. -/
def file_manager.read_block_by_num_traced {Block : Type} (c : block_serializer Block)
    (fm : file_manager Block) (block_num : Nat) :
    Except fc_exception (Option Block) × List access :=
  match fm.block_log.head with
  | none => (Except.ok none, [])
  | some head_block =>
    if block_num = 0 ∨ c.block_num head_block < block_num then
      (Except.ok none, [])
    else if block_num = c.block_num head_block then
      (Except.ok (some head_block), [])
    else
      match fm.get_block_log_idx with
      | Except.error e => (Except.error e, [])
      | Except.ok idx =>
        match idx.read block_num with
        | Except.error e => (Except.error e, [access.index_read block_num])
        | Except.ok (_offset, _size) =>
          match read_block_from_offset_and_size c fm.block_log.content _offset _size with
          | Except.error e =>
            (Except.error e, [access.index_read block_num, access.log_read _offset _size])
          | Except.ok b =>
            (Except.ok (some b), [access.index_read block_num, access.log_read _offset _size])

/-- The value `file_manager::read_block_by_num` returns or raises. -/
def file_manager.read_block_by_num {Block : Type} (c : block_serializer Block)
    (fm : file_manager Block) (block_num : Nat) : Except fc_exception (Option Block) :=
  (fm.read_block_by_num_traced c block_num).1

/-! ## Reference layout of a log -/

/-- Bytes one record of block `b` occupies in the log: its serialization and the
8-byte trailer. -/
def record_size {Block : Type} (c : block_serializer Block) (b : Block) : Nat :=
  (c.pack_to_vector b).length + 8

/-- Sum of the record sizes of `bs`. -/
def total_size {Block : Type} (c : block_serializer Block) (bs : List Block) : Nat :=
  (bs.map (record_size c)).sum

/-- Start offsets of the records of `bs` when they are laid out back to back from
offset `p`. -/
def record_starts {Block : Type} (c : block_serializer Block) : Nat → List Block → List Nat
  | _, [] => []
  | p, b :: bs => p :: record_starts c (p + record_size c b) bs

/-- The bytes of the records of `bs` laid out back to back from offset `p`: each
serialized block is followed by the image of its own start offset. -/
def log_image {Block : Type} (c : block_serializer Block) : Nat → List Block → List Nat
  | _, [] => []
  | p, b :: bs => c.pack_to_vector b ++ le64 p ++ log_image c (p + record_size c b) bs

/-! ## A small concrete block type for evaluation -/

/-- A toy block: a block number and a payload. -/
structure toy_block where
  num : Nat
  payload : List Nat
  deriving DecidableEq, Repr

/-- Serialization of toy blocks: the number in one byte, then the payload. -/
def toy_serializer : block_serializer toy_block :=
  { pack_to_vector := fun b => b.num :: b.payload,
    unpack := fun bytes =>
      match bytes with
      | [] => none
      | n :: rest => some { num := n, payload := rest },
    block_num := fun b => b.num }

/-- A toy block numbered 1. -/
def toy_b1 : toy_block := { num := 1, payload := [5] }

/-- A toy block numbered 2. -/
def toy_b2 : toy_block := { num := 2, payload := [6, 7] }

/-- A toy block numbered 3. -/
def toy_b3 : toy_block := { num := 3, payload := [] }

/-- The fresh file manager after `append(toy_b1)`. -/
def toy_fm1 : file_manager toy_block :=
  ((file_manager.fresh toy_block).append toy_serializer toy_b1).1

/-! ## Startup and index reconstruction -/

/-- One call the file manager makes on an index or on its file during startup and
reconstruction; an index is named by its position in `file_manager::idxs`. -/
inductive index_action (Block : Type) where
  /-- The call `fc::remove_all( idx->storage.file )`. -/
  | remove (i : Nat)
  /-- A call `write( index_streams, block, position )` of the replay loop. -/
  | write (block : Block) (position : Nat)
  /-- The call `idx->close()`. -/
  | close (i : Nat)
  /-- The call `idx->open()`. -/
  | open_ (i : Nat)
  /-- The call `idx->check_consistency( block_num )`. -/
  | check_consistency (i : Nat) (block_num : Nat)
  /-- The call `idx->prepare( head_block, block_log.storage )`. -/
  | prepare (i : Nat) (head : Block)
  /-- The call `idx->non_empty_idx_info()`. -/
  | non_empty_idx_info (i : Nat)
  deriving DecidableEq, Repr

/-- Modelled from the spec: `base_index::write(stream, block, position)` appends one
record for `block` at log byte offset `position` to the stream, which was opened on
the index file in append mode. A stream is given by the records of the file behind
it. -/
def base_index.write {Block : Type} (_idx : base_index Block) (stream : List (Block × Nat))
    (block : Block) (position : Nat) : List (Block × Nat) :=
  stream ++ [(block, position)]

/-- Modelled from the spec: `base_index::check_consistency(block_num)` verifies that
the record count of the index equals `block_num`; `false` stands for the fatal
failure on a mismatch. -/
def base_index.check_consistency {Block : Type} (idx : base_index Block) (block_num : Nat) :
    Bool :=
  decide (idx.records.length = block_num)

/-- Modelled from the spec: `base_index::prepare(head_block, log_storage)` decides the
status of the index against a non-empty log: `empty` when the index holds nothing,
`none` when its record count matches the head block number, `resume` when its record
count is that of a proper prefix of the log, and `reindex` when it records more than
the log holds. -/
def base_index.prepare {Block : Type} (c : block_serializer Block) (idx : base_index Block)
    (head_block : Block) (_log_storage : storage_description) : base_index Block :=
  { idx with storage := { idx.storage with status :=
      if idx.records.length = 0 then status_type.empty
      else if idx.records.length = c.block_num head_block then status_type.none
      else if idx.records.length < c.block_num head_block then status_type.resume
      else status_type.reindex } }

/-- The function `file_manager::construct_index_allowed`. -/
def file_manager.construct_index_allowed {Block : Type} (fm : file_manager Block) : Bool :=
  fm.idxs.any fun idx => decide (idx.storage.status ≠ status_type.none)

/-- The function `file_manager::get_resume`. -/
def file_manager.get_resume {Block : Type} (fm : file_manager Block) : Bool :=
  let cnt := fm.idxs.countP fun idx => decide (idx.storage.status = status_type.resume)
  decide (cnt = fm.idxs.length)

/-- The function `file_manager::get_index_pos`; the `std::set` is the list of its
distinct elements. -/
def file_manager.get_index_pos {Block : Type} (fm : file_manager Block) :
    Except fc_exception Nat :=
  let res := fm.idxs.foldl (fun (res : List Nat) idx => List.insert idx.storage.diff res) []
  if res.length = 1 then
    match fm.get_block_log_idx with
    | Except.ok _tmp_idx => Except.ok _tmp_idx.storage.pos
    | Except.error e => Except.error e
  else
    Except.ok 0

/-- The function `file_manager::write`: after the `FC_ASSERT` on the number of
streams, index `i` writes to stream `i`. The result holds the streams after the
call. -/
def file_manager.write {Block : Type} (fm : file_manager Block)
    (streams : List (List (Block × Nat))) (block : Block) (position : Nat) :
    Except fc_exception (List (List (Block × Nat))) :=
  if fm.idxs.length = streams.length then
    Except.ok (List.zipWith (fun idx stream => idx.write stream block position) fm.idxs streams)
  else
    Except.error fc_exception.assert_exception

/-- The variables of the forward replay loop. -/
structure replay_state (Block : Type) where
  /-- Read position of `block_stream`. -/
  offset : Nat
  /-- The variable `pos`. -/
  pos : Nat
  /-- The content behind `index_streams`, one entry per index. -/
  index_streams : List (List (Block × Nat))
  /-- The `(block, position)` arguments of the calls of `write` made so far. -/
  writes : List (Block × Nat)

/-- The loop `while( !is_interrupt_request() && pos < end_pos )` of forward replay.
`unpack_stream` is `fc::raw::unpack` on a stream: the block read from the front of the
remaining bytes and the number of bytes consumed. `interrupt k` is the answer of the
`k`-th poll of the interrupt flag from here on. A read past the end of the log is
taken as a failure. The first argument bounds the number of iterations; every
iteration consumes at least 8 bytes of the log, so a bound above the log length is
never reached. -/
def forward_replay_loop {Block : Type} (unpack_stream : List Nat → Option (Block × Nat))
    (fm : file_manager Block) (end_pos : Nat) :
    Nat → (Nat → Bool) → replay_state Block → Option fc_exception × replay_state Block
  | 0, _, s => (some fc_exception.io_error, s)
  | fuel + 1, interrupt, s =>
    if interrupt 0 = true ∨ ¬ s.pos < end_pos then
      (none, s)
    else
      match unpack_stream (fm.block_log.content.drop s.offset) with
      | none => (some fc_exception.parse_error, s)
      | some (tmp, n) =>
        match pread_with_retry fm.block_log.content 8 (s.offset + n) with
        | Except.error e => (some e, s)
        | Except.ok bytes =>
          let pos := from_le64 bytes
          match fm.write s.index_streams tmp pos with
          | Except.error e => (some e, { s with offset := s.offset + n + 8, pos := pos })
          | Except.ok streams =>
            forward_replay_loop unpack_stream fm end_pos fuel (fun k => interrupt (k + 1))
              { offset := s.offset + n + 8, pos := pos, index_streams := streams,
                writes := s.writes ++ [(tmp, pos)] }

/-- The last loop of `construct_index`: every index in turn is opened and runs
`check_consistency`; the first failure ends the loop. The second argument is the
position of the first index of the list. -/
def check_consistency_all {Block : Type} (block_num : Nat) :
    List (base_index Block) → Nat → Option fc_exception × List (index_action Block)
  | [], _ => (none, [])
  | idx :: rest, i =>
    if idx.check_consistency block_num = true then
      ((check_consistency_all block_num rest (i + 1)).1,
        index_action.open_ i :: index_action.check_consistency i block_num
          :: (check_consistency_all block_num rest (i + 1)).2)
    else
      (some fc_exception.assert_exception,
        [index_action.open_ i, index_action.check_consistency i block_num])

/-- The index files once the streams opened on them are closed: file `i` holds the
content of stream `i`. -/
def file_manager.with_index_files {Block : Type} (fm : file_manager Block)
    (streams : List (List (Block × Nat))) : file_manager Block :=
  { fm with idxs :=
      (List.zipWith (fun idx stream => { idx with records := stream }) fm.idxs streams) }

/-- The state of forward replay when the loop is entered: on resume the block at
`index_pos` is unpacked and its trailer read into `pos`. -/
def forward_replay_start {Block : Type} (unpack_stream : List Nat → Option (Block × Nat))
    (fm : file_manager Block) (resume : Bool) (index_pos : Nat)
    (index_streams : List (List (Block × Nat))) :
    Option fc_exception × replay_state Block :=
  let pos := if resume then index_pos else 0
  if resume then
    match unpack_stream (fm.block_log.content.drop pos) with
    | none =>
      (some fc_exception.parse_error,
        { offset := pos, pos := pos, index_streams := index_streams, writes := [] })
    | some (_tmp, n) =>
      match pread_with_retry fm.block_log.content 8 (pos + n) with
      | Except.error e =>
        (some e, { offset := pos + n, pos := pos, index_streams := index_streams, writes := [] })
      | Except.ok bytes =>
        (none, { offset := pos + n + 8, pos := from_le64 bytes, index_streams := index_streams,
                 writes := [] })
  else
    (none, { offset := pos, pos := pos, index_streams := index_streams, writes := [] })

/-- The function `file_manager::construct_index` as compiled (`USE_BACKWARDS_INDEX` is
not defined): forward replay. The result is the exception raised, if any, the state
of the file manager afterwards, and the calls made on the indexes in order. Opening a
stream in append mode, seeking to its end and closing it leave the file as it is and
are not listed. -/
def file_manager.construct_index {Block : Type} (c : block_serializer Block)
    (unpack_stream : List Nat → Option (Block × Nat)) (interrupt : Nat → Bool)
    (fm : file_manager Block) :
    Option fc_exception × file_manager Block × List (index_action Block) :=
  let resume := fm.get_resume
  match fm.get_index_pos with
  | Except.error e => (some e, fm, [])
  | Except.ok index_pos =>
    match fm.block_log.head with
    | none => (some fc_exception.assert_exception, fm, [])
    | some head_block =>
      let block_num := c.block_num head_block
      let removed : List (index_action Block) :=
        if resume then [] else (List.range fm.idxs.length).map index_action.remove
      let index_streams : List (List (Block × Nat)) :=
        fm.idxs.map fun idx => if resume then idx.records else []
      match pread_with_retry fm.block_log.content 8 (fm.block_log.content.length - 8) with
      | Except.error e => (some e, fm.with_index_files index_streams, removed)
      | Except.ok bytes =>
        let end_pos := from_le64 bytes
        match forward_replay_start unpack_stream fm resume index_pos index_streams with
        | (some e, s) => (some e, fm.with_index_files s.index_streams, removed)
        | (none, s) =>
          match forward_replay_loop unpack_stream fm end_pos (fm.block_log.content.length + 1)
              interrupt s with
          | (some e, s1) =>
            (some e, fm.with_index_files s1.index_streams,
              removed ++ s1.writes.map fun w => index_action.write w.1 w.2)
          | (none, s1) =>
            ((check_consistency_all block_num (fm.with_index_files s1.index_streams).idxs 0).1,
              fm.with_index_files s1.index_streams,
              removed ++ (s1.writes.map fun w => index_action.write w.1 w.2)
                ++ (List.range fm.idxs.length).map index_action.close
                ++ (check_consistency_all block_num
                      (fm.with_index_files s1.index_streams).idxs 0).2)

/-- Modelled from the spec: `base_index::non_empty_idx_info()`, the path taken when the
log is new while the index exists: the stale index is dropped, so its file holds no
record afterwards and its recorded size is 0. -/
def base_index.non_empty_idx_info {Block : Type} (idx : base_index Block) :
    Except fc_exception (base_index Block) :=
  Except.ok { idx with records := [], storage := { idx.storage with size := 0 } }

/-- The loop of `prepare_all` over the indexes when the log is empty: every index whose
recorded size is not zero runs `non_empty_idx_info`. The virtual
`base_index::non_empty_idx_info` is the argument `non_empty_idx_info`: the index
afterwards, or the exception it raises, which ends the loop. The result is the
exception raised, if any, the indexes afterwards and the calls made in order. The
last argument is the position of the first index of the list. -/
def non_empty_idx_infos {Block : Type}
    (non_empty_idx_info : base_index Block → Except fc_exception (base_index Block)) :
    List (base_index Block) → Nat →
      Option fc_exception × List (base_index Block) × List (index_action Block)
  | [], _ => (none, [], [])
  | idx :: rest, i =>
    if idx.storage.size ≠ 0 then
      match non_empty_idx_info idx with
      | Except.error e => (some e, idx :: rest, [index_action.non_empty_idx_info i])
      | Except.ok dropped =>
        ((non_empty_idx_infos non_empty_idx_info rest (i + 1)).1,
          dropped :: (non_empty_idx_infos non_empty_idx_info rest (i + 1)).2.1,
          index_action.non_empty_idx_info i
            :: (non_empty_idx_infos non_empty_idx_info rest (i + 1)).2.2)
    else
      ((non_empty_idx_infos non_empty_idx_info rest (i + 1)).1,
        idx :: (non_empty_idx_infos non_empty_idx_info rest (i + 1)).2.1,
        (non_empty_idx_infos non_empty_idx_info rest (i + 1)).2.2)

/-- The state of `prepare_all` on a non-empty log once `head_block`, the result of
`read_head()`, is published and every index has run `prepare` with it and the
storage of the log. The virtual `base_index::prepare` is the argument `prepare`. -/
def file_manager.publish_and_prepare {Block : Type}
    (prepare : base_index Block → Block → storage_description → base_index Block)
    (fm : file_manager Block) (head_block : Block) : file_manager Block :=
  { block_log := { fm.block_log with head := some head_block },
    idxs := fm.idxs.map fun idx => prepare idx head_block fm.block_log.storage }

/-- The function `file_manager::prepare_all`. The virtual `base_index::prepare` and
`base_index::non_empty_idx_info` are the arguments `prepare` and
`non_empty_idx_info`. The result is the exception raised, if any, the state
afterwards, and the calls made on the indexes in order. -/
def file_manager.prepare_all {Block : Type} (c : block_serializer Block)
    (unpack_stream : List Nat → Option (Block × Nat))
    (prepare : base_index Block → Block → storage_description → base_index Block)
    (non_empty_idx_info : base_index Block → Except fc_exception (base_index Block))
    (interrupt : Nat → Bool) (fm : file_manager Block) :
    Option fc_exception × file_manager Block × List (index_action Block) :=
  if fm.block_log.storage.size ≠ 0 then
    match fm.read_head c with
    | Except.error e => (some e, fm, [])
    | Except.ok head_block =>
      let fm1 : file_manager Block := fm.publish_and_prepare prepare head_block
      let prepared : List (index_action Block) :=
        (List.range fm.idxs.length).map fun i => index_action.prepare i head_block
      if fm1.construct_index_allowed = true then
        ((fm1.construct_index c unpack_stream interrupt).1,
          (fm1.construct_index c unpack_stream interrupt).2.1,
          prepared ++ (fm1.construct_index c unpack_stream interrupt).2.2)
      else
        (none, fm1, prepared)
  else
    ((non_empty_idx_infos non_empty_idx_info fm.idxs 0).1,
      { fm with idxs := (non_empty_idx_infos non_empty_idx_info fm.idxs 0).2.1 },
      (non_empty_idx_infos non_empty_idx_info fm.idxs 0).2.2)

/-! ## Backward extraction -/

/-- The variables of the backward extraction loop, the slots of the new index file
(one `uint64_t` per block number) and the reads of the log made so far. -/
structure extraction_state where
  /-- The variable `block_index`. -/
  block_index : Nat
  /-- The variable `block_log_offset_of_block_pos`. -/
  block_log_offset_of_block_pos : Nat
  /-- The slots of the new index file; the slot of block `N` is entry `N - 1`. -/
  index_file : List Nat
  /-- The reads of the log. -/
  reads : List access
  deriving DecidableEq, Repr

/-- The loop `while( !is_interrupt_request() && block_index )` of backward extraction
(the code under `USE_BACKWARDS_INDEX`), started with `block_index` equal to the first
argument. A read outside the log is taken as a failure. -/
def backward_extraction_loop (content : List Nat) :
    Nat → (Nat → Bool) → extraction_state → Option fc_exception × extraction_state
  | 0, _, s => (none, s)
  | block_index + 1, interrupt, s =>
    if interrupt 0 = true then
      (none, s)
    else
      let higher_block_pos := s.block_log_offset_of_block_pos
      match pread_with_retry content 8 s.block_log_offset_of_block_pos with
      | Except.error e =>
        (some e, { s with reads := s.reads ++ [access.log_read higher_block_pos 8] })
      | Except.ok bytes =>
        let block_pos := from_le64 bytes
        if higher_block_pos ≤ block_pos then
          (some fc_exception.bad_block_index,
            { s with index_file := s.index_file.set block_index block_pos,
                     reads := s.reads ++ [access.log_read higher_block_pos 8] })
        else
          backward_extraction_loop content block_index (fun k => interrupt (k + 1))
            { block_index := block_index,
              block_log_offset_of_block_pos := sub64 block_pos 8,
              index_file := s.index_file.set block_index block_pos,
              reads := s.reads ++ [access.log_read higher_block_pos 8] }

/-- Backward extraction from its set-up to the end of its loop: the new index file is
sized to `block_num` zeroed slots and the walk starts at the last 8 bytes of the
log. -/
def file_manager.backward_extraction {Block : Type} (c : block_serializer Block)
    (interrupt : Nat → Bool) (fm : file_manager Block) :
    Option fc_exception × extraction_state :=
  match fm.block_log.head with
  | none =>
    (some fc_exception.assert_exception,
      { block_index := 0, block_log_offset_of_block_pos := 0, index_file := [], reads := [] })
  | some head_block =>
    let block_num := c.block_num head_block % 2 ^ 32
    backward_extraction_loop fm.block_log.content block_num interrupt
      { block_index := block_num,
        block_log_offset_of_block_pos := sub64 fm.block_log.storage.size 8,
        index_file := List.replicate block_num 0,
        reads := [] }

/-- The log with the 8 bytes at `offset` replaced by the image of `value`. -/
def corrupt_trailer (content : List Nat) (offset value : Nat) : List Nat :=
  store_le64 content offset value

/-! ## Appends that fail -/

/-- What the file operations of one `append` do. -/
structure append_outcome where
  /-- The value `some k` when `write_with_retry` raises after `k` bytes of the record
  reached the file, `none` when it transfers the whole record. -/
  log_write_failure : Option Nat
  /-- The position in `idxs` of the index whose `append` raises, if one does. -/
  index_append_failure : Option Nat
  deriving DecidableEq, Repr

/-- The function `file_manager::append` with the failures of its file operations: the
exception raised, if any, the state afterwards and the offset returned. -/
def file_manager.append_checked {Block : Type} (c : block_serializer Block)
    (outcome : append_outcome) (fm : file_manager Block) (b : Block) :
    Option fc_exception × file_manager Block × Option Nat :=
  let block_start_pos := fm.block_log.storage.size
  let serialized_block := append_buffer c block_start_pos b
  match outcome.log_write_failure with
  | some k =>
    (some fc_exception.io_error,
      { fm with block_log :=
          { fm.block_log with content := fm.block_log.content ++ serialized_block.take k } },
      none)
  | none =>
    let fm1 : file_manager Block :=
      { fm with block_log :=
          { fm.block_log with
            content := fm.block_log.content ++ serialized_block,
            storage := { fm.block_log.storage with
              size := (fm.block_log.storage.size + serialized_block.length) % 2 ^ 64 } } }
    match outcome.index_append_failure with
    | some j =>
      if j < fm1.idxs.length then
        (some fc_exception.io_error,
          { fm1 with idxs :=
              ((fm1.idxs.take j).map (fun idx => idx.append b block_start_pos)
                ++ fm1.idxs.drop j) },
          none)
      else
        (none, (fm.append c b).1, some (fm.append c b).2)
    | none => (none, (fm.append c b).1, some (fm.append c b).2)

/-! ## Reference behaviour of forward replay and concrete states -/

/-- Number of iterations a loop that polls the interrupt flag before each iteration
runs when at most `n` iterations are due: the polls before the first one answered
with true, at most `n`. -/
def replayed (interrupt : Nat → Bool) : Nat → Nat
  | 0 => 0
  | n + 1 => if interrupt 0 = true then 0 else replayed (fun k => interrupt (k + 1)) n + 1

/-- Number of iterations of the forward replay loop that starts at offset 0 of a log
of `n` records: none when the log holds a single record (its start, 0, is not below
the end position, 0), else as many as the interrupt flag lets through. -/
def rebuilt_count (interrupt : Nat → Bool) (n : Nat) : Nat :=
  if n ≤ 1 then 0 else replayed interrupt n

/-- The index records of the blocks `bs` of a log laid out from offset `p`: each block
with the offset of its record. -/
def layout_records {Block : Type} (c : block_serializer Block) (p : Nat) (bs : List Block) :
    List (Block × Nat) :=
  bs.zip (record_starts c p bs)

/-- The interrupt flag that is never raised. -/
def never_interrupted : Nat → Bool := fun _ => false

/-- The interrupt flag that is raised between poll `k - 1` and poll `k` and stays
raised. -/
def interrupted_from (k : Nat) : Nat → Bool := fun i => decide (k ≤ i)

/-- A file manager over the log `content` with the given head, whose indexes hold the
given records and report the given status, position-diff marker and position. -/
def file_manager.of_log {Block : Type} (content : List Nat) (head : Option Block)
    (records : List (Block × Nat)) (status : status_type) (diff pos : Nat) :
    file_manager Block :=
  { block_log :=
      { storage := { size := content.length, status := status_type.none, diff := 0, pos := 0 },
        content := content, head := head },
    idxs :=
      [ { kind := storage_type.block_log_idx,
          storage := { size := 8 * records.length, status := status, diff := diff, pos := pos },
          records := records },
        { kind := storage_type.hash_idx,
          storage := { size := 8 * records.length, status := status, diff := diff, pos := pos },
          records := records } ] }

/-- Serialization of toy blocks that delimits itself: the number in one byte, the
payload length in one byte, then the payload. -/
def framed_serializer : block_serializer toy_block :=
  { pack_to_vector := fun b => b.num :: b.payload.length :: b.payload,
    unpack := fun bytes =>
      match bytes with
      | n :: len :: rest => if rest.length = len then some { num := n, payload := rest } else none
      | _ => none,
    block_num := fun b => b.num }

/-- Reading one framed toy block from the front of a stream. -/
def framed_unpack_stream (bytes : List Nat) : Option (toy_block × Nat) :=
  match bytes with
  | n :: len :: rest =>
    if len ≤ rest.length then some ({ num := n, payload := rest.take len }, len + 2) else none
  | _ => none

/-- The log that holds the framed records of `toy_b1`, `toy_b2` and `toy_b3`. -/
def toy_log3 : List Nat := log_image framed_serializer 0 [toy_b1, toy_b2, toy_b3]

/-- The log that holds the framed record of `toy_b1` only. -/
def toy_log1 : List Nat := log_image framed_serializer 0 [toy_b1]

/-- Offsets of the trailers of the records of `bs` when they are laid out back to back
from offset `p`. -/
def trailer_offsets {Block : Type} (c : block_serializer Block) : Nat → List Block → List Nat
  | _, [] => []
  | p, b :: bs => (p + (c.pack_to_vector b).length) :: trailer_offsets c (p + record_size c b) bs

/-- The bytes of an index file whose slots hold the given `uint64_t` values. -/
def index_file_bytes (index_file : List Nat) : List Nat :=
  (index_file.map le64).flatten

end hive.chain

/-! # Account ids and counters of the SQL serializer
(`libraries/plugins/sql_serializer/sql_serializer.cpp`)
-/

namespace hive.plugins.sql_serializer

/-- The pair `id_counter_t`: the id and the counter of an account. Both components
are `uint32_t` values (the map is filled from `uint32_t` columns when it is loaded). -/
abbrev id_counter_t := Nat × Nat

/-- The map `accountname_id_counter_map_t`, as the list of its entries. A name occurs
in at most one entry; a new entry is put at the end (`get_id_with_counter` does not
depend on the order in which the map keeps its entries). -/
abbrev accountname_id_counter_map_t (account_name_type : Type) :=
  List (account_name_type × id_counter_t)

/-- The entry of `name` in the map, if there is one. -/
def find {account_name_type : Type} [DecidableEq account_name_type] :
    accountname_id_counter_map_t account_name_type → account_name_type → Option id_counter_t
  | [], _ => none
  | entry :: rest, name => if entry.1 = name then some entry.2 else find rest name

/-- The function `sql_serializer_plugin_impl::get_id_with_counter`: the map `accounts`
afterwards and the pair returned. `insert` adds the entry `(name, (accounts.size(), 0))`
when `name` has none; otherwise the counter of the entry found is increased by 1. -/
def get_id_with_counter {account_name_type : Type} [DecidableEq account_name_type]
    (accounts : accountname_id_counter_map_t account_name_type) (name : account_name_type) :
    accountname_id_counter_map_t account_name_type × id_counter_t :=
  match find accounts name with
  | none =>
    (accounts ++ [(name, (accounts.length % 2 ^ 32, 0))], (accounts.length % 2 ^ 32, 0))
  | some found =>
    (accounts.map fun entry =>
        if entry.1 = name then (entry.1, (found.1, (found.2 + 1) % 2 ^ 32)) else entry,
      (found.1, (found.2 + 1) % 2 ^ 32))

/-- The loop of `get_participants_ids` over the impacted accounts (computed outside
this file): the map afterwards and the vector returned. -/
def get_participants_ids {account_name_type : Type} [DecidableEq account_name_type] :
    accountname_id_counter_map_t account_name_type → List account_name_type →
    accountname_id_counter_map_t account_name_type × List id_counter_t
  | accounts, [] => (accounts, [])
  | accounts, acc :: impacted =>
    ((get_participants_ids (get_id_with_counter accounts acc).1 impacted).1,
      (get_id_with_counter accounts acc).2
        :: (get_participants_ids (get_id_with_counter accounts acc).1 impacted).2)

/-- The elements of `seen` followed by the elements of the list that are not in
`seen`, each once, in the order of their first occurrence. -/
def first_seen_from {α : Type} [DecidableEq α] : List α → List α → List α
  | seen, [] => seen
  | seen, x :: rest => first_seen_from (if x ∈ seen then seen else seen ++ [x]) rest

/-- The distinct elements of a list in the order of their first occurrence. -/
def first_seen {α : Type} [DecidableEq α] (l : List α) : List α :=
  first_seen_from [] l

/-- The map after the names `pre` were looked up one after the other, starting from an
empty map: its names are those of `pre` in first-seen order, the id of an entry is
its position, and the counter of a name is the number of its occurrences minus one. -/
def accounts_of {α : Type} [DecidableEq α] (accounts : accountname_id_counter_map_t α)
    (pre : List α) : Prop :=
  accounts.map Prod.fst = first_seen pre ∧
  (∀ (i : Nat) (e : α × id_counter_t), accounts[i]? = some e → e.2.1 = i) ∧
  (∀ e ∈ accounts, e.2.2 + 1 = pre.count e.1)

end hive.plugins.sql_serializer

/-! # Per-account counters of the PostgreSQL helper (`libraries/ah_manager/utilities.cpp`)
-/

namespace ah_manager

/-- The map `acc_counters_type`, `std::map<uint64_t, uint64_t>`: the value stored for
a key, if any. -/
abbrev acc_counters_type := Nat → Option Nat

/-- The function `clear_counters`: the map afterwards and the value returned. -/
def clear_counters (_acc_counters : acc_counters_type) : acc_counters_type × Nat :=
  (fun _ => none, 0)

/-- The function `get_counter` with its two `int64` arguments: the map afterwards and
the value returned. The arguments are converted to `uint32_t`; the stored counter is
a `uint64_t`, and the value read back from it is converted to `uint32_t`. -/
def get_counter (acc_counters : acc_counters_type) (account_id count : Int) :
    acc_counters_type × Nat :=
  let _account_id := (account_id % 2 ^ 32).toNat
  let _current_cnt := ((count + 1) % 2 ^ 32).toNat
  match acc_counters _account_id with
  | none =>
    (fun key => if key = _account_id then some _current_cnt else acc_counters key, _current_cnt)
  | some found =>
    (fun key => if key = _account_id then some ((found + 1) % 2 ^ 64) else acc_counters key,
      (found + 1) % 2 ^ 64 % 2 ^ 32)

/-- The values returned by successive calls of `get_counter` with the given first
arguments and second arguments, and the map afterwards. -/
def get_counter_calls : acc_counters_type → List (Int × Int) → acc_counters_type × List Nat
  | acc_counters, [] => (acc_counters, [])
  | acc_counters, call :: calls =>
    ((get_counter_calls (get_counter acc_counters call.1 call.2).1 calls).1,
      (get_counter acc_counters call.1 call.2).2
        :: (get_counter_calls (get_counter acc_counters call.1 call.2).1 calls).2)

end ah_manager

/-! # Market history buckets (`tests/plugin_tests/market_history.cpp`)
-/

namespace hive.plugins.market_history

/-- Modelled from the spec: a filled order as the market history plugin records it, the
time of the fill in seconds and the amounts of HIVE and of the other asset that
changed hands (in thousandths). -/
structure fill where
  time : Nat
  hive : Nat
  non_hive : Nat
  deriving DecidableEq, Repr

/-- Modelled from the spec: the fields of a bucket the claim speaks of. -/
structure bucket where
  seconds : Nat
  open_time : Nat
  hive_open : Nat
  hive_close : Nat
  hive_volume : Nat
  non_hive_open : Nat
  non_hive_close : Nat
  non_hive_volume : Nat
  deriving DecidableEq, Repr

/-- Modelled from the spec: the tracked bucket sizes in seconds. -/
def tracked_buckets : List Nat := [15, 60, 300, 3600, 86400]

/-- Modelled from the spec: the open time of the bucket of size `s` a fill at time `t`
belongs to, `t` rounded down to a multiple of `s`. -/
def bucket_open (t s : Nat) : Nat := t / s * s

/-- Modelled from the spec: the bucket of size `s` with open time `o` created by its
first fill, of the amounts `hive` and `non_hive`. -/
def new_bucket (s o hive non_hive : Nat) : bucket :=
  { seconds := s, open_time := o, hive_open := hive, hive_close := hive,
    hive_volume := hive, non_hive_open := non_hive, non_hive_close := non_hive,
    non_hive_volume := non_hive }

/-- Modelled from the spec: the bucket `b` after one more fill, of the amounts `hive`
and `non_hive`: the fill is its last and its volume grows by the fill. -/
def update_bucket (b : bucket) (hive non_hive : Nat) : bucket :=
  { b with hive_close := hive, hive_volume := b.hive_volume + hive,
           non_hive_close := non_hive,
           non_hive_volume := b.non_hive_volume + non_hive }

/-- Modelled from the spec: the order of the bucket index, by `(seconds, open)`. -/
def by_bucket_less (a b : bucket) : Prop :=
  a.seconds < b.seconds ∨ (a.seconds = b.seconds ∧ a.open_time < b.open_time)

instance by_bucket_less_decidable (a b : bucket) : Decidable (by_bucket_less a b) :=
  inferInstanceAs
    (Decidable (a.seconds < b.seconds ∨ (a.seconds = b.seconds ∧ a.open_time < b.open_time)))

/-- Modelled from the spec: amounts `hive` and `non_hive` of a fill are aggregated into
the bucket of size `s` with open time `o`. The buckets are kept ordered by
`(seconds, open)`; a bucket that does not exist yet is created with the fill as its
first, one that exists gets the fill as its last and its volume grows by the fill. -/
def aggregate : List bucket → Nat → Nat → Nat → Nat → List bucket
  | [], s, o, hive, non_hive => [new_bucket s o hive non_hive]
  | b :: rest, s, o, hive, non_hive =>
    if b.seconds = s ∧ b.open_time = o then
      update_bucket b hive non_hive :: rest
    else if s < b.seconds ∨ (s = b.seconds ∧ o < b.open_time) then
      new_bucket s o hive non_hive :: b :: rest
    else
      b :: aggregate rest s o hive non_hive

/-- Modelled from the spec: the buckets a fill goes into, one of each tracked size: the
size, the open time, and the amounts of the fill. -/
def fill_steps (f : fill) : List (Nat × Nat × Nat × Nat) :=
  tracked_buckets.map fun s => (s, bucket_open f.time s, f.hive, f.non_hive)

/-- The bucket index after the given aggregation steps, each a size, an open time and
the amounts of a fill, starting from an empty index. -/
def apply_steps (steps : List (Nat × Nat × Nat × Nat)) : List bucket :=
  steps.foldl (fun buckets st => aggregate buckets st.1 st.2.1 st.2.2.1 st.2.2.2) []

/-- Modelled from the spec: the bucket index after the given fills, in the order they
happened. -/
def bucket_index (fills : List fill) : List bucket :=
  apply_steps ((fills.map fill_steps).flatten)

/-- The fills, in the order they happened, that belong to the bucket of size `s` with
open time `o`. -/
def fills_of_bucket (fills : List fill) (s o : Nat) : List fill :=
  fills.filter fun f => decide (bucket_open f.time s = o)

/-- The amounts of the steps, in order, that go into the bucket of size `s` with open
time `o`. -/
def amounts_of_bucket (steps : List (Nat × Nat × Nat × Nat)) (s o : Nat) : List (Nat × Nat) :=
  (steps.filter fun st => decide (st.1 = s ∧ st.2.1 = o)).map fun st => (st.2.2.1, st.2.2.2)

/-- The bucket `b` has the open amounts of the first of `amounts`, the close amounts of
the last, and their sums as volumes. -/
def bucket_summarizes (b : bucket) (amounts : List (Nat × Nat)) : Prop :=
  amounts.head? = some (b.hive_open, b.non_hive_open) ∧
  amounts.getLast? = some (b.hive_close, b.non_hive_close) ∧
  (amounts.map Prod.fst).sum = b.hive_volume ∧
  (amounts.map Prod.snd).sum = b.non_hive_volume

/-- A bucket with its open time moved by `d` seconds. -/
def shift_bucket (d : Nat) (b : bucket) : bucket :=
  { b with open_time := b.open_time + d }

/-- A step of `fill_steps` with its open time moved by `d` seconds. -/
def shift_step (d : Nat) (st : Nat × Nat × Nat × Nat) : Nat × Nat × Nat × Nat :=
  (st.1, st.2.1 + d, st.2.2)

/-- Modelled from the spec: an entry of the order history, a fill under the id the
order history index gave it. -/
structure order_history_object where
  id : Nat
  op : fill
  deriving DecidableEq, Repr

/-- Modelled from the spec: a fill is recorded in the order history under the next free
id; the index is read in the order of the ids. -/
def record_fill (history : List order_history_object) (f : fill) :
    List order_history_object :=
  history ++ [{ id := history.length, op := f }]

/-- Modelled from the spec: the order history after the given fills, in the order they
happened. -/
def order_history (fills : List fill) : List order_history_object :=
  fills.foldl record_fill []

/-- The four fills of `mh_test`: bob's 1.500 HIVE against alice's 0.750 TBD at
`fill_order_a_time`, sam's 0.500 HIVE against alice's 0.250 TBD at
`fill_order_b_time`, and at `fill_order_c_time` alice's 0.250 TBD against sam's 0.500
HIVE and bob's 0.450 HIVE against alice's 0.250 TBD. -/
def mh_test_fills (fill_order_a_time fill_order_b_time fill_order_c_time : Nat) : List fill :=
  [ { time := fill_order_a_time, hive := 1500, non_hive := 750 },
    { time := fill_order_b_time, hive := 500, non_hive := 250 },
    { time := fill_order_c_time, hive := 500, non_hive := 250 },
    { time := fill_order_c_time, hive := 450, non_hive := 250 } ]

/-- The buckets `mh_test` requires, in the order in which it walks the bucket index:
seconds, open time, and the open, close and volume amounts of both assets. -/
def mh_test_buckets (time_a genesis_time : Nat) : List bucket :=
  [ { seconds := 15, open_time := time_a, hive_open := 1500, hive_close := 1500,
      hive_volume := 1500, non_hive_open := 750, non_hive_close := 750,
      non_hive_volume := 750 },
    { seconds := 15, open_time := time_a + 60 * 90, hive_open := 500, hive_close := 500,
      hive_volume := 500, non_hive_open := 250, non_hive_close := 250,
      non_hive_volume := 250 },
    { seconds := 15, open_time := time_a + 60 * 90 + 60, hive_open := 500, hive_close := 450,
      hive_volume := 950, non_hive_open := 250, non_hive_close := 250,
      non_hive_volume := 500 },
    { seconds := 60, open_time := time_a, hive_open := 1500, hive_close := 1500,
      hive_volume := 1500, non_hive_open := 750, non_hive_close := 750,
      non_hive_volume := 750 },
    { seconds := 60, open_time := time_a + 60 * 90, hive_open := 500, hive_close := 500,
      hive_volume := 500, non_hive_open := 250, non_hive_close := 250,
      non_hive_volume := 250 },
    { seconds := 60, open_time := time_a + 60 * 90 + 60, hive_open := 500, hive_close := 450,
      hive_volume := 950, non_hive_open := 250, non_hive_close := 250,
      non_hive_volume := 500 },
    { seconds := 300, open_time := time_a, hive_open := 1500, hive_close := 1500,
      hive_volume := 1500, non_hive_open := 750, non_hive_close := 750,
      non_hive_volume := 750 },
    { seconds := 300, open_time := time_a + 60 * 90, hive_open := 500, hive_close := 450,
      hive_volume := 1450, non_hive_open := 250, non_hive_close := 250,
      non_hive_volume := 750 },
    { seconds := 3600, open_time := time_a, hive_open := 1500, hive_close := 1500,
      hive_volume := 1500, non_hive_open := 750, non_hive_close := 750,
      non_hive_volume := 750 },
    { seconds := 3600, open_time := time_a + 60 * 60, hive_open := 500, hive_close := 450,
      hive_volume := 1450, non_hive_open := 250, non_hive_close := 250,
      non_hive_volume := 750 },
    { seconds := 86400, open_time := genesis_time, hive_open := 1500, hive_close := 450,
      hive_volume := 2950, non_hive_open := 750, non_hive_close := 250,
      non_hive_volume := 1500 } ]

end hive.plugins.market_history

namespace hive.chain

/-! ## Lemmas on encodings -/

theorem le64_eq (x : Nat) :
    le64 x = [x % 256, x / 256 % 256, x / 65536 % 256, x / 16777216 % 256,
      x / 4294967296 % 256, x / 1099511627776 % 256, x / 281474976710656 % 256,
      x / 72057594037927936 % 256] := by
  have h : List.range 8 = [0, 1, 2, 3, 4, 5, 6, 7] := by decide
  simp [le64, h]

theorem le64_length (x : Nat) : (le64 x).length = 8 := by
  simp [le64]

theorem from_le64_le64 (x : Nat) (hx : x < 2 ^ 64) : from_le64 (le64 x) = x := by
  rw [le64_eq]
  simp only [from_le64, List.foldr]
  omega

theorem sub64_of_le (a b : Nat) (ha : a < 2 ^ 64) (hb : b ≤ a) : sub64 a b = a - b := by
  unfold sub64
  omega

theorem resize_exact (v : List Nat) (n : Nat) :
    resize v (v.length + n) = v ++ List.replicate n 0 := by
  simp [resize]

theorem append_buffer_eq {Block : Type} (c : block_serializer Block) (p : Nat) (b : Block)
    (hb : (c.pack_to_vector b).length < 2 ^ 32) :
    append_buffer c p b = c.pack_to_vector b ++ le64 p := by
  simp only [append_buffer]
  rw [Nat.mod_eq_of_lt hb, resize_exact]
  simp [store_le64]

/-! ## Lemmas on `append` -/

theorem append_spec {Block : Type} (c : block_serializer Block) (fm : file_manager Block)
    (b : Block) (hsize : fm.block_log.storage.size = fm.block_log.content.length)
    (hb : (c.pack_to_vector b).length < 2 ^ 32)
    (hfit : fm.block_log.content.length + record_size c b < 2 ^ 64) :
    fm.append c b =
      ({ block_log :=
           { storage := { fm.block_log.storage with
               size := fm.block_log.content.length + record_size c b },
             content := fm.block_log.content ++ (c.pack_to_vector b
               ++ le64 fm.block_log.content.length),
             head := some b },
         idxs := fm.idxs.map fun idx => idx.append b fm.block_log.content.length },
       fm.block_log.content.length) := by
  simp only [file_manager.append, file_manager.append_to_idxs, append_buffer_eq c _ b hb,
    hsize, List.length_append, le64_length]
  rw [Nat.mod_eq_of_lt (by simpa [record_size] using hfit)]
  simp [record_size]

theorem total_size_cons {Block : Type} (c : block_serializer Block) (b : Block)
    (bs : List Block) : total_size c (b :: bs) = record_size c b + total_size c bs := by
  simp [total_size]

theorem total_size_append {Block : Type} (c : block_serializer Block) (xs ys : List Block) :
    total_size c (xs ++ ys) = total_size c xs + total_size c ys := by
  simp [total_size]

theorem record_starts_length {Block : Type} (c : block_serializer Block) (bs : List Block) :
    ∀ p, (record_starts c p bs).length = bs.length := by
  induction bs with
  | nil => intro p; rfl
  | cons b bs ih => intro p; simp [record_starts, ih]

theorem log_image_length {Block : Type} (c : block_serializer Block) (bs : List Block) :
    ∀ p, (log_image c p bs).length = total_size c bs := by
  induction bs with
  | nil => intro p; rfl
  | cons b bs ih =>
    intro p
    simp [log_image, ih, total_size_cons, record_size, le64_length]
    omega

theorem record_starts_append {Block : Type} (c : block_serializer Block) (xs ys : List Block) :
    ∀ p, record_starts c p (xs ++ ys)
      = record_starts c p xs ++ record_starts c (p + total_size c xs) ys := by
  induction xs with
  | nil => intro p; simp [record_starts, total_size]
  | cons b xs ih =>
    intro p
    simp [record_starts, ih, total_size_cons, Nat.add_assoc]

theorem log_image_append {Block : Type} (c : block_serializer Block) (xs ys : List Block) :
    ∀ p, log_image c p (xs ++ ys)
      = log_image c p xs ++ log_image c (p + total_size c xs) ys := by
  induction xs with
  | nil => intro p; simp [log_image, total_size]
  | cons b xs ih =>
    intro p
    simp [log_image, ih, total_size_cons, Nat.add_assoc]

/-- State reached by `append_all`, in closed form. -/
theorem append_all_spec {Block : Type} (c : block_serializer Block) (bs : List Block) :
    ∀ fm : file_manager Block,
      fm.block_log.storage.size = fm.block_log.content.length →
      (∀ b ∈ bs, (c.pack_to_vector b).length < 2 ^ 32) →
      fm.block_log.content.length + total_size c bs < 2 ^ 64 →
      (fm.append_all c bs).2 = record_starts c fm.block_log.content.length bs ∧
      (fm.append_all c bs).1.block_log.content
        = fm.block_log.content ++ log_image c fm.block_log.content.length bs ∧
      (fm.append_all c bs).1.block_log.storage.size
        = fm.block_log.content.length + total_size c bs ∧
      (fm.append_all c bs).1.idxs = fm.idxs.map (fun idx =>
        { idx with records := idx.records
            ++ bs.zip (record_starts c fm.block_log.content.length bs) }) ∧
      (fm.append_all c bs).1.block_log.head = (bs.getLast?).or fm.block_log.head := by
  induction bs with
  | nil =>
    intro fm hsize _ _
    simp [file_manager.append_all, record_starts, log_image, total_size, hsize]
  | cons b bs ih =>
    intro fm hsize hb hfit
    have hb1 : (c.pack_to_vector b).length < 2 ^ 32 := hb b (List.mem_cons_self _ _)
    rw [total_size_cons] at hfit
    have hstep := append_spec c fm b hsize hb1 (by omega)
    have hlen : (fm.append c b).1.block_log.content.length
        = fm.block_log.content.length + record_size c b := by
      rw [hstep]; simp [record_size, le64_length]
    have ih1 := ih (fm.append c b).1 (by rw [hlen, hstep])
      (fun x hx => hb x (List.mem_cons_of_mem _ hx)) (by rw [hlen]; omega)
    rw [hlen] at ih1
    obtain ⟨h1, h2, h3, h4, h5⟩ := ih1
    simp only [file_manager.append_all]
    refine ⟨?_, ?_, ?_, ?_, ?_⟩
    · rw [h1, hstep]; simp [record_starts]
    · rw [h2, hstep]; simp [log_image]
    · rw [h3, total_size_cons]; omega
    · rw [h4, hstep]
      simp [record_starts, base_index.append, List.map_map, Function.comp_def]
    · rw [h5, hstep]
      cases bs with
      | nil => simp
      | cons x xs =>
        have hg : ∃ y, (x :: xs).getLast? = some y := by
          cases h : (x :: xs).getLast? with
          | none => simp at h
          | some y => exact ⟨y, rfl⟩
        obtain ⟨y, hy⟩ := hg
        simp [List.getLast?_cons_cons, hy]

theorem total_size_eq {Block : Type} (c : block_serializer Block) (bs : List Block) :
    total_size c bs = (bs.map fun x => (c.pack_to_vector x).length + 8).sum := rfl

/-- State reached by `append_all` from the fresh file manager, in closed form. -/
theorem append_all_fresh {Block : Type} (c : block_serializer Block) (bs : List Block)
    (hb : ∀ b ∈ bs, (c.pack_to_vector b).length < 2 ^ 32)
    (hfit : total_size c bs < 2 ^ 64) :
    ((file_manager.fresh Block).append_all c bs).2 = record_starts c 0 bs ∧
    ((file_manager.fresh Block).append_all c bs).1.block_log.content = log_image c 0 bs ∧
    ((file_manager.fresh Block).append_all c bs).1.block_log.storage.size = total_size c bs ∧
    ((file_manager.fresh Block).append_all c bs).1.idxs =
      [ { kind := storage_type.block_log_idx, storage := storage_description.fresh,
          records := bs.zip (record_starts c 0 bs) },
        { kind := storage_type.hash_idx, storage := storage_description.fresh,
          records := bs.zip (record_starts c 0 bs) } ] ∧
    ((file_manager.fresh Block).append_all c bs).1.block_log.head = bs.getLast? := by
  have h := append_all_spec c bs (file_manager.fresh Block) rfl hb
    (by simpa [file_manager.fresh] using hfit)
  simpa [file_manager.fresh] using h

/-! ## Lemmas on slices of the reference layout -/

theorem split_at_index {α : Type} : ∀ (l : List α) (i : Nat) (x : α),
    l[i]? = some x → l = l.take i ++ x :: l.drop (i + 1) := by
  intro l
  induction l with
  | nil => intro i x h; simp at h
  | cons a l ih =>
    intro i x h
    cases i with
    | zero => simp at h; simp [h]
    | succ i =>
      simp at h
      simp only [List.take_succ_cons, List.drop_succ_cons, List.cons_append]
      rw [← ih i x h]

theorem take_succ_of_index {α : Type} : ∀ (l : List α) (i : Nat) (x : α),
    l[i]? = some x → l.take (i + 1) = l.take i ++ [x] := by
  intro l
  induction l with
  | nil => intro i x h; simp at h
  | cons a l ih =>
    intro i x h
    cases i with
    | zero => simp at h; simp [h]
    | succ i =>
      simp at h
      simp [ih i x h]

theorem record_starts_index {Block : Type} (c : block_serializer Block) (bs : List Block) :
    ∀ (p i : Nat), i < bs.length →
      (record_starts c p bs)[i]? = some (p + total_size c (bs.take i)) := by
  induction bs with
  | nil => intro p i h; simp at h
  | cons b bs ih =>
    intro p i h
    cases i with
    | zero => simp [record_starts, total_size]
    | succ i =>
      simp only [List.length_cons, Nat.add_lt_add_iff_right] at h
      simp [record_starts, ih _ i h, total_size_cons, Nat.add_assoc]

theorem total_size_take_succ {Block : Type} (c : block_serializer Block) (bs : List Block)
    (i : Nat) (b : Block) (h : bs[i]? = some b) :
    total_size c (bs.take (i + 1)) = total_size c (bs.take i) + record_size c b := by
  rw [take_succ_of_index bs i b h, total_size_append]
  simp [total_size]

/-- The reference layout from the start of record `i` on. -/
theorem log_image_drop {Block : Type} (c : block_serializer Block) (bs : List Block)
    (p i : Nat) (b : Block) (h : bs[i]? = some b) :
    (log_image c p bs).drop (total_size c (bs.take i))
      = c.pack_to_vector b ++ le64 (p + total_size c (bs.take i))
        ++ log_image c (p + total_size c (bs.take i) + record_size c b) (bs.drop (i + 1)) := by
  have hsplit := split_at_index bs i b h
  have h1 : log_image c p bs = log_image c p (bs.take i)
      ++ log_image c (p + total_size c (bs.take i)) (b :: bs.drop (i + 1)) := by
    conv_lhs => rw [hsplit]
    rw [log_image_append]
  rw [h1, List.drop_left' (log_image_length c _ _)]
  simp [log_image]

/-- The serialized bytes of record `i` in the reference layout. -/
theorem log_image_block_bytes {Block : Type} (c : block_serializer Block) (bs : List Block)
    (p i : Nat) (b : Block) (h : bs[i]? = some b) :
    ((log_image c p bs).drop (total_size c (bs.take i))).take (c.pack_to_vector b).length
      = c.pack_to_vector b := by
  rw [log_image_drop c bs p i b h, List.append_assoc, List.take_left' rfl]

/-- The trailer of record `i` in the reference layout. -/
theorem log_image_trailer {Block : Type} (c : block_serializer Block) (bs : List Block)
    (p i : Nat) (b : Block) (h : bs[i]? = some b) :
    ((log_image c p bs).drop (total_size c (bs.take i) + (c.pack_to_vector b).length)).take 8
      = le64 (p + total_size c (bs.take i)) := by
  rw [← List.drop_drop, log_image_drop c bs p i b h, List.append_assoc,
    List.drop_left' rfl, List.take_left' (le64_length _)]

/-! ## Lemmas on `read_head` -/

theorem pread_with_retry_mid (L s r : List Nat) :
    pread_with_retry (L ++ (s ++ r)) s.length L.length = Except.ok s := by
  unfold pread_with_retry
  rw [if_pos (by simp), List.drop_left' rfl, List.take_left' rfl]

theorem pread_with_retry_tail (L s : List Nat) (n : Nat) (hs : s.length = n) :
    pread_with_retry (L ++ s) n L.length = Except.ok s := by
  unfold pread_with_retry
  rw [if_pos (by simp [hs]), List.drop_left' rfl, List.take_of_length_le (by omega)]

theorem sub64_sub64_record (T n : Nat) (h : T + n + 8 < 2 ^ 64) :
    sub64 (sub64 (T + n + 8) T) 8 = n := by
  unfold sub64
  omega

/-- The function `read_head` on a log that ends with the record `s ++ le64 |L|`. -/
theorem read_head_traced_of_layout {Block : Type} (c : block_serializer Block)
    (fm : file_manager Block) (L s : List Nat) (b : Block)
    (hcontent : fm.block_log.content = L ++ (s ++ le64 L.length))
    (hfit : L.length + s.length + 8 < 2 ^ 64)
    (hunpack : c.unpack s = some b) :
    fm.read_head_traced c
      = (Except.ok b,
          [access.log_read (L.length + s.length) 8, access.log_read L.length s.length]) := by
  have hlen : fm.block_log.content.length = L.length + s.length + 8 := by
    rw [hcontent]
    simp only [List.length_append, le64_length]
    omega
  have htrailer : pread_with_retry fm.block_log.content 8 (L.length + s.length + 8 - 8)
      = Except.ok (le64 L.length) := by
    have h := pread_with_retry_tail (L ++ s) (le64 L.length) 8 (le64_length _)
    rw [List.length_append, List.append_assoc] at h
    rw [hcontent, Nat.add_sub_cancel]
    exact h
  have hblock : read_block_from_offset_and_size c fm.block_log.content L.length s.length
      = Except.ok b := by
    unfold read_block_from_offset_and_size
    rw [hcontent, pread_with_retry_mid]
    simp only [hunpack]
  unfold file_manager.read_head_traced
  simp only [hlen]
  rw [if_neg (by omega), htrailer]
  simp only [from_le64_le64 L.length (by omega), sub64_sub64_record L.length s.length hfit,
    hblock, Nat.add_sub_cancel]

/-! ## Claims on `append`, `read_block_by_num` and `read_head` -/

/-- C1 (as stated, refuted): a block whose block number is 0 is appended to an
empty log without error, and `read_block_by_num` of its number then returns an
empty optional instead of the block. -/
theorem C1_round_trip_fails_for_block_number_zero :
    file_manager.read_block_by_num toy_serializer
        ((file_manager.fresh toy_block).append toy_serializer { num := 0, payload := [7] }).1
        (toy_serializer.block_num { num := 0, payload := [7] })
      = Except.ok none ∧
    file_manager.read_block_by_num toy_serializer
        ((file_manager.fresh toy_block).append toy_serializer { num := 0, payload := [7] }).1
        (toy_serializer.block_num { num := 0, payload := [7] })
      ≠ Except.ok (some { num := 0, payload := [7] }) := by
  constructor
  · rfl
  · intro h
    cases h

/-- C1 (amended): for every state and every block `b` whose block number is not 0,
after a successful `append(b)` the call `read_block_by_num(b.block_num())` returns
a present value equal to `b`, without raising. -/
theorem C1_round_trip {Block : Type} (c : block_serializer Block) (fm : file_manager Block)
    (b : Block) (hnum : c.block_num b ≠ 0) :
    (fm.append c b).1.read_block_by_num c (c.block_num b) = Except.ok (some b) := by
  simp [file_manager.read_block_by_num, file_manager.read_block_by_num_traced,
    file_manager.append, file_manager.append_to_idxs, hnum]

theorem C1_round_trip_witness :
    toy_serializer.block_num { num := 3, payload := [7, 9] } ≠ 0 ∧
    file_manager.read_block_by_num toy_serializer
        ((file_manager.fresh toy_block).append toy_serializer { num := 3, payload := [7, 9] }).1
        (toy_serializer.block_num { num := 3, payload := [7, 9] })
      = Except.ok (some { num := 3, payload := [7, 9] }) :=
  ⟨by decide, C1_round_trip toy_serializer (file_manager.fresh toy_block)
    { num := 3, payload := [7, 9] } (by decide)⟩

/-- C2: in every state, `read_block_by_num(n)` returns an empty optional without
raising and without any access to the position index or the log when `n` is 0,
when no head is published, or when `n` exceeds the head's block number; in
particular this holds for `n = 0` and for `n = head + 1`. -/
theorem C2_not_found_boundary {Block : Type} (c : block_serializer Block)
    (fm : file_manager Block) :
    (∀ n, (n = 0 ∨ fm.block_log.head = none
          ∨ ∃ h, fm.block_log.head = some h ∧ c.block_num h < n) →
        fm.read_block_by_num_traced c n = (Except.ok none, []) ∧
        fm.read_block_by_num c n = Except.ok none) ∧
    fm.read_block_by_num_traced c 0 = (Except.ok none, []) ∧
    (∀ h, fm.block_log.head = some h →
        fm.read_block_by_num_traced c (c.block_num h + 1) = (Except.ok none, [])) := by
  have key : ∀ n, (n = 0 ∨ fm.block_log.head = none
      ∨ ∃ h, fm.block_log.head = some h ∧ c.block_num h < n) →
      fm.read_block_by_num_traced c n = (Except.ok none, []) := by
    intro n hn
    unfold file_manager.read_block_by_num_traced
    rcases hn with h0 | hnone | ⟨h, hh, hlt⟩
    · subst h0
      cases fm.block_log.head <;> simp
    · rw [hnone]
    · rw [hh]
      simp [hlt]
  refine ⟨fun n hn => ⟨key n hn, ?_⟩, key 0 (Or.inl rfl), fun h hh => ?_⟩
  · simp [file_manager.read_block_by_num, key n hn]
  · exact key _ (Or.inr (Or.inr ⟨h, hh, Nat.lt_succ_self _⟩))

/-- C7: for every log file shorter than 8 bytes, `read_head` raises (the size
assertion fails) and issues no read at all, neither of the trailer nor of block
bytes; this covers the empty log of a fresh file manager. -/
theorem C7_read_head_fails_below_8_bytes {Block : Type} (c : block_serializer Block) :
    (∀ fm : file_manager Block, fm.block_log.content.length < 8 →
        fm.read_head_traced c = (Except.error fc_exception.assert_exception, []) ∧
        fm.read_head c = Except.error fc_exception.assert_exception) ∧
    (file_manager.fresh Block).read_head_traced c
      = (Except.error fc_exception.assert_exception, []) := by
  have key : ∀ fm : file_manager Block, fm.block_log.content.length < 8 →
      fm.read_head_traced c = (Except.error fc_exception.assert_exception, []) := by
    intro fm hlt
    simp [file_manager.read_head_traced, hlt]
  refine ⟨fun fm hlt => ⟨key fm hlt, ?_⟩, key _ (by simp [file_manager.fresh])⟩
  simp [file_manager.read_head, key fm hlt]

/-- C8: in every state whose published head is `h`, for `n ≠ 0` equal to the head's
block number, `read_block_by_num(n)` returns `h` itself and accesses neither the
position index nor the log; any two states with the same head give the same
answer whatever their indexes and log files hold. -/
theorem C8_head_shortcut {Block : Type} (c : block_serializer Block)
    (fm : file_manager Block) (h : Block) (n : Nat)
    (hhead : fm.block_log.head = some h) (hn0 : n ≠ 0) (hn : n = c.block_num h) :
    fm.read_block_by_num_traced c n = (Except.ok (some h), []) ∧
    fm.read_block_by_num c n = Except.ok (some h) ∧
    ∀ fm2 : file_manager Block, fm2.block_log.head = some h →
      fm2.read_block_by_num_traced c n = fm.read_block_by_num_traced c n := by
  have key : ∀ g : file_manager Block, g.block_log.head = some h →
      g.read_block_by_num_traced c n = (Except.ok (some h), []) := by
    intro g hg
    subst hn
    simp [file_manager.read_block_by_num_traced, hg, hn0]
  refine ⟨key fm hhead, ?_, fun fm2 h2 => ?_⟩
  · simp [file_manager.read_block_by_num, key fm hhead]
  · rw [key fm2 h2, key fm hhead]

/-- C3: for every log content `L` whose recorded size equals `|L|` and every block
`b` with serialization `s` (shorter than `2 ^ 32` bytes, the range of the
`unsigned` byte count, with `|L| + |s| + 8` below `2 ^ 64`), a successful
`append(b)` leaves the log equal to `L ++ s ++ le64 |L|`: the first `|L|` bytes are
the old content, the new record is the serialized block followed by the 8-byte
offset of its own start, and the recorded size grows by exactly `|s| + 8`. -/
theorem C3_append_layout {Block : Type} (c : block_serializer Block)
    (fm : file_manager Block) (b : Block)
    (hsize : fm.block_log.storage.size = fm.block_log.content.length)
    (hb : (c.pack_to_vector b).length < 2 ^ 32)
    (hfit : fm.block_log.content.length + (c.pack_to_vector b).length + 8 < 2 ^ 64) :
    (fm.append c b).1.block_log.content
      = fm.block_log.content ++ c.pack_to_vector b ++ le64 fm.block_log.content.length ∧
    (fm.append c b).1.block_log.content.take fm.block_log.content.length
      = fm.block_log.content ∧
    (fm.append c b).1.block_log.content.drop fm.block_log.content.length
      = c.pack_to_vector b ++ le64 fm.block_log.content.length ∧
    (fm.append c b).1.block_log.storage.size
      = fm.block_log.storage.size + ((c.pack_to_vector b).length + 8) := by
  have h := append_spec c fm b hsize hb (by simp only [record_size]; omega)
  rw [h]
  simp [hsize, record_size]

theorem C3_append_layout_witness :
    toy_fm1.block_log.storage.size = toy_fm1.block_log.content.length ∧
    (toy_fm1.append toy_serializer toy_b2).1.block_log.content
      = toy_fm1.block_log.content ++ toy_serializer.pack_to_vector toy_b2
        ++ le64 toy_fm1.block_log.content.length ∧
    (toy_fm1.append toy_serializer toy_b2).1.block_log.content
      = [1, 5, 0, 0, 0, 0, 0, 0, 0, 0, 2, 6, 7, 10, 0, 0, 0, 0, 0, 0, 0] :=
  ⟨by decide,
    (C3_append_layout toy_serializer toy_fm1 toy_b2 (by decide) (by decide) (by decide)).1,
    by decide⟩

/-- C4: starting from an empty log, the append that follows the appends of the blocks
`pre` returns the sum over `pre` of (serialized size + 8); the bytes of the new
record are written at that offset and every index is handed that position. For
three blocks of serialized sizes 100, 150 and 120 the returned offsets and the
positions in the indexes are 0, 108 and 266. Sizes are taken within the range of
their machine types (`unsigned` byte counts, `uint64_t` offsets). -/
theorem C4_append_returns_start_offset {Block : Type} (c : block_serializer Block) :
    (∀ (pre : List Block) (b : Block),
      (∀ x ∈ pre ++ [b], (c.pack_to_vector x).length < 2 ^ 32) →
      ((pre ++ [b]).map fun x => (c.pack_to_vector x).length + 8).sum < 2 ^ 64 →
      (((file_manager.fresh Block).append_all c pre).1.append c b).2
        = (pre.map fun x => (c.pack_to_vector x).length + 8).sum ∧
      (((file_manager.fresh Block).append_all c pre).1.append c b).1.block_log.content.drop
          ((pre.map fun x => (c.pack_to_vector x).length + 8).sum)
        = c.pack_to_vector b
          ++ le64 ((pre.map fun x => (c.pack_to_vector x).length + 8).sum) ∧
      ∀ idx ∈ (((file_manager.fresh Block).append_all c pre).1.append c b).1.idxs,
        idx.records.getLast?
          = some (b, (pre.map fun x => (c.pack_to_vector x).length + 8).sum)) ∧
    (∀ b1 b2 b3 : Block,
      (c.pack_to_vector b1).length = 100 → (c.pack_to_vector b2).length = 150 →
      (c.pack_to_vector b3).length = 120 →
      ((file_manager.fresh Block).append_all c [b1, b2, b3]).2 = [0, 108, 266] ∧
      ∀ idx ∈ ((file_manager.fresh Block).append_all c [b1, b2, b3]).1.idxs,
        idx.offsets = [0, 108, 266]) := by
  constructor
  · intro pre b hb hfit
    rw [← total_size_eq, total_size_append] at hfit
    have hfit1 : total_size c pre + record_size c b < 2 ^ 64 := by
      simpa [total_size] using hfit
    obtain ⟨-, h2, h3, h4, -⟩ := append_all_fresh c pre
      (fun x hx => hb x (List.mem_append_left _ hx)) (by omega)
    have hlen : ((file_manager.fresh Block).append_all c pre).1.block_log.content.length
        = total_size c pre := by rw [h2, log_image_length]
    have hb1 : (c.pack_to_vector b).length < 2 ^ 32 := hb b (by simp)
    have hstep := append_spec c ((file_manager.fresh Block).append_all c pre).1 b
      (by rw [h3, hlen]) hb1 (by rw [hlen]; exact hfit1)
    rw [hlen] at hstep
    rw [hstep, ← total_size_eq]
    refine ⟨rfl, ?_, ?_⟩
    · simp only []
      rw [← hlen]
      simp
    · intro idx hidx
      simp only [List.mem_map] at hidx
      obtain ⟨i, -, rfl⟩ := hidx
      simp [base_index.append]
  · intro b1 b2 b3 h1 h2 h3
    obtain ⟨e1, -, -, e4, -⟩ := append_all_fresh c [b1, b2, b3]
      (by intro x hx; simp at hx; rcases hx with rfl | rfl | rfl <;> omega)
      (by simp [total_size, record_size, h1, h2, h3])
    have hs : record_starts c 0 [b1, b2, b3] = [0, 108, 266] := by
      simp [record_starts, record_size, h1, h2, h3]
    rw [e1, e4, hs]
    refine ⟨rfl, ?_⟩
    intro idx hidx
    simp at hidx
    rcases hidx with rfl | rfl <;> simp [base_index.offsets]

/-- C5: after appending the blocks `bs` to an empty log, one offset is returned per
block, and for every record `i` that has a successor, with `s` and `t` the offsets
returned by appends `i` and `i + 1`, the byte range `[s, t - 8)` of the log is
exactly the serialization of block `i` (so its size is `t - s - 8`) and the 8 bytes
that follow it encode `s`. Sizes are taken within the range of their machine
types. -/
theorem C5_self_describing_sizing {Block : Type} (c : block_serializer Block)
    (bs : List Block)
    (hb : ∀ x ∈ bs, (c.pack_to_vector x).length < 2 ^ 32)
    (hfit : (bs.map fun x => (c.pack_to_vector x).length + 8).sum < 2 ^ 64) :
    ((file_manager.fresh Block).append_all c bs).2.length = bs.length ∧
    ∀ (i s t : Nat) (b : Block),
      ((file_manager.fresh Block).append_all c bs).2[i]? = some s →
      ((file_manager.fresh Block).append_all c bs).2[i + 1]? = some t →
      bs[i]? = some b →
      ((((file_manager.fresh Block).append_all c bs).1.block_log.content.drop s).take
          (t - 8 - s) = c.pack_to_vector b) ∧
      t - s - 8 = (c.pack_to_vector b).length ∧
      ((((file_manager.fresh Block).append_all c bs).1.block_log.content.drop (t - 8)).take 8
          = le64 s) := by
  obtain ⟨e1, e2, -, -, -⟩ := append_all_fresh c bs hb hfit
  rw [e1, e2]
  refine ⟨record_starts_length c bs 0, ?_⟩
  intro i s t b hs ht hbi
  have hi : i + 1 < bs.length := by
    have := (List.getElem?_eq_some_iff.mp ht).1
    rwa [record_starts_length] at this
  rw [record_starts_index c bs 0 i (by omega)] at hs
  rw [record_starts_index c bs 0 (i + 1) hi, total_size_take_succ c bs i b hbi] at ht
  simp only [Option.some.injEq, Nat.zero_add] at hs ht
  subst hs ht
  have h1 := log_image_block_bytes c bs 0 i b hbi
  have h2 := log_image_trailer c bs 0 i b hbi
  simp only [record_size, Nat.zero_add] at *
  have a1 : total_size c (List.take i bs) + ((c.pack_to_vector b).length + 8) - 8
      - total_size c (List.take i bs) = (c.pack_to_vector b).length := by omega
  have a2 : total_size c (List.take i bs) + ((c.pack_to_vector b).length + 8) - 8
      = total_size c (List.take i bs) + (c.pack_to_vector b).length := by omega
  rw [a1, a2]
  exact ⟨h1, by omega, h2⟩

theorem C5_self_describing_sizing_witness :
    (∀ x ∈ [toy_b1, toy_b2, toy_b3], (toy_serializer.pack_to_vector x).length < 2 ^ 32) ∧
    ([toy_b1, toy_b2, toy_b3].map fun x => (toy_serializer.pack_to_vector x).length + 8).sum
      < 2 ^ 64 ∧
    ((((file_manager.fresh toy_block).append_all toy_serializer
        [toy_b1, toy_b2, toy_b3]).1.block_log.content.drop 10).take (21 - 8 - 10)
      = toy_serializer.pack_to_vector toy_b2) ∧
    21 - 10 - 8 = (toy_serializer.pack_to_vector toy_b2).length ∧
    ((((file_manager.fresh toy_block).append_all toy_serializer
        [toy_b1, toy_b2, toy_b3]).1.block_log.content.drop (21 - 8)).take 8 = le64 10) :=
  ⟨by decide, by decide,
    (C5_self_describing_sizing toy_serializer [toy_b1, toy_b2, toy_b3] (by decide)
      (by decide)).2 1 10 21 toy_b2 (by decide) (by decide) (by decide)⟩

/-- C6: for every log produced by appending the blocks `pre` and then `b` to an empty
log, the last 8 bytes of the file encode the start offset of the record of `b`;
`read_head` reads those 8 bytes, then the bytes from that offset up to the trailer,
and returns the block deserialized from them, which equals `b`. The serializer is
assumed to recover `b` from its own serialization; sizes are taken within the
range of their machine types. -/
theorem C6_read_head_recovers_last_block {Block : Type} (c : block_serializer Block)
    (pre : List Block) (b : Block)
    (hb : ∀ x ∈ pre ++ [b], (c.pack_to_vector x).length < 2 ^ 32)
    (hfit : ((pre ++ [b]).map fun x => (c.pack_to_vector x).length + 8).sum < 2 ^ 64)
    (hunpack : c.unpack (c.pack_to_vector b) = some b) :
    from_le64 (((file_manager.fresh Block).append_all c (pre ++ [b])).1.block_log.content.drop
        (((file_manager.fresh Block).append_all c (pre ++ [b])).1.block_log.content.length - 8))
      = (pre.map fun x => (c.pack_to_vector x).length + 8).sum ∧
    ((file_manager.fresh Block).append_all c (pre ++ [b])).1.read_head_traced c
      = (Except.ok b,
          [access.log_read
            (((file_manager.fresh Block).append_all c (pre ++ [b])).1.block_log.content.length - 8)
            8,
           access.log_read ((pre.map fun x => (c.pack_to_vector x).length + 8).sum)
            (c.pack_to_vector b).length]) ∧
    ((file_manager.fresh Block).append_all c (pre ++ [b])).1.read_head c = Except.ok b := by
  obtain ⟨-, e2, -, -, -⟩ := append_all_fresh c (pre ++ [b]) hb hfit
  rw [← total_size_eq, total_size_append] at hfit
  rw [← total_size_eq]
  have hrec : total_size c [b] = (c.pack_to_vector b).length + 8 := by
    simp [total_size, record_size]
  rw [hrec] at hfit
  have hpre : (log_image c 0 pre).length = total_size c pre := log_image_length c pre 0
  have hcontent : ((file_manager.fresh Block).append_all c (pre ++ [b])).1.block_log.content
      = log_image c 0 pre ++ (c.pack_to_vector b ++ le64 (log_image c 0 pre).length) := by
    rw [e2, log_image_append, hpre]
    simp [log_image]
  have hfit1 : (log_image c 0 pre).length + (c.pack_to_vector b).length + 8 < 2 ^ 64 := by
    rw [hpre]
    omega
  have htr := read_head_traced_of_layout c ((file_manager.fresh Block).append_all c (pre ++ [b])).1
    (log_image c 0 pre) (c.pack_to_vector b) b hcontent hfit1 hunpack
  have hlen : ((file_manager.fresh Block).append_all c (pre ++ [b])).1.block_log.content.length
      = total_size c pre + (c.pack_to_vector b).length + 8 := by
    rw [hcontent]
    simp only [List.length_append, le64_length, hpre]
    omega
  rw [hpre] at htr
  refine ⟨?_, ?_, ?_⟩
  · rw [hlen, Nat.add_sub_cancel, hcontent, ← List.append_assoc,
      List.drop_left' (by rw [List.length_append, hpre]), hpre]
    exact from_le64_le64 _ (by omega)
  · rw [hlen, Nat.add_sub_cancel, htr]
  · rw [file_manager.read_head, htr]

theorem C6_read_head_recovers_last_block_witness :
    (∀ x ∈ [toy_b1, toy_b2] ++ [toy_b3], (toy_serializer.pack_to_vector x).length < 2 ^ 32) ∧
    (([toy_b1, toy_b2] ++ [toy_b3]).map
      fun x => (toy_serializer.pack_to_vector x).length + 8).sum < 2 ^ 64 ∧
    toy_serializer.unpack (toy_serializer.pack_to_vector toy_b3) = some toy_b3 ∧
    ((file_manager.fresh toy_block).append_all toy_serializer
      ([toy_b1, toy_b2] ++ [toy_b3])).1.read_head toy_serializer = Except.ok toy_b3 :=
  ⟨by decide, by decide, by decide,
    (C6_read_head_recovers_last_block toy_serializer [toy_b1, toy_b2] toy_b3 (by decide)
      (by decide) (by decide)).2.2⟩

/-! ## Claims on older-block lookup and index growth -/

theorem zip_record_starts_offsets {Block : Type} (c : block_serializer Block) (bs : List Block)
    (p : Nat) : (bs.zip (record_starts c p bs)).map Prod.snd = record_starts c p bs := by
  apply List.map_snd_zip
  rw [record_starts_length]

theorem read_block_from_layout {Block : Type} (c : block_serializer Block) (bs : List Block)
    (i : Nat) (b : Block) (hbi : bs[i]? = some b)
    (hunpack : c.unpack (c.pack_to_vector b) = some b) :
    read_block_from_offset_and_size c (log_image c 0 bs) (total_size c (bs.take i))
      (c.pack_to_vector b).length = Except.ok b := by
  have hi : i < bs.length := (List.getElem?_eq_some_iff.mp hbi).1
  have hsplit := log_image_drop c bs 0 i b hbi
  have hlen := log_image_length c bs 0
  have hle : total_size c (bs.take i) + (c.pack_to_vector b).length ≤ (log_image c 0 bs).length := by
    have h1 : ((log_image c 0 bs).drop (total_size c (bs.take i))).length
        = (log_image c 0 bs).length - total_size c (bs.take i) := List.length_drop _ _
    rw [hsplit] at h1
    simp only [List.length_append, le64_length] at h1
    omega
  unfold read_block_from_offset_and_size pread_with_retry
  rw [if_pos hle, log_image_block_bytes c bs 0 i b hbi]
  simp only [hunpack]

theorem C8_head_shortcut_witness :
    toy_fm1.block_log.head = some toy_b1 ∧ (1 : Nat) ≠ 0 ∧ 1 = toy_serializer.block_num toy_b1 ∧
    toy_fm1.read_block_by_num_traced toy_serializer 1 = (Except.ok (some toy_b1), []) :=
  ⟨rfl, by decide, rfl,
    (C8_head_shortcut toy_serializer toy_fm1 toy_b1 1 rfl (by decide) rfl).1⟩

/-- C9: whenever the head `h` is published and `0 < n < h.block_num()`,
`read_block_by_num(n)` returns the block deserialized from exactly the byte range
`(offset, size)` the position index's `read` returns for `n`, after one index lookup
and one log read of that range (and raises what the lookup or the read raises). On a
log and indexes built from empty by appending blocks numbered `1..k`, for `n < k` this
is the `n`-th appended block. The serializer is assumed to recover each block from its
own serialization; sizes are taken within the range of their machine types. -/
theorem C9_older_block_lookup {Block : Type} (c : block_serializer Block) :
    (∀ (fm : file_manager Block) (h : Block) (n : Nat) (idx : base_index Block)
        (offset size : Nat),
      fm.block_log.head = some h → 0 < n → n < c.block_num h →
      fm.get_block_log_idx = Except.ok idx → idx.read n = Except.ok (offset, size) →
      fm.read_block_by_num_traced c n
        = ((read_block_from_offset_and_size c fm.block_log.content offset size).map some,
            [access.index_read n, access.log_read offset size])) ∧
    (∀ (bs : List Block) (i : Nat) (b : Block),
      (∀ x ∈ bs, (c.pack_to_vector x).length < 2 ^ 32) →
      (bs.map fun x => (c.pack_to_vector x).length + 8).sum < 2 ^ 64 →
      (∀ (j : Nat) (x : Block), bs[j]? = some x → c.block_num x = j + 1) →
      bs[i]? = some b → i + 1 < bs.length →
      c.unpack (c.pack_to_vector b) = some b →
      ((file_manager.fresh Block).append_all c bs).1.read_block_by_num_traced c (i + 1)
        = (Except.ok (some b),
            [access.index_read (i + 1),
             access.log_read ((bs.take i).map fun x => (c.pack_to_vector x).length + 8).sum
               (c.pack_to_vector b).length])) := by
  constructor
  · intro fm h n idx offset size hhead hn0 hn hidx hread
    unfold file_manager.read_block_by_num_traced
    simp only [hhead, hidx, hread]
    rw [if_neg (by omega), if_neg (by omega)]
    cases read_block_from_offset_and_size c fm.block_log.content offset size <;> rfl
  · intro bs i b hb hfit hnum hbi hi hunpack
    obtain ⟨-, e2, -, e4, e5⟩ := append_all_fresh c bs hb hfit
    rw [← total_size_eq]
    have hlast : ∃ h, bs.getLast? = some h ∧ c.block_num h = bs.length := by
      have hne : bs ≠ [] := by intro h0; subst h0; simp at hi
      refine ⟨bs.getLast hne, List.getLast?_eq_getLast _ hne, ?_⟩
      have hget : bs[bs.length - 1]? = some (bs.getLast hne) := by
        rw [List.getLast_eq_getElem]
        exact List.getElem?_eq_getElem _
      have := hnum _ _ hget
      omega
    obtain ⟨h, hh, hhnum⟩ := hlast
    have hs1 : (record_starts c 0 bs)[i]? = some (total_size c (bs.take i)) := by
      rw [record_starts_index c bs 0 i (by omega), Nat.zero_add]
    have hs2 : (record_starts c 0 bs)[i + 1]?
        = some (total_size c (bs.take i) + record_size c b) := by
      rw [record_starts_index c bs 0 (i + 1) hi, Nat.zero_add, total_size_take_succ c bs i b hbi]
    have hTi : total_size c (bs.take i) + record_size c b ≤ total_size c bs := by
      have h1 := total_size_take_succ c bs i b hbi
      have h2 : total_size c bs
          = total_size c (bs.take (i + 1)) + total_size c (bs.drop (i + 1)) := by
        rw [← total_size_append, List.take_append_drop]
      omega
    rw [total_size_eq] at hTi
    have hsz : sub64 (sub64 (total_size c (bs.take i) + record_size c b)
        (total_size c (bs.take i))) 8 = (c.pack_to_vector b).length := by
      rw [total_size_eq] at *
      simp only [record_size] at *
      unfold sub64
      omega
    have hread : (⟨storage_type.block_log_idx, storage_description.fresh,
        bs.zip (record_starts c 0 bs)⟩ : base_index Block).read (i + 1)
        = Except.ok (total_size c (bs.take i), (c.pack_to_vector b).length) := by
      unfold base_index.read
      simp only [base_index.offsets, zip_record_starts_offsets, List.length_zip,
        record_starts_length, Nat.min_self, Nat.add_sub_cancel, List.get?_eq_getElem?, hs1, hs2,
        hsz]
      rw [if_neg (by omega)]
    unfold file_manager.read_block_by_num_traced
    simp only [e5, hh, hhnum, file_manager.get_block_log_idx, e4, BLOCK_LOG_IDX,
      List.get?_cons_zero, hread, e2, read_block_from_layout c bs i b hbi hunpack]
    rw [if_neg (by omega), if_neg (by omega)]

theorem C9_older_block_lookup_witness :
    ((file_manager.fresh toy_block).append_all toy_serializer
        [toy_b1, toy_b2, toy_b3]).1.read_block_by_num_traced toy_serializer 2
      = (Except.ok (some toy_b2), [access.index_read 2, access.log_read 10 3]) :=
  (C9_older_block_lookup toy_serializer).2 [toy_b1, toy_b2, toy_b3] 1 toy_b2
    (by decide) (by decide)
    (by
      intro j x hx
      match j, hx with
      | 0, hx => cases hx; rfl
      | 1, hx => cases hx; rfl
      | 2, hx => cases hx; rfl
      | (j + 3), hx => simp at hx)
    rfl (by decide) rfl

/-- C10 (as stated, refuted): one successful append of a block numbered 5 to an empty
log with empty indexes leaves one record in the position index while the head block
number is 5. -/
theorem C10_record_count_differs_from_head_number :
    ((file_manager.fresh toy_block).append toy_serializer { num := 5, payload := [] }).1.idxs.map
        (fun idx => idx.records.length) = [1, 1] ∧
    ((file_manager.fresh toy_block).append toy_serializer
        { num := 5, payload := [] }).1.block_log.head.map toy_serializer.block_num = some 5 := by
  constructor <;> rfl

/-- C10 (amended): after the successful appends of the blocks `bs` to an empty log with
empty indexes, every index holds exactly one record per append, in append order, each
with the block appended and the offset that append returned (the position the block was
written at); so every index has `|bs|` records, and when the blocks are numbered
`1..|bs|` the record count of the position index equals the head block number. Sizes are
taken within the range of their machine types. -/
theorem C10_monotonic_index_growth {Block : Type} (c : block_serializer Block)
    (bs : List Block)
    (hb : ∀ x ∈ bs, (c.pack_to_vector x).length < 2 ^ 32)
    (hfit : (bs.map fun x => (c.pack_to_vector x).length + 8).sum < 2 ^ 64) :
    (∀ idx ∈ ((file_manager.fresh Block).append_all c bs).1.idxs,
      idx.records = bs.zip ((file_manager.fresh Block).append_all c bs).2 ∧
      idx.records.length = bs.length) ∧
    ((file_manager.fresh Block).append_all c bs).2.length = bs.length ∧
    ((∀ (j : Nat) (x : Block), bs[j]? = some x → c.block_num x = j + 1) →
      ∀ h idx, ((file_manager.fresh Block).append_all c bs).1.block_log.head = some h →
        ((file_manager.fresh Block).append_all c bs).1.get_block_log_idx = Except.ok idx →
        idx.records.length = c.block_num h) := by
  obtain ⟨e1, -, -, e4, e5⟩ := append_all_fresh c bs hb hfit
  rw [e1, e4, e5]
  have hlen : (bs.zip (record_starts c 0 bs)).length = bs.length := by
    simp [record_starts_length]
  refine ⟨?_, record_starts_length c bs 0, ?_⟩
  · intro idx hidx
    simp only [List.mem_cons, List.mem_singleton, List.not_mem_nil, or_false] at hidx
    rcases hidx with rfl | rfl <;> exact ⟨rfl, hlen⟩
  · intro hnum h idx hh hidx
    simp only [file_manager.get_block_log_idx, e4, BLOCK_LOG_IDX, List.get?_cons_zero,
      Except.ok.injEq] at hidx
    subst hidx
    have hne : bs ≠ [] := by intro h0; subst h0; simp at hh
    have hget : bs[bs.length - 1]? = some h := by
      rw [List.getLast?_eq_getLast _ hne, List.getLast_eq_getElem] at hh
      rw [← hh]
      exact List.getElem?_eq_getElem _
    have := hnum _ _ hget
    have hpos : 0 < bs.length := List.length_pos.mpr hne
    simp only [hlen]
    omega

theorem C10_monotonic_index_growth_witness :
    (∀ x ∈ [toy_b1, toy_b2, toy_b3], (toy_serializer.pack_to_vector x).length < 2 ^ 32) ∧
    ([toy_b1, toy_b2, toy_b3].map fun x => (toy_serializer.pack_to_vector x).length + 8).sum
      < 2 ^ 64 ∧
    ((file_manager.fresh toy_block).append_all toy_serializer [toy_b1, toy_b2, toy_b3]).2.length
      = 3 :=
  ⟨by decide, by decide,
    (C10_monotonic_index_growth toy_serializer [toy_b1, toy_b2, toy_b3] (by decide)
      (by decide)).2.1⟩

/-! ## Claims on the status queries and on `write` -/

theorem foldl_insert_mem {α : Type} (f : α → Nat) (l : List α) :
    ∀ (init : List Nat) (x : Nat),
      x ∈ l.foldl (fun (res : List Nat) a => List.insert (f a) res) init
        ↔ x ∈ init ∨ ∃ a ∈ l, f a = x := by
  induction l with
  | nil => intro init x; simp
  | cons a l ih =>
    intro init x
    simp only [List.foldl_cons, ih, List.mem_insert_iff, List.mem_cons, exists_eq_or_imp]
    constructor
    · rintro ((h | h) | h)
      · exact Or.inr (Or.inl h.symm)
      · exact Or.inl h
      · exact Or.inr (Or.inr h)
    · rintro (h | h | h)
      · exact Or.inl (Or.inr h)
      · exact Or.inl (Or.inl h.symm)
      · exact Or.inr h

theorem foldl_insert_nodup {α : Type} (f : α → Nat) (l : List α) :
    ∀ (init : List Nat), init.Nodup →
      (l.foldl (fun (res : List Nat) a => List.insert (f a) res) init).Nodup := by
  induction l with
  | nil => intro init h; simpa using h
  | cons a l ih =>
    intro init h
    simp only [List.foldl_cons]
    exact ih _ (h.insert)

theorem length_one_of_nodup_const (l : List Nat) (d : Nat) (hn : l.Nodup)
    (hall : ∀ x ∈ l, x = d) (hd : d ∈ l) : l.length = 1 := by
  match l, hn, hall, hd with
  | [], _, _, hd => simp at hd
  | [_], _, _, _ => rfl
  | a :: b :: t, hn, hall, _ =>
    have ha := hall a (by simp)
    have hb := hall b (by simp)
    simp only [List.nodup_cons, List.mem_cons, not_or] at hn
    exact absurd (ha.trans hb.symm) hn.1.1

theorem get_resume_eq_true_iff {Block : Type} (fm : file_manager Block) :
    fm.get_resume = true ↔ ∀ idx ∈ fm.idxs, idx.storage.status = status_type.resume := by
  simp [file_manager.get_resume, List.countP_eq_length]

/-- C18: in every state, `get_resume()` returns true exactly when every index of the
file manager reports status `resume`; one index with status `none`, `empty` or
`reindex` makes it false. -/
theorem C18_get_resume_iff_all_resume {Block : Type} (fm : file_manager Block) :
    (fm.get_resume = true ↔ ∀ idx ∈ fm.idxs, idx.storage.status = status_type.resume) ∧
    (∀ idx ∈ fm.idxs,
      (idx.storage.status = status_type.none ∨ idx.storage.status = status_type.empty
        ∨ idx.storage.status = status_type.reindex) → fm.get_resume = false) := by
  have key := get_resume_eq_true_iff fm
  refine ⟨key, ?_⟩
  intro idx hidx hst
  cases hres : fm.get_resume with
  | false => rfl
  | true =>
    have := key.mp hres idx hidx
    rw [this] at hst
    simp at hst

/-- C19: in every state, `construct_index_allowed()` returns true exactly when at least
one index reports a status other than `none`. -/
theorem C19_construct_index_allowed_iff {Block : Type} (fm : file_manager Block) :
    fm.construct_index_allowed = true
      ↔ ∃ idx ∈ fm.idxs, idx.storage.status ≠ status_type.none := by
  simp [file_manager.construct_index_allowed, List.any_eq_true]

/-- Two indexes whose position-diff markers differ make `get_index_pos` return 0. -/
theorem get_index_pos_of_ne {Block : Type} (fm : file_manager Block)
    (idx1 idx2 : base_index Block) (h1 : idx1 ∈ fm.idxs) (h2 : idx2 ∈ fm.idxs)
    (hne : idx1.storage.diff ≠ idx2.storage.diff) : fm.get_index_pos = Except.ok 0 := by
  have hm1 : idx1.storage.diff ∈ fm.idxs.foldl
      (fun (res : List Nat) idx => List.insert idx.storage.diff res) [] := by
    rw [foldl_insert_mem]; exact Or.inr ⟨idx1, h1, rfl⟩
  have hm2 : idx2.storage.diff ∈ fm.idxs.foldl
      (fun (res : List Nat) idx => List.insert idx.storage.diff res) [] := by
    rw [foldl_insert_mem]; exact Or.inr ⟨idx2, h2, rfl⟩
  have hlen : (fm.idxs.foldl
      (fun (res : List Nat) idx => List.insert idx.storage.diff res) []).length ≠ 1 := by
    intro h
    obtain ⟨x, hx⟩ := List.length_eq_one.mp h
    rw [hx] at hm1 hm2
    simp only [List.mem_singleton] at hm1 hm2
    exact hne (hm1.trans hm2.symm)
  simp only [file_manager.get_index_pos, hlen, if_false]

/-- C20: in every state that has a position index, `get_index_pos()` returns the
position recorded in the storage of the position index when all indexes report the
same position-diff marker, and 0 when two indexes report different markers. -/
theorem C20_get_index_pos {Block : Type} (fm : file_manager Block) :
    (∀ (idx0 : base_index Block) (d : Nat), fm.get_block_log_idx = Except.ok idx0 →
      (∀ idx ∈ fm.idxs, idx.storage.diff = d) →
      fm.get_index_pos = Except.ok idx0.storage.pos) ∧
    (∀ idx1 ∈ fm.idxs, ∀ idx2 ∈ fm.idxs, idx1.storage.diff ≠ idx2.storage.diff →
      fm.get_index_pos = Except.ok 0) := by
  constructor
  · intro idx0 d h0 hall
    have hmem0 : idx0 ∈ fm.idxs := by
      unfold file_manager.get_block_log_idx at h0
      cases hg : fm.idxs.get? BLOCK_LOG_IDX with
      | none => rw [hg] at h0; cases h0
      | some i =>
        rw [hg] at h0
        cases h0
        exact List.get?_mem hg
    have hlen : (fm.idxs.foldl
        (fun (res : List Nat) idx => List.insert idx.storage.diff res) []).length = 1 := by
      apply length_one_of_nodup_const _ d
      · exact foldl_insert_nodup _ _ _ List.nodup_nil
      · intro x hx
        rw [foldl_insert_mem] at hx
        rcases hx with hx | ⟨a, ha, rfl⟩
        · simp at hx
        · exact hall a ha
      · rw [foldl_insert_mem]
        exact Or.inr ⟨idx0, hmem0, hall idx0 hmem0⟩
    simp only [file_manager.get_index_pos, hlen, h0, if_true]
  · intro idx1 h1 idx2 h2 hne
    exact get_index_pos_of_ne fm idx1 idx2 h1 h2 hne

/-- C24: for every state, stream list, block and position, `write` raises the assertion
failure and hands back no stream when the number of streams differs from the number of
indexes; otherwise it returns normally, and stream `i` afterwards is what index `i`
makes of stream `i` with that block and position (one record more), for every `i`. -/
theorem C24_write_assertion {Block : Type} (fm : file_manager Block)
    (streams : List (List (Block × Nat))) (block : Block) (position : Nat) :
    (fm.idxs.length ≠ streams.length →
      fm.write streams block position = Except.error fc_exception.assert_exception) ∧
    (fm.idxs.length = streams.length →
      ∃ result, fm.write streams block position = Except.ok result ∧
        result.length = fm.idxs.length ∧
        ∀ (i : Nat) (idx : base_index Block) (stream : List (Block × Nat)),
          fm.idxs[i]? = some idx → streams[i]? = some stream →
          result[i]? = some (idx.write stream block position) ∧
          result[i]? = some (stream ++ [(block, position)])) := by
  constructor
  · intro h
    simp [file_manager.write, h]
  · intro h
    refine ⟨List.zipWith (fun idx stream => idx.write stream block position) fm.idxs streams,
      by simp only [file_manager.write, h, if_true], ?_, ?_⟩
    · simp [h]
    · intro i idx stream hi hs
      have : (List.zipWith (fun idx stream => idx.write stream block position)
          fm.idxs streams)[i]? = some (idx.write stream block position) := by
        rw [List.getElem?_zipWith]
        simp [hi, hs]
      exact ⟨this, this⟩

/-! ## Lemmas on forward replay -/

theorem zipWith_ignore_left {α β γ : Type} (g : β → γ) (l : List α) :
    ∀ (S : List β), l.length = S.length → List.zipWith (fun _ s => g s) l S = S.map g := by
  induction l with
  | nil => intro S h; cases S with
    | nil => rfl
    | cons _ _ => simp at h
  | cons a l ih => intro S h; cases S with
    | nil => simp at h
    | cons s S =>
      simp only [List.length_cons, Nat.add_right_cancel_iff] at h
      simp [ih S h]

theorem write_ok {Block : Type} (fm : file_manager Block) (S : List (List (Block × Nat)))
    (b : Block) (p : Nat) (h : fm.idxs.length = S.length) :
    fm.write S b p = Except.ok (S.map fun s => s ++ [(b, p)]) := by
  simp only [file_manager.write, h, if_true, base_index.write]
  rw [zipWith_ignore_left (fun s => s ++ [(b, p)]) fm.idxs S h]

theorem layout_records_cons {Block : Type} (c : block_serializer Block) (p : Nat) (b : Block)
    (bs : List Block) :
    layout_records c p (b :: bs) = (b, p) :: layout_records c (p + record_size c b) bs := by
  simp [layout_records, record_starts]

theorem record_size_pos {Block : Type} (c : block_serializer Block) (b : Block) :
    8 ≤ record_size c b := by
  simp [record_size]

theorem forward_replay_loop_spec {Block : Type} (c : block_serializer Block)
    (u : List Nat → Option (Block × Nat)) (fm : file_manager Block) (E : Nat)
    (rest : List Block) :
    ∀ (X : List Nat) (fuel : Nat) (interrupt : Nat → Bool) (p : Nat)
      (S : List (List (Block × Nat))) (W : List (Block × Nat)),
      (∀ b ∈ rest, ∀ tail : List Nat,
        u (c.pack_to_vector b ++ tail) = some (b, (c.pack_to_vector b).length)) →
      fm.block_log.content = X ++ log_image c X.length rest →
      X.length + total_size c rest < 2 ^ 64 →
      (rest ≠ [] → E = X.length + total_size c rest.dropLast) →
      (rest ≠ [] → p < E) → (rest = [] → ¬ p < E) →
      fm.idxs.length = S.length →
      rest.length < fuel →
      ∃ s', forward_replay_loop u fm E fuel interrupt
            { offset := X.length, pos := p, index_streams := S, writes := W } = (none, s') ∧
        s'.index_streams = S.map (fun s => s
          ++ layout_records c X.length (rest.take (replayed interrupt rest.length))) ∧
        s'.writes = W
          ++ layout_records c X.length (rest.take (replayed interrupt rest.length)) := by
  induction rest with
  | nil =>
    intro X fuel interrupt p S W _ _ _ _ _ hp' _ hf
    cases fuel with
    | zero => simp at hf
    | succ fuel =>
      refine ⟨{ offset := X.length, pos := p, index_streams := S, writes := W },
        by simp only [forward_replay_loop, hp' rfl, not_false_eq_true, or_true, if_true],
        ?_, ?_⟩
      · simp [replayed, layout_records, record_starts]
      · simp [replayed, layout_records, record_starts]
  | cons b rest ih =>
    intro X fuel interrupt p S W hu hc hfit hE hp _ hS hf
    cases fuel with
    | zero => simp at hf
    | succ fuel =>
      by_cases hi : interrupt 0 = true
      · refine ⟨{ offset := X.length, pos := p, index_streams := S, writes := W },
          by simp only [forward_replay_loop, hi, true_or, if_true], ?_, ?_⟩
        · simp [replayed, hi, layout_records, record_starts]
        · simp [replayed, hi, layout_records, record_starts]
      · have hpE : p < E := hp (by simp)
        have hdrop : fm.block_log.content.drop X.length
            = c.pack_to_vector b ++ (le64 X.length
              ++ log_image c (X.length + record_size c b) rest) := by
          rw [hc, List.drop_left' rfl]
          simp [log_image]
        have hunpack := hu b (List.mem_cons_self _ _)
          (le64 X.length ++ log_image c (X.length + record_size c b) rest)
        rw [← hdrop] at hunpack
        have hc2 : fm.block_log.content = (X ++ c.pack_to_vector b)
            ++ (le64 X.length ++ log_image c (X.length + record_size c b) rest) := by
          rw [hc]; simp [log_image]
        have hread : pread_with_retry fm.block_log.content 8
            (X.length + (c.pack_to_vector b).length) = Except.ok (le64 X.length) := by
          have h := pread_with_retry_mid (X ++ c.pack_to_vector b) (le64 X.length)
            (log_image c (X.length + record_size c b) rest)
          rw [le64_length, List.length_append, ← hc2] at h
          exact h
        rw [total_size_cons] at hfit
        have hX : from_le64 (le64 X.length) = X.length := from_le64_le64 _ (by omega)
        have hlenX : (X ++ (c.pack_to_vector b ++ le64 X.length)).length
            = X.length + (c.pack_to_vector b).length + 8 := by
          simp only [List.length_append, le64_length]; omega
        have hrs : X.length + record_size c b = X.length + (c.pack_to_vector b).length + 8 := by
          simp only [record_size]; omega
        have hbs := record_size_pos c b
        have ih1 := ih (X ++ (c.pack_to_vector b ++ le64 X.length)) fuel
          (fun k => interrupt (k + 1)) X.length (S.map fun s => s ++ [(b, X.length)])
          (W ++ [(b, X.length)])
          (fun x hx => hu x (List.mem_cons_of_mem _ hx))
          (by rw [hc, hlenX, ← hrs]; simp [log_image])
          (by rw [hlenX]; simp only [record_size] at hfit; omega)
          (by
            intro hne
            have h1 := hE (by simp)
            rw [List.dropLast_cons_of_ne_nil hne, total_size_cons] at h1
            rw [hlenX, h1]; simp only [record_size]; omega)
          (by
            intro hne
            have h1 := hE (by simp)
            rw [List.dropLast_cons_of_ne_nil hne, total_size_cons] at h1
            omega)
          (by
            intro h0
            have h1 := hE (by simp)
            subst h0
            simp [total_size] at h1
            omega)
          (by simp [hS])
          (by simp only [List.length_cons] at hf; omega)
        obtain ⟨s', hs', hstreams, hwrites⟩ := ih1
        rw [hlenX] at hs' hstreams hwrites
        refine ⟨s', ?_, ?_, ?_⟩
        · simp only [forward_replay_loop, hi, hpE, not_true_eq_false, or_self, if_false, hunpack,
            hread, hX, write_ok fm S b X.length hS]
          exact hs'
        · rw [hstreams]
          simp only [List.length_cons, replayed, hi, if_false, List.take_succ_cons,
            layout_records_cons, List.map_map, ← hrs]
          apply List.map_congr_left
          intro s _
          simp [layout_records_cons]
        · rw [hwrites]
          simp only [List.length_cons, replayed, hi, if_false, List.take_succ_cons,
            layout_records_cons, ← hrs]
          simp [layout_records_cons]

theorem get_index_pos_ok {Block : Type} (fm : file_manager Block) :
    ∃ p, fm.get_index_pos = Except.ok p := by
  unfold file_manager.get_index_pos
  by_cases h : (fm.idxs.foldl
      (fun (res : List Nat) idx => List.insert idx.storage.diff res) []).length = 1
  · simp only [h, if_true]
    cases hidx : fm.idxs with
    | nil => rw [hidx] at h; simp at h
    | cons a l => exact ⟨a.storage.pos, by simp [file_manager.get_block_log_idx, hidx, BLOCK_LOG_IDX]⟩
  · exact ⟨0, by simp only [h, if_false]⟩

theorem zipWith_map_self {α β γ : Type} (g : α → β → γ) (f : α → β) (l : List α) :
    List.zipWith g l (l.map f) = l.map fun a => g a (f a) := by
  induction l with
  | nil => rfl
  | cons a l ih => simp [ih]

/-- The last 8 bytes of a log laid out from offset 0 hold the start of its last record. -/
theorem end_pos_of_log {Block : Type} (c : block_serializer Block) (bs : List Block)
    (hne : bs ≠ []) :
    pread_with_retry (log_image c 0 bs) 8 ((log_image c 0 bs).length - 8)
      = Except.ok (le64 (total_size c bs.dropLast)) := by
  have hsplit : log_image c 0 bs = (log_image c 0 bs.dropLast ++ c.pack_to_vector (bs.getLast hne))
      ++ le64 (total_size c bs.dropLast) := by
    conv_lhs => rw [← List.dropLast_append_getLast hne]
    rw [log_image_append]
    simp [log_image]
  have h := pread_with_retry_tail
    (log_image c 0 bs.dropLast ++ c.pack_to_vector (bs.getLast hne))
    (le64 (total_size c bs.dropLast)) 8 (le64_length _)
  rw [← hsplit] at h
  have hlen : (log_image c 0 bs).length - 8
      = (log_image c 0 bs.dropLast ++ c.pack_to_vector (bs.getLast hne)).length := by
    conv_lhs => rw [hsplit]
    simp only [List.length_append, le64_length]
    omega
  rw [hlen]
  exact h

theorem total_size_dropLast_le {Block : Type} (c : block_serializer Block) (bs : List Block)
    (hne : bs ≠ []) :
    total_size c bs = total_size c bs.dropLast + record_size c (bs.getLast hne) := by
  conv_lhs => rw [← List.dropLast_append_getLast hne]
  rw [total_size_append]
  simp [total_size]

theorem length_le_total_size {Block : Type} (c : block_serializer Block) (bs : List Block) :
    bs.length ≤ total_size c bs := by
  induction bs with
  | nil => simp
  | cons a l ih =>
    rw [total_size_cons]
    have := record_size_pos c a
    simp only [List.length_cons]
    omega

/-- Forward replay without resume: what `construct_index` returns, for every
behaviour of the interrupt flag. -/
theorem construct_index_rebuild {Block : Type} (c : block_serializer Block)
    (u : List Nat → Option (Block × Nat)) (interrupt : Nat → Bool) (fm : file_manager Block)
    (bs : List Block) (h : Block)
    (hu : ∀ b ∈ bs, ∀ tail : List Nat,
      u (c.pack_to_vector b ++ tail) = some (b, (c.pack_to_vector b).length))
    (hcontent : fm.block_log.content = log_image c 0 bs)
    (hhead : fm.block_log.head = some h)
    (hres : fm.get_resume = false)
    (hne : bs ≠ [])
    (hfit : total_size c bs < 2 ^ 64) :
    fm.construct_index c u interrupt
      = ((check_consistency_all (c.block_num h) (fm.idxs.map fun idx =>
            { idx with records :=
                layout_records c 0 (bs.take (rebuilt_count interrupt bs.length)) }) 0).1,
          { fm with idxs := fm.idxs.map fun idx =>
              { idx with records :=
                  layout_records c 0 (bs.take (rebuilt_count interrupt bs.length)) } },
          (List.range fm.idxs.length).map index_action.remove
            ++ (layout_records c 0 (bs.take (rebuilt_count interrupt bs.length))).map
                (fun w => index_action.write w.1 w.2)
            ++ (List.range fm.idxs.length).map index_action.close
            ++ (check_consistency_all (c.block_num h) (fm.idxs.map fun idx =>
                  { idx with records :=
                      layout_records c 0 (bs.take (rebuilt_count interrupt bs.length)) }) 0).2) := by
  obtain ⟨ip, hip⟩ := get_index_pos_ok fm
  have hend := end_pos_of_log c bs hne
  rw [← hcontent] at hend
  have hle := total_size_dropLast_le c bs hne
  have hED : from_le64 (le64 (total_size c bs.dropLast)) = total_size c bs.dropLast :=
    from_le64_le64 _ (by omega)
  have hstart : forward_replay_start u fm false ip (fm.idxs.map fun _ => [])
      = (none, { offset := 0, pos := 0, index_streams := fm.idxs.map fun _ => [],
                 writes := [] }) := by
    simp [forward_replay_start]
  have hloop : ∃ s', forward_replay_loop u fm (total_size c bs.dropLast)
        (fm.block_log.content.length + 1) interrupt
        { offset := 0, pos := 0, index_streams := fm.idxs.map fun _ => [], writes := [] }
        = (none, s') ∧
      s'.index_streams = fm.idxs.map (fun _ =>
        layout_records c 0 (bs.take (rebuilt_count interrupt bs.length))) ∧
      s'.writes = layout_records c 0 (bs.take (rebuilt_count interrupt bs.length)) := by
    by_cases hlen : bs.length ≤ 1
    · have hdl : bs.dropLast = [] := by
        apply List.eq_nil_of_length_eq_zero
        simp only [List.length_dropLast]
        omega
      refine ⟨{ offset := 0, pos := 0, index_streams := fm.idxs.map fun _ => [],
                writes := [] }, ?_, ?_, ?_⟩
      · simp [forward_replay_loop, hdl, total_size]
      · simp [rebuilt_count, hlen, layout_records, record_starts]
      · simp [rebuilt_count, hlen, layout_records, record_starts]
    · have hdl : bs.dropLast ≠ [] := by
        intro h0
        have := congrArg List.length h0
        simp at this
        omega
      have hE0 : 0 < total_size c bs.dropLast := by
        cases hd : bs.dropLast with
        | nil => exact absurd hd hdl
        | cons a l =>
          rw [total_size_cons]
          have := record_size_pos c a
          omega
      have hl := forward_replay_loop_spec c u fm (total_size c bs.dropLast) bs []
        (fm.block_log.content.length + 1) interrupt 0 (fm.idxs.map fun _ => []) []
        hu (by simpa using hcontent) (by simpa using hfit) (by intro _; simp)
        (fun _ => hE0) (fun h0 => absurd h0 hne) (by simp)
        (by
          rw [hcontent, log_image_length]
          have := length_le_total_size c bs
          omega)
      obtain ⟨s', hs', hstreams, hwrites⟩ := hl
      simp only [List.length_nil, List.nil_append, List.map_map] at hs' hstreams hwrites
      refine ⟨s', hs', ?_, ?_⟩
      · rw [hstreams]
        simp [rebuilt_count, hlen, Function.comp_def]
      · rw [hwrites]
        simp [rebuilt_count, hlen]
  obtain ⟨s', hs', hstreams, hwrites⟩ := hloop
  have hfiles : fm.with_index_files s'.index_streams
      = { fm with idxs := fm.idxs.map fun idx =>
            { idx with records :=
                layout_records c 0 (bs.take (rebuilt_count interrupt bs.length)) } } := by
    rw [hstreams]
    simp only [file_manager.with_index_files]
    rw [zipWith_map_self]
  unfold file_manager.construct_index
  simp only [hres, hip, hhead, hend, hED, Bool.false_eq_true, if_false, hstart, hs', hfiles,
    hwrites]

/-- Forward replay with resume from the record of block `i` (counted from 0) of the
log: what `construct_index` returns, for every behaviour of the interrupt flag. -/
theorem construct_index_resume {Block : Type} (c : block_serializer Block)
    (u : List Nat → Option (Block × Nat)) (interrupt : Nat → Bool) (fm : file_manager Block)
    (bs : List Block) (h : Block) (i : Nat) (b : Block)
    (hu : ∀ b ∈ bs, ∀ tail : List Nat,
      u (c.pack_to_vector b ++ tail) = some (b, (c.pack_to_vector b).length))
    (hcontent : fm.block_log.content = log_image c 0 bs)
    (hhead : fm.block_log.head = some h)
    (hres : fm.get_resume = true)
    (hip : fm.get_index_pos = Except.ok (total_size c (bs.take i)))
    (hbi : bs[i]? = some b)
    (hfit : total_size c bs < 2 ^ 64) :
    fm.construct_index c u interrupt
      = ((check_consistency_all (c.block_num h) (fm.idxs.map fun idx =>
            { idx with records := (idx.records
                ++ layout_records c (total_size c (bs.take (i + 1)))
                    ((bs.drop (i + 1)).take (replayed interrupt (bs.length - (i + 1))))) }) 0).1,
          { fm with idxs := fm.idxs.map fun idx =>
              { idx with records := (idx.records
                  ++ layout_records c (total_size c (bs.take (i + 1)))
                      ((bs.drop (i + 1)).take (replayed interrupt (bs.length - (i + 1))))) } },
          (layout_records c (total_size c (bs.take (i + 1)))
                ((bs.drop (i + 1)).take (replayed interrupt (bs.length - (i + 1))))).map
              (fun w => index_action.write w.1 w.2)
            ++ (List.range fm.idxs.length).map index_action.close
            ++ (check_consistency_all (c.block_num h) (fm.idxs.map fun idx =>
                  { idx with records := (idx.records
                      ++ layout_records c (total_size c (bs.take (i + 1)))
                          ((bs.drop (i + 1)).take
                            (replayed interrupt (bs.length - (i + 1))))) }) 0).2) := by
  have hi : i < bs.length := (List.getElem?_eq_some_iff.mp hbi).1
  have hne : bs ≠ [] := by intro h0; subst h0; simp at hi
  have hend := end_pos_of_log c bs hne
  rw [← hcontent] at hend
  have hle := total_size_dropLast_le c bs hne
  have hED : from_le64 (le64 (total_size c bs.dropLast)) = total_size c bs.dropLast :=
    from_le64_le64 _ (by omega)
  have hTsucc := total_size_take_succ c bs i b hbi
  have hsplit : total_size c bs
      = total_size c (bs.take (i + 1)) + total_size c (bs.drop (i + 1)) := by
    rw [← total_size_append, List.take_append_drop]
  have hrs : record_size c b = (c.pack_to_vector b).length + 8 := rfl
  -- the block at the resume position
  have hdrop := log_image_drop c bs 0 i b hbi
  simp only [Nat.zero_add] at hdrop
  rw [← hcontent, List.append_assoc] at hdrop
  have hunpack := hu b (List.mem_iff_getElem?.mpr ⟨i, hbi⟩)
    (le64 (total_size c (bs.take i))
      ++ log_image c (total_size c (bs.take i) + record_size c b) (bs.drop (i + 1)))
  rw [← hdrop] at hunpack
  have htr := log_image_trailer c bs 0 i b hbi
  simp only [Nat.zero_add] at htr
  rw [← hcontent] at htr
  have hclen : fm.block_log.content.length = total_size c bs := by
    rw [hcontent, log_image_length]
  have hread : pread_with_retry fm.block_log.content 8
      (total_size c (bs.take i) + (c.pack_to_vector b).length)
      = Except.ok (le64 (total_size c (bs.take i))) := by
    unfold pread_with_retry
    rw [if_pos (by rw [hclen]; omega), htr]
  have hTi : from_le64 (le64 (total_size c (bs.take i))) = total_size c (bs.take i) :=
    from_le64_le64 _ (by omega)
  have hstart : forward_replay_start u fm true (total_size c (bs.take i))
      (fm.idxs.map fun idx => idx.records)
      = (none, { offset := total_size c (bs.take (i + 1)), pos := total_size c (bs.take i),
                 index_streams := fm.idxs.map fun idx => idx.records, writes := [] }) := by
    simp only [forward_replay_start, if_true, hunpack, hread, hTi, hTsucc, hrs]
    simp only [Nat.add_assoc]
  -- the loop over the records that follow
  have hXlen : (log_image c 0 (bs.take (i + 1))).length = total_size c (bs.take (i + 1)) :=
    log_image_length c _ 0
  have hc2 : fm.block_log.content = log_image c 0 (bs.take (i + 1))
      ++ log_image c (log_image c 0 (bs.take (i + 1))).length (bs.drop (i + 1)) := by
    rw [hcontent, hXlen]
    conv_lhs => rw [← List.take_append_drop (i + 1) bs]
    rw [log_image_append, Nat.zero_add]
  have hloop := forward_replay_loop_spec c u fm (total_size c bs.dropLast) (bs.drop (i + 1))
    (log_image c 0 (bs.take (i + 1))) (fm.block_log.content.length + 1) interrupt
    (total_size c (bs.take i)) (fm.idxs.map fun idx => idx.records) []
    (fun x hx => hu x (List.mem_of_mem_drop hx)) hc2 (by rw [hXlen]; omega)
    (by
      intro hrest
      rw [hXlen, ← total_size_append, ← List.dropLast_append_of_ne_nil _ hrest,
        List.take_append_drop])
    (by
      intro hrest
      have h1 : total_size c bs.dropLast = total_size c (bs.take (i + 1))
          + total_size c (bs.drop (i + 1)).dropLast := by
        rw [← total_size_append, ← List.dropLast_append_of_ne_nil _ hrest,
          List.take_append_drop]
      have := record_size_pos c b
      omega)
    (by
      intro hrest
      have hlen1 : bs.length ≤ i + 1 := List.drop_eq_nil_iff.mp hrest
      have h0 : bs.length - 1 = i := by omega
      have h1 : bs.dropLast = bs.take i := by
        rw [List.dropLast_eq_take, h0]
      rw [h1]
      omega)
    (by simp)
    (by
      rw [hclen]
      have := length_le_total_size c bs
      simp only [List.length_drop]
      omega)
  obtain ⟨s', hs', hstreams, hwrites⟩ := hloop
  rw [hXlen] at hs' hstreams hwrites
  simp only [List.length_drop, List.nil_append, List.map_map] at hs' hstreams hwrites
  have hfiles : fm.with_index_files s'.index_streams
      = { fm with idxs := fm.idxs.map fun idx =>
            { idx with records := (idx.records
                ++ layout_records c (total_size c (bs.take (i + 1)))
                    ((bs.drop (i + 1)).take (replayed interrupt (bs.length - (i + 1))))) } } := by
    rw [hstreams]
    simp only [file_manager.with_index_files]
    rw [zipWith_map_self]
    simp [Function.comp_def]
  unfold file_manager.construct_index
  simp only [hres, hip, hhead, hend, hED, if_true, hstart, hs', hfiles, hwrites,
    List.nil_append]

theorem framed_unpack_stream_pack (b : toy_block) (tail : List Nat) :
    framed_unpack_stream (framed_serializer.pack_to_vector b ++ tail)
      = some (b, (framed_serializer.pack_to_vector b).length) := by
  simp [framed_unpack_stream, framed_serializer]

theorem replayed_never (n : Nat) : replayed never_interrupted n = n := by
  induction n with
  | zero => rfl
  | succ n ih =>
    have hs : (fun k => never_interrupted (k + 1)) = never_interrupted := rfl
    simp only [replayed, hs, ih]
    simp [never_interrupted]

theorem replayed_interrupted_from : ∀ (k n : Nat), k ≤ n → replayed (interrupted_from k) n = k := by
  intro k
  induction k with
  | zero =>
    intro n _
    cases n with
    | zero => rfl
    | succ n => simp [replayed, interrupted_from]
  | succ k ih =>
    intro n hn
    cases n with
    | zero => omega
    | succ n =>
      have hs : (fun i => interrupted_from (k + 1) (i + 1)) = interrupted_from k := by
        funext i
        simp [interrupted_from]
      simp only [replayed, hs, ih n (by omega)]
      simp [interrupted_from]

theorem layout_records_append {Block : Type} (c : block_serializer Block) (p : Nat)
    (xs ys : List Block) :
    layout_records c p (xs ++ ys)
      = layout_records c p xs ++ layout_records c (p + total_size c xs) ys := by
  simp only [layout_records, record_starts_append]
  rw [List.zip_append (by rw [record_starts_length])]

theorem layout_records_length {Block : Type} (c : block_serializer Block) (p : Nat)
    (bs : List Block) : (layout_records c p bs).length = bs.length := by
  simp [layout_records, record_starts_length]

theorem check_consistency_all_no_write {Block : Type} (block_num : Nat)
    (l : List (base_index Block)) :
    ∀ (n : Nat), ∀ a ∈ (check_consistency_all block_num l n).2,
      ∀ (x : Block) (p : Nat), a ≠ index_action.write x p := by
  induction l with
  | nil => intro n a ha; simp [check_consistency_all] at ha
  | cons i l ih =>
    intro n a ha x p hax
    subst hax
    simp only [check_consistency_all] at ha
    split at ha
    · simp only [List.mem_cons] at ha
      rcases ha with ha | ha | ha
      · cases ha
      · cases ha
      · exact ih _ _ ha x p rfl
    · simp at ha

theorem check_consistency_all_no_remove {Block : Type} (block_num : Nat)
    (l : List (base_index Block)) :
    ∀ (n : Nat), ∀ a ∈ (check_consistency_all block_num l n).2,
      ∀ (j : Nat), a ≠ index_action.remove j := by
  induction l with
  | nil => intro n a ha; simp [check_consistency_all] at ha
  | cons i l ih =>
    intro n a ha j hax
    subst hax
    simp only [check_consistency_all] at ha
    split at ha
    · simp only [List.mem_cons] at ha
      rcases ha with ha | ha | ha
      · cases ha
      · cases ha
      · exact ih _ _ ha j rfl
    · simp at ha

theorem get_resume_false_of_not_resume {Block : Type} (fm : file_manager Block)
    (h : ∃ idx ∈ fm.idxs, idx.storage.status ≠ status_type.resume) : fm.get_resume = false := by
  cases hres : fm.get_resume with
  | false => rfl
  | true =>
    obtain ⟨idx, hidx, hne⟩ := h
    exact absurd ((get_resume_eq_true_iff fm).mp hres idx hidx) hne

/-! ## Claims on forward replay -/

/-- C11 (as stated, refuted for a log of one record): forward replay over the
well-formed log that holds the single record of block 1, not resumed and not
interrupted, never calls `write`; both index files are removed and left without a
record, and the `check_consistency` that follows fails on the first index. -/
theorem C11_single_record_log_is_not_replayed :
    ((file_manager.of_log toy_log1 (some toy_b1) [] status_type.empty 0 0).construct_index
        framed_serializer framed_unpack_stream never_interrupted).2.2
      = [index_action.remove 0, index_action.remove 1, index_action.close 0,
         index_action.close 1, index_action.open_ 0, index_action.check_consistency 0 1] ∧
    ((file_manager.of_log toy_log1 (some toy_b1) [] status_type.empty 0 0).construct_index
        framed_serializer framed_unpack_stream never_interrupted).2.1.idxs.map
        (fun idx => idx.records) = [[], []] ∧
    ((file_manager.of_log toy_log1 (some toy_b1) [] status_type.empty 0 0).construct_index
        framed_serializer framed_unpack_stream never_interrupted).1
      = some fc_exception.assert_exception := by
  refine ⟨?_, ?_, ?_⟩ <;> decide

/-- C11 (logs of at least two records): for every well-formed log that holds the
records of the blocks `bs`, `|bs| ≥ 2`, a forward replay that is not resumed and not
interrupted removes every index file, deserializes the records in log order from
offset 0 and calls `write` exactly once per block, with that block and the start
offset of its record; afterwards every index holds exactly these `|bs|` records. The
stream deserializer is assumed to read back each block of the log from its
serialization; the log is smaller than `2 ^ 64` bytes. -/
theorem C11_forward_replay_covers_every_block {Block : Type} (c : block_serializer Block)
    (u : List Nat → Option (Block × Nat)) (fm : file_manager Block)
    (bs : List Block) (h : Block)
    (hu : ∀ b ∈ bs, ∀ tail : List Nat,
      u (c.pack_to_vector b ++ tail) = some (b, (c.pack_to_vector b).length))
    (hcontent : fm.block_log.content = log_image c 0 bs)
    (hhead : fm.block_log.head = some h)
    (hres : fm.get_resume = false)
    (hlen : 2 ≤ bs.length)
    (hfit : total_size c bs < 2 ^ 64) :
    (fm.construct_index c u never_interrupted).2.2
      = (List.range fm.idxs.length).map index_action.remove
        ++ (bs.zip (record_starts c 0 bs)).map (fun w => index_action.write w.1 w.2)
        ++ (List.range fm.idxs.length).map index_action.close
        ++ (check_consistency_all (c.block_num h) (fm.idxs.map fun idx =>
              { idx with records := bs.zip (record_starts c 0 bs) }) 0).2 ∧
    (fm.construct_index c u never_interrupted).2.1.idxs.length = fm.idxs.length ∧
    ∀ idx ∈ (fm.construct_index c u never_interrupted).2.1.idxs,
      idx.records = bs.zip (record_starts c 0 bs) ∧ idx.records.length = bs.length := by
  have hne : bs ≠ [] := by intro h0; subst h0; simp at hlen
  have hK : rebuilt_count never_interrupted bs.length = bs.length := by
    simp only [rebuilt_count, replayed_never]
    rw [if_neg (by omega)]
  rw [construct_index_rebuild c u never_interrupted fm bs h hu hcontent hhead hres hne hfit,
    hK, List.take_length]
  refine ⟨rfl, by simp, ?_⟩
  intro idx hidx
  simp only [List.mem_map] at hidx
  obtain ⟨i, -, rfl⟩ := hidx
  exact ⟨rfl, layout_records_length c 0 bs⟩

theorem C11_forward_replay_covers_every_block_witness :
    ((file_manager.of_log toy_log3 (some toy_b3) [] status_type.empty 0 0).construct_index
        framed_serializer framed_unpack_stream never_interrupted).2.1.idxs.length = 2 ∧
    ∀ idx ∈ ((file_manager.of_log toy_log3 (some toy_b3) [] status_type.empty 0 0).construct_index
        framed_serializer framed_unpack_stream never_interrupted).2.1.idxs,
      idx.records = [toy_b1, toy_b2, toy_b3].zip
          (record_starts framed_serializer 0 [toy_b1, toy_b2, toy_b3]) ∧
        idx.records.length = 3 :=
  (C11_forward_replay_covers_every_block framed_serializer framed_unpack_stream
    (file_manager.of_log toy_log3 (some toy_b3) [] status_type.empty 0 0)
    [toy_b1, toy_b2, toy_b3] toy_b3
    (fun b _ tail => framed_unpack_stream_pack b tail) rfl rfl (by decide) (by decide)
    (by decide)).2

/-- C12: for every well-formed log of the blocks `bs` and every `k` with
`1 ≤ k < |bs|`, a forward replay that is interrupted after indexing block `k` leaves
the records of blocks `1..k` in every index; a following replay that resumes on these
index files with the start offset of block `k` as index position (same log, every
index reporting `resume`) writes records for exactly the blocks `k+1..|bs|`, and the
contents of the indexes are then identical to those after one uninterrupted full
rebuild over the same log. The stream deserializer is assumed to read back each block
of the log; the log is smaller than `2 ^ 64` bytes. -/
theorem C12_resume_idempotence {Block : Type} (c : block_serializer Block)
    (u : List Nat → Option (Block × Nat)) (fm fm2 : file_manager Block)
    (bs : List Block) (h : Block) (k : Nat)
    (hu : ∀ b ∈ bs, ∀ tail : List Nat,
      u (c.pack_to_vector b ++ tail) = some (b, (c.pack_to_vector b).length))
    (hcontent : fm.block_log.content = log_image c 0 bs)
    (hhead : fm.block_log.head = some h)
    (hres : fm.get_resume = false)
    (hk1 : 1 ≤ k) (hkN : k < bs.length)
    (hfit : total_size c bs < 2 ^ 64)
    (hlog2 : fm2.block_log = fm.block_log)
    (hidx2 : fm2.idxs.map (fun idx => idx.records)
      = (fm.construct_index c u (interrupted_from k)).2.1.idxs.map (fun idx => idx.records))
    (hres2 : fm2.get_resume = true)
    (hpos2 : fm2.get_index_pos = Except.ok (total_size c (bs.take (k - 1)))) :
    (∀ idx ∈ (fm.construct_index c u (interrupted_from k)).2.1.idxs,
      idx.records = (bs.take k).zip (record_starts c 0 (bs.take k))) ∧
    (∃ checks, (fm2.construct_index c u never_interrupted).2.2
      = ((bs.drop k).zip (record_starts c (total_size c (bs.take k)) (bs.drop k))).map
          (fun w => index_action.write w.1 w.2)
        ++ (List.range fm2.idxs.length).map index_action.close ++ checks ∧
      ∀ a ∈ checks, ∀ (x : Block) (p : Nat), a ≠ index_action.write x p) ∧
    (fm2.construct_index c u never_interrupted).2.1.idxs.map (fun idx => idx.records)
      = (fm.construct_index c u never_interrupted).2.1.idxs.map (fun idx => idx.records) := by
  have hne : bs ≠ [] := by intro h0; subst h0; simp at hkN
  have hK1 : rebuilt_count (interrupted_from k) bs.length = k := by
    simp only [rebuilt_count, replayed_interrupted_from k bs.length (by omega)]
    rw [if_neg (by omega)]
  have hKfull : rebuilt_count never_interrupted bs.length = bs.length := by
    simp only [rebuilt_count, replayed_never]
    rw [if_neg (by omega)]
  have hrun1 := construct_index_rebuild c u (interrupted_from k) fm bs h hu hcontent hhead hres
    hne hfit
  have hfull := construct_index_rebuild c u never_interrupted fm bs h hu hcontent hhead hres
    hne hfit
  rw [hK1] at hrun1
  rw [hKfull, List.take_length] at hfull
  obtain ⟨b, hb⟩ : ∃ b, bs[k - 1]? = some b :=
    ⟨bs[k - 1], List.getElem?_eq_getElem (by omega)⟩
  have hk : k - 1 + 1 = k := by omega
  have hrun2 := construct_index_resume c u never_interrupted fm2 bs h (k - 1) b hu
    (by rw [hlog2]; exact hcontent) (by rw [hlog2]; exact hhead) hres2 hpos2 hb hfit
  rw [hk, replayed_never, ← List.length_drop, List.take_length] at hrun2
  rw [hrun1] at hidx2
  simp only [List.map_map, Function.comp_def] at hidx2
  have hrec2 : ∀ idx ∈ fm2.idxs, idx.records = layout_records c 0 (bs.take k) := by
    intro idx hidx
    have hmem : idx.records ∈ fm2.idxs.map (fun idx => idx.records) :=
      List.mem_map_of_mem _ hidx
    rw [hidx2] at hmem
    simp only [List.mem_map] at hmem
    obtain ⟨_, -, h2⟩ := hmem
    exact h2.symm
  have hjoin : layout_records c 0 (bs.take k)
      ++ layout_records c (total_size c (bs.take k)) (bs.drop k) = layout_records c 0 bs := by
    have := layout_records_append c 0 (bs.take k) (bs.drop k)
    rw [List.take_append_drop, Nat.zero_add] at this
    exact this.symm
  refine ⟨?_, ?_, ?_⟩
  · rw [hrun1]
    intro idx hidx
    simp only [List.mem_map] at hidx
    obtain ⟨i, -, rfl⟩ := hidx
    rfl
  · rw [hrun2]
    refine ⟨_, rfl, ?_⟩
    intro a ha x p hax
    exact check_consistency_all_no_write _ _ _ a ha x p hax
  · rw [hrun2, hfull]
    simp only [List.map_map, Function.comp_def]
    have hl : fm2.idxs.map (fun idx => idx.records
        ++ layout_records c (total_size c (bs.take k)) (bs.drop k))
        = fm2.idxs.map (fun _ => layout_records c 0 bs) := by
      apply List.map_congr_left
      intro idx hidx
      rw [hrec2 idx hidx, hjoin]
    rw [hl]
    have hlen : fm2.idxs.length = fm.idxs.length := by
      have := congrArg List.length hidx2
      simpa using this
    rw [List.map_const', List.map_const', hlen]

theorem C12_resume_idempotence_witness :
    ((file_manager.of_log toy_log3 (some toy_b3)
          (layout_records framed_serializer 0 [toy_b1, toy_b2]) status_type.resume 0
          11).construct_index framed_serializer framed_unpack_stream
        never_interrupted).2.1.idxs.map (fun idx => idx.records)
      = ((file_manager.of_log toy_log3 (some toy_b3) [] status_type.empty 0 0).construct_index
          framed_serializer framed_unpack_stream never_interrupted).2.1.idxs.map
        (fun idx => idx.records) :=
  (C12_resume_idempotence framed_serializer framed_unpack_stream
    (file_manager.of_log toy_log3 (some toy_b3) [] status_type.empty 0 0)
    (file_manager.of_log toy_log3 (some toy_b3)
      (layout_records framed_serializer 0 [toy_b1, toy_b2]) status_type.resume 0 11)
    [toy_b1, toy_b2, toy_b3] toy_b3 2
    (fun b _ tail => framed_unpack_stream_pack b tail) rfl rfl (by decide) (by decide)
    (by decide) (by decide) rfl (by decide) (by decide) rfl).2.2

/-- C13 (as stated, refuted): forward replay over the three-record log is stopped by the
interrupt flag after the first block is indexed; `construct_index` nevertheless closes
and reopens the indexes and runs `check_consistency` against the head block number 3,
which fails on the first index, so the call ends with an exception. -/
theorem C13_check_consistency_runs_after_interruption :
    ((file_manager.of_log toy_log3 (some toy_b3) [] status_type.empty 0 0).construct_index
        framed_serializer framed_unpack_stream (interrupted_from 1)).2.2
      = [index_action.remove 0, index_action.remove 1, index_action.write toy_b1 0,
         index_action.close 0, index_action.close 1, index_action.open_ 0,
         index_action.check_consistency 0 3] ∧
    ((file_manager.of_log toy_log3 (some toy_b3) [] status_type.empty 0 0).construct_index
        framed_serializer framed_unpack_stream (interrupted_from 1)).1
      = some fc_exception.assert_exception := by
  refine ⟨?_, ?_⟩ <;> decide

/-- C17: whenever at least one index does not report `resume` (so `get_resume()` is
false), forward replay over a well-formed log removes the file of every index,
whatever that index reported and held, and rebuilds all of them from log offset 0:
afterwards every index holds the records of the same first blocks of the log and
nothing of what it held before, so all indexes have the same record count (for a log
of at least two records and no interruption, one record per block of the log). The
stream deserializer is assumed to read back each block of the log; the log is smaller
than `2 ^ 64` bytes. -/
theorem C17_lockstep_rebuild {Block : Type} (c : block_serializer Block)
    (u : List Nat → Option (Block × Nat)) (interrupt : Nat → Bool) (fm : file_manager Block)
    (bs : List Block) (h : Block)
    (hu : ∀ b ∈ bs, ∀ tail : List Nat,
      u (c.pack_to_vector b ++ tail) = some (b, (c.pack_to_vector b).length))
    (hcontent : fm.block_log.content = log_image c 0 bs)
    (hhead : fm.block_log.head = some h)
    (hne : bs ≠ [])
    (hfit : total_size c bs < 2 ^ 64)
    (hstatus : ∃ idx ∈ fm.idxs, idx.storage.status ≠ status_type.resume) :
    fm.get_resume = false ∧
    (∀ i, i < fm.idxs.length →
      index_action.remove i ∈ (fm.construct_index c u interrupt).2.2) ∧
    (∃ later, (fm.construct_index c u interrupt).2.2
      = (List.range fm.idxs.length).map index_action.remove ++ later ∧
      ∀ a ∈ later, ∀ j, a ≠ index_action.remove j) ∧
    (∀ idx ∈ (fm.construct_index c u interrupt).2.1.idxs,
      idx.records = layout_records c 0 (bs.take (rebuilt_count interrupt bs.length))) ∧
    (∀ idx1 ∈ (fm.construct_index c u interrupt).2.1.idxs,
      ∀ idx2 ∈ (fm.construct_index c u interrupt).2.1.idxs,
        idx1.records.length = idx2.records.length) ∧
    (2 ≤ bs.length → ∀ idx ∈ (fm.construct_index c u never_interrupted).2.1.idxs,
      idx.records.length = bs.length) := by
  have hres := get_resume_false_of_not_resume fm hstatus
  have hrecs : ∀ (f : Nat → Bool), ∀ idx ∈ (fm.construct_index c u f).2.1.idxs,
      idx.records = layout_records c 0 (bs.take (rebuilt_count f bs.length)) := by
    intro f idx hidx
    rw [construct_index_rebuild c u f fm bs h hu hcontent hhead hres hne hfit] at hidx
    simp only [List.mem_map] at hidx
    obtain ⟨i, -, rfl⟩ := hidx
    rfl
  refine ⟨hres, ?_, ?_, hrecs interrupt, ?_, ?_⟩
  · intro i hi
    rw [construct_index_rebuild c u interrupt fm bs h hu hcontent hhead hres hne hfit]
    simp only [List.append_assoc, List.mem_append, List.mem_map, List.mem_range]
    exact Or.inl ⟨i, hi, rfl⟩
  · rw [construct_index_rebuild c u interrupt fm bs h hu hcontent hhead hres hne hfit]
    rw [List.append_assoc, List.append_assoc]
    refine ⟨_, rfl, ?_⟩
    intro a ha j haj
    subst haj
    simp only [List.mem_append, List.mem_map, List.mem_range] at ha
    rcases ha with ⟨w, -, hw⟩ | ⟨i, -, hi⟩ | ha
    · cases hw
    · cases hi
    · exact check_consistency_all_no_remove _ _ _ _ ha j rfl
  · intro idx1 h1 idx2 h2
    rw [hrecs interrupt idx1 h1, hrecs interrupt idx2 h2]
  · intro h2 idx hidx
    rw [hrecs never_interrupted idx hidx, layout_records_length]
    simp only [rebuilt_count, replayed_never]
    rw [if_neg (by omega), List.take_length]

theorem C17_lockstep_rebuild_witness :
    (file_manager.of_log toy_log3 (some toy_b3)
        (layout_records framed_serializer 0 [toy_b1, toy_b2, toy_b3]) status_type.none 0
        0).get_resume = false ∧
    ((file_manager.of_log toy_log3 (some toy_b3)
          (layout_records framed_serializer 0 [toy_b1, toy_b2, toy_b3]) status_type.none 0
          0).construct_index framed_serializer framed_unpack_stream
        never_interrupted).2.1.idxs.map (fun idx => idx.records)
      = [[(toy_b1, 0), (toy_b2, 11), (toy_b3, 23)], [(toy_b1, 0), (toy_b2, 11), (toy_b3, 23)]] :=
  ⟨(C17_lockstep_rebuild framed_serializer framed_unpack_stream never_interrupted
      (file_manager.of_log toy_log3 (some toy_b3)
        (layout_records framed_serializer 0 [toy_b1, toy_b2, toy_b3]) status_type.none 0 0)
      [toy_b1, toy_b2, toy_b3] toy_b3
      (fun b _ tail => framed_unpack_stream_pack b tail) rfl rfl (by decide) (by decide)
      ⟨_, List.mem_cons_self _ _, by decide⟩).1,
    by decide⟩

/-- C26: in forward replay with `resume == true` over a well-formed log, with the
index position at the start of the record of block `i` of the log, no index file is
removed, the block at the index position is deserialized but not written, and the
calls of `write` are exactly those for the blocks that follow it, in log order, each
with the start of its record; every index then holds what it held before followed by
these records. When two indexes report different position-diff markers while all
report `resume`, the index position is 0, so the first block of the log is skipped and
the records of the blocks from the second on are added after the existing contents.
The stream deserializer is assumed to read back each block of the log; the log is
smaller than `2 ^ 64` bytes. -/
theorem C26_resume_start_point {Block : Type} (c : block_serializer Block)
    (u : List Nat → Option (Block × Nat)) (fm : file_manager Block)
    (bs : List Block) (h : Block)
    (hu : ∀ b ∈ bs, ∀ tail : List Nat,
      u (c.pack_to_vector b ++ tail) = some (b, (c.pack_to_vector b).length))
    (hcontent : fm.block_log.content = log_image c 0 bs)
    (hhead : fm.block_log.head = some h)
    (hfit : total_size c bs < 2 ^ 64)
    (hres : fm.get_resume = true) :
    (∀ (i : Nat) (b : Block),
      fm.get_index_pos = Except.ok (total_size c (bs.take i)) → bs[i]? = some b →
      (∀ a ∈ (fm.construct_index c u never_interrupted).2.2, ∀ j, a ≠ index_action.remove j) ∧
      (∃ checks, (fm.construct_index c u never_interrupted).2.2
        = ((bs.drop (i + 1)).zip
            (record_starts c (total_size c (bs.take (i + 1))) (bs.drop (i + 1)))).map
            (fun w => index_action.write w.1 w.2)
          ++ (List.range fm.idxs.length).map index_action.close ++ checks ∧
        ∀ a ∈ checks, ∀ (x : Block) (p : Nat), a ≠ index_action.write x p) ∧
      (fm.construct_index c u never_interrupted).2.1.idxs = fm.idxs.map fun idx =>
        { idx with records := (idx.records ++ (bs.drop (i + 1)).zip
            (record_starts c (total_size c (bs.take (i + 1))) (bs.drop (i + 1)))) }) ∧
    (∀ idx1 ∈ fm.idxs, ∀ idx2 ∈ fm.idxs, idx1.storage.diff ≠ idx2.storage.diff →
      ∀ b0, bs[0]? = some b0 →
      fm.get_index_pos = Except.ok 0 ∧
      (fm.construct_index c u never_interrupted).2.1.idxs = fm.idxs.map fun idx =>
        { idx with records := (idx.records ++ (bs.drop 1).zip
            (record_starts c (record_size c b0) (bs.drop 1))) }) := by
  have key : ∀ (i : Nat) (b : Block),
      fm.get_index_pos = Except.ok (total_size c (bs.take i)) → bs[i]? = some b →
      fm.construct_index c u never_interrupted
        = ((check_consistency_all (c.block_num h) (fm.idxs.map fun idx =>
              { idx with records := (idx.records
                  ++ layout_records c (total_size c (bs.take (i + 1))) (bs.drop (i + 1))) })
              0).1,
            { fm with idxs := fm.idxs.map fun idx =>
                { idx with records := (idx.records
                    ++ layout_records c (total_size c (bs.take (i + 1))) (bs.drop (i + 1))) } },
            (layout_records c (total_size c (bs.take (i + 1))) (bs.drop (i + 1))).map
                (fun w => index_action.write w.1 w.2)
              ++ (List.range fm.idxs.length).map index_action.close
              ++ (check_consistency_all (c.block_num h) (fm.idxs.map fun idx =>
                    { idx with records := (idx.records
                        ++ layout_records c (total_size c (bs.take (i + 1)))
                            (bs.drop (i + 1))) }) 0).2) := by
    intro i b hip hbi
    have := construct_index_resume c u never_interrupted fm bs h i b hu hcontent hhead hres hip
      hbi hfit
    rw [replayed_never, ← List.length_drop, List.take_length] at this
    exact this
  constructor
  · intro i b hip hbi
    rw [key i b hip hbi]
    refine ⟨?_, ⟨_, rfl, ?_⟩, rfl⟩
    · intro a ha j haj
      subst haj
      simp only [List.mem_append, List.mem_map, List.mem_range] at ha
      rcases ha with (⟨w, -, hw⟩ | ⟨i, -, hi⟩) | ha
      · cases hw
      · cases hi
      · exact check_consistency_all_no_remove _ _ _ _ ha j rfl
    · intro a ha x p hax
      exact check_consistency_all_no_write _ _ _ a ha x p hax
  · intro idx1 h1 idx2 h2 hne b0 hb0
    have hip := get_index_pos_of_ne fm idx1 idx2 h1 h2 hne
    refine ⟨hip, ?_⟩
    have h0 : total_size c (bs.take 0) = 0 := by simp [total_size]
    have hT1 : total_size c (bs.take (0 + 1)) = record_size c b0 := by
      rw [total_size_take_succ c bs 0 b0 hb0, h0, Nat.zero_add]
    rw [key 0 b0 (by rw [h0]; exact hip) hb0, hT1]
    rfl

theorem C26_resume_start_point_witness :
    ((file_manager.of_log toy_log3 (some toy_b3)
          (layout_records framed_serializer 0 [toy_b1, toy_b2]) status_type.resume 0
          11).construct_index framed_serializer framed_unpack_stream
        never_interrupted).2.1.idxs
      = (file_manager.of_log toy_log3 (some toy_b3)
          (layout_records framed_serializer 0 [toy_b1, toy_b2]) status_type.resume 0
          11).idxs.map fun idx =>
        { idx with records := (idx.records ++ ([toy_b1, toy_b2, toy_b3].drop (1 + 1)).zip
            (record_starts framed_serializer
              (total_size framed_serializer ([toy_b1, toy_b2, toy_b3].take (1 + 1)))
              ([toy_b1, toy_b2, toy_b3].drop (1 + 1)))) } :=
  ((C26_resume_start_point framed_serializer framed_unpack_stream
    (file_manager.of_log toy_log3 (some toy_b3)
      (layout_records framed_serializer 0 [toy_b1, toy_b2]) status_type.resume 0 11)
    [toy_b1, toy_b2, toy_b3] toy_b3
    (fun b _ tail => framed_unpack_stream_pack b tail) rfl rfl (by decide) (by decide)).1
    1 toy_b2 rfl rfl).2.2

/-! ## Claims on startup -/

theorem construct_index_block_log {Block : Type} (c : block_serializer Block)
    (u : List Nat → Option (Block × Nat)) (interrupt : Nat → Bool) (fm : file_manager Block) :
    (fm.construct_index c u interrupt).2.1.block_log = fm.block_log := by
  unfold file_manager.construct_index
  dsimp only
  repeat' split
  all_goals rfl

theorem non_empty_idx_infos_calls {Block : Type}
    (call : base_index Block → Except fc_exception (base_index Block))
    (l : List (base_index Block)) :
    ∀ (n : Nat), ∀ a ∈ (non_empty_idx_infos call l n).2.2,
      ∃ i idx, a = index_action.non_empty_idx_info i ∧ n ≤ i ∧ l[i - n]? = some idx
        ∧ idx.storage.size ≠ 0 := by
  induction l with
  | nil => intro n a ha; simp [non_empty_idx_infos] at ha
  | cons x l ih =>
    intro n a ha
    have hrest : ∀ b ∈ (non_empty_idx_infos call l (n + 1)).2.2,
        ∃ i idx, b = index_action.non_empty_idx_info i ∧ n ≤ i ∧ (x :: l)[i - n]? = some idx
          ∧ idx.storage.size ≠ 0 := by
      intro b hb
      obtain ⟨i, idx, hb1, hle, hget, hne⟩ := ih (n + 1) b hb
      refine ⟨i, idx, hb1, by omega, ?_, hne⟩
      have hi : i - n = (i - (n + 1)) + 1 := by omega
      rw [hi, List.getElem?_cons_succ]
      exact hget
    by_cases h : x.storage.size = 0
    · simp only [non_empty_idx_infos, h, ne_eq, not_true_eq_false, if_false] at ha
      exact hrest a ha
    · cases hc : call x with
      | error e =>
        simp only [non_empty_idx_infos, h, ne_eq, not_false_eq_true, if_true, hc,
          List.mem_singleton] at ha
        exact ⟨n, x, ha, Nat.le_refl n, by simp, h⟩
      | ok d =>
        simp only [non_empty_idx_infos, h, ne_eq, not_false_eq_true, if_true, hc,
          List.mem_cons] at ha
        rcases ha with ha | ha
        · exact ⟨n, x, ha, Nat.le_refl n, by simp, h⟩
        · exact hrest a ha

theorem non_empty_idx_infos_returns {Block : Type}
    (call : base_index Block → Except fc_exception (base_index Block))
    (l : List (base_index Block)) :
    ∀ (n : Nat), (∀ idx ∈ l, idx.storage.size ≠ 0 → ∃ d, call idx = Except.ok d) →
      (non_empty_idx_infos call l n).1 = none ∧
      (non_empty_idx_infos call l n).2.2
        = ((l.enumFrom n).filter fun p => decide (p.2.storage.size ≠ 0)).map
            (fun p => index_action.non_empty_idx_info p.1) ∧
      List.Forall₂
        (fun idx after => if idx.storage.size ≠ 0 then call idx = Except.ok after
          else after = idx)
        l (non_empty_idx_infos call l n).2.1 := by
  induction l with
  | nil => intro n _; exact ⟨rfl, rfl, List.Forall₂.nil⟩
  | cons x l ih =>
    intro n hall
    obtain ⟨h1, h2, h3⟩ := ih (n + 1) (fun idx hidx => hall idx (List.mem_cons_of_mem _ hidx))
    by_cases h : x.storage.size = 0
    · simp only [non_empty_idx_infos, h, ne_eq, not_true_eq_false, if_false, List.enumFrom,
        List.filter_cons, decide_False, Bool.false_eq_true]
      exact ⟨h1, h2, List.Forall₂.cons (by simp [h]) h3⟩
    · obtain ⟨d, hd⟩ := hall x (List.mem_cons_self _ _) h
      simp only [non_empty_idx_infos, h, ne_eq, not_false_eq_true, if_true, hd, List.enumFrom,
        List.filter_cons, decide_True, List.map_cons]
      exact ⟨h1, by rw [h2], List.Forall₂.cons (by simp [h, hd]) h3⟩

theorem non_empty_idx_infos_raises {Block : Type}
    (call : base_index Block → Except fc_exception (base_index Block))
    (l : List (base_index Block)) :
    ∀ (n : Nat) (e : fc_exception), (non_empty_idx_infos call l n).1 = some e →
      ∃ idx ∈ l, idx.storage.size ≠ 0 ∧ call idx = Except.error e := by
  induction l with
  | nil => intro n e he; simp [non_empty_idx_infos] at he
  | cons x l ih =>
    intro n e he
    by_cases h : x.storage.size = 0
    · simp only [non_empty_idx_infos, h, ne_eq, not_true_eq_false, if_false] at he
      obtain ⟨idx, hidx, hne, hc⟩ := ih (n + 1) e he
      exact ⟨idx, List.mem_cons_of_mem _ hidx, hne, hc⟩
    · cases hc : call x with
      | error e1 =>
        simp only [non_empty_idx_infos, h, ne_eq, not_false_eq_true, if_true, hc,
          Option.some.injEq] at he
        exact ⟨x, List.mem_cons_self _ _, h, by rw [hc, he]⟩
      | ok d =>
        simp only [non_empty_idx_infos, h, ne_eq, not_false_eq_true, if_true, hc] at he
        obtain ⟨idx, hidx, hne, hc1⟩ := ih (n + 1) e he
        exact ⟨idx, List.mem_cons_of_mem _ hidx, hne, hc1⟩

theorem non_empty_idx_infos_none_iff {Block : Type}
    (call : base_index Block → Except fc_exception (base_index Block))
    (l : List (base_index Block)) (n : Nat) :
    (non_empty_idx_infos call l n).1 = none
      ↔ ∀ idx ∈ l, idx.storage.size ≠ 0 → ∃ d, call idx = Except.ok d := by
  constructor
  · induction l generalizing n with
    | nil => intro _ idx hidx; simp at hidx
    | cons x l ih =>
      intro hn idx hidx hne
      by_cases h : x.storage.size = 0
      · simp only [non_empty_idx_infos, h, ne_eq, not_true_eq_false, if_false] at hn
        rcases List.mem_cons.mp hidx with rfl | hmem
        · exact absurd h hne
        · exact ih (n + 1) hn idx hmem hne
      · cases hc : call x with
        | error e =>
          simp only [non_empty_idx_infos, h, ne_eq, not_false_eq_true, if_true, hc] at hn
          exact absurd hn (by simp)
        | ok d =>
          simp only [non_empty_idx_infos, h, ne_eq, not_false_eq_true, if_true, hc] at hn
          rcases List.mem_cons.mp hidx with rfl | hmem
          · exact ⟨d, hc⟩
          · exact ih (n + 1) hn idx hmem hne
  · intro hall
    exact (non_empty_idx_infos_returns call l n hall).1

theorem forall₂_getElem? {α β : Type} (R : α → β → Prop) :
    ∀ (l : List α) (m : List β), List.Forall₂ R l m →
      ∀ (i : Nat) (a : α), l[i]? = some a → ∃ b, m[i]? = some b ∧ R a b := by
  intro l m h
  induction h with
  | nil => intro i a ha; simp at ha
  | cons hab _ ih =>
    intro i a ha
    cases i with
    | zero =>
      simp only [List.getElem?_cons_zero, Option.some.injEq] at ha
      subst ha
      exact ⟨_, by simp, hab⟩
    | succ i =>
      simp only [List.getElem?_cons_succ] at ha
      obtain ⟨b, hb, hr⟩ := ih i a ha
      exact ⟨b, by simpa using hb, hr⟩

theorem forall₂_mem_right {α β : Type} (R : α → β → Prop) :
    ∀ (l : List α) (m : List β), List.Forall₂ R l m → ∀ b ∈ m, ∃ a ∈ l, R a b := by
  intro l m h
  induction h with
  | nil => intro b hb; simp at hb
  | cons hab _ ih =>
    intro b hb
    rcases List.mem_cons.mp hb with rfl | hmem
    · exact ⟨_, List.mem_cons_self _ _, hab⟩
    · obtain ⟨a, ha, hr⟩ := ih b hmem
      exact ⟨a, List.mem_cons_of_mem _ ha, hr⟩

/-- C15: on a log with non-zero recorded size whose `read_head()` returns `h`,
`prepare_all` publishes `h` as the head, calls `prepare` on every index with `h` and
the storage of the log, and then runs `construct_index` exactly when at least one
index reports a status other than `none`: in that case its result and its calls on the
indexes are those of `construct_index` on the prepared state; when every index reports
`none`, it returns normally with the prepared state and has made no call on an index
besides the `prepare` calls (no file is removed, written or reopened). -/
theorem C15_startup_with_non_empty_log {Block : Type} (c : block_serializer Block)
    (u : List Nat → Option (Block × Nat))
    (prepare : base_index Block → Block → storage_description → base_index Block)
    (non_empty_idx_info : base_index Block → Except fc_exception (base_index Block))
    (interrupt : Nat → Bool) (fm : file_manager Block) (h : Block)
    (hsize : fm.block_log.storage.size ≠ 0)
    (hhead : fm.read_head c = Except.ok h) :
    (fm.prepare_all c u prepare non_empty_idx_info interrupt).2.1.block_log.head = some h ∧
    (fm.publish_and_prepare prepare h).idxs
      = fm.idxs.map (fun idx => prepare idx h fm.block_log.storage) ∧
    (∃ later, (fm.prepare_all c u prepare non_empty_idx_info interrupt).2.2
      = (List.range fm.idxs.length).map (fun i => index_action.prepare i h) ++ later) ∧
    ((∃ idx ∈ (fm.publish_and_prepare prepare h).idxs, idx.storage.status ≠ status_type.none) →
      fm.prepare_all c u prepare non_empty_idx_info interrupt
        = (((fm.publish_and_prepare prepare h).construct_index c u interrupt).1,
            ((fm.publish_and_prepare prepare h).construct_index c u interrupt).2.1,
            (List.range fm.idxs.length).map (fun i => index_action.prepare i h)
              ++ ((fm.publish_and_prepare prepare h).construct_index c u interrupt).2.2)) ∧
    ((∀ idx ∈ (fm.publish_and_prepare prepare h).idxs, idx.storage.status = status_type.none) →
      fm.prepare_all c u prepare non_empty_idx_info interrupt
        = (none, fm.publish_and_prepare prepare h,
            (List.range fm.idxs.length).map (fun i => index_action.prepare i h))) := by
  have hallowed : (fm.publish_and_prepare prepare h).construct_index_allowed = true
      ↔ ∃ idx ∈ (fm.publish_and_prepare prepare h).idxs,
          idx.storage.status ≠ status_type.none := by
    simp [file_manager.construct_index_allowed, List.any_eq_true]
  have hyes : (∃ idx ∈ (fm.publish_and_prepare prepare h).idxs,
      idx.storage.status ≠ status_type.none) →
      fm.prepare_all c u prepare non_empty_idx_info interrupt
        = (((fm.publish_and_prepare prepare h).construct_index c u interrupt).1,
            ((fm.publish_and_prepare prepare h).construct_index c u interrupt).2.1,
            (List.range fm.idxs.length).map (fun i => index_action.prepare i h)
              ++ ((fm.publish_and_prepare prepare h).construct_index c u interrupt).2.2) := by
    intro hex
    simp only [file_manager.prepare_all, hsize, ne_eq, not_false_eq_true, if_true, hhead,
      hallowed.mpr hex]
  have hno : (∀ idx ∈ (fm.publish_and_prepare prepare h).idxs,
      idx.storage.status = status_type.none) →
      fm.prepare_all c u prepare non_empty_idx_info interrupt
        = (none, fm.publish_and_prepare prepare h,
            (List.range fm.idxs.length).map (fun i => index_action.prepare i h)) := by
    intro hall
    have hf : ¬ (fm.publish_and_prepare prepare h).construct_index_allowed = true := by
      rw [hallowed]
      rintro ⟨idx, hidx, hne⟩
      exact hne (hall idx hidx)
    simp only [file_manager.prepare_all, hsize, ne_eq, not_false_eq_true, if_true, hhead, hf,
      if_false, Bool.false_eq_true]
  refine ⟨?_, rfl, ?_, hyes, hno⟩
  · by_cases hex : ∃ idx ∈ (fm.publish_and_prepare prepare h).idxs,
        idx.storage.status ≠ status_type.none
    · rw [hyes hex]
      simp only [construct_index_block_log]
      rfl
    · rw [hno (by
        intro idx hidx
        by_contra hne
        exact hex ⟨idx, hidx, hne⟩)]
      rfl
  · by_cases hex : ∃ idx ∈ (fm.publish_and_prepare prepare h).idxs,
        idx.storage.status ≠ status_type.none
    · rw [hyes hex]
      exact ⟨_, rfl⟩
    · rw [hno (by
        intro idx hidx
        by_contra hne
        exact hex ⟨idx, hidx, hne⟩)]
      exact ⟨[], by simp⟩

theorem C15_startup_with_non_empty_log_witness :
    (file_manager.of_log toy_log3 none (layout_records framed_serializer 0 [toy_b1, toy_b2, toy_b3])
        status_type.reindex 0 0).prepare_all framed_serializer framed_unpack_stream
        (base_index.prepare framed_serializer) base_index.non_empty_idx_info
        never_interrupted
      = (none,
          (file_manager.of_log toy_log3 none
            (layout_records framed_serializer 0 [toy_b1, toy_b2, toy_b3])
            status_type.reindex 0 0).publish_and_prepare (base_index.prepare framed_serializer)
            toy_b3,
          (List.range 2).map (fun i => index_action.prepare i toy_b3)) :=
  (C15_startup_with_non_empty_log framed_serializer framed_unpack_stream
    (base_index.prepare framed_serializer) base_index.non_empty_idx_info never_interrupted
    (file_manager.of_log toy_log3 none (layout_records framed_serializer 0 [toy_b1, toy_b2, toy_b3])
      status_type.reindex 0 0) toy_b3 (by decide) rfl).2.2.2.2 (by decide)

/-- C16: when the recorded size of the log is 0, `prepare_all` leaves the log as it is
(no head is published), and the only calls it makes on an index are
`non_empty_idx_info` on indexes whose recorded size is not zero: no index is prepared
and `construct_index` does not run. It returns normally exactly when none of these
calls raises, and an exception it raises is the one of such a call. When no call
raises, `non_empty_idx_info` has run once on each index of non-zero size, in index
order, every such index is left as that call left it and every other index is
untouched; when every index is empty nothing at all is done. With
`non_empty_idx_info` dropping the index, as the table of `prepare_all` says for a new
log with an existing index, `prepare_all` returns normally, every index of non-zero
size ends with no record and size 0, and no index of non-zero size is left. -/
theorem C16_startup_with_empty_log {Block : Type} (c : block_serializer Block)
    (u : List Nat → Option (Block × Nat))
    (prepare : base_index Block → Block → storage_description → base_index Block)
    (non_empty_idx_info : base_index Block → Except fc_exception (base_index Block))
    (interrupt : Nat → Bool) (fm : file_manager Block)
    (hsize : fm.block_log.storage.size = 0) :
    (fm.prepare_all c u prepare non_empty_idx_info interrupt).2.1.block_log = fm.block_log ∧
    (∀ a ∈ (fm.prepare_all c u prepare non_empty_idx_info interrupt).2.2,
      ∃ (i : Nat) (idx : base_index Block),
        a = index_action.non_empty_idx_info i ∧ fm.idxs[i]? = some idx
          ∧ idx.storage.size ≠ 0) ∧
    ((fm.prepare_all c u prepare non_empty_idx_info interrupt).1 = none
      ↔ ∀ idx ∈ fm.idxs, idx.storage.size ≠ 0 → ∃ d, non_empty_idx_info idx = Except.ok d) ∧
    (∀ e, (fm.prepare_all c u prepare non_empty_idx_info interrupt).1 = some e →
      ∃ idx ∈ fm.idxs, idx.storage.size ≠ 0 ∧ non_empty_idx_info idx = Except.error e) ∧
    ((∀ idx ∈ fm.idxs, idx.storage.size ≠ 0 → ∃ d, non_empty_idx_info idx = Except.ok d) →
      (fm.prepare_all c u prepare non_empty_idx_info interrupt).2.2
        = ((fm.idxs.enumFrom 0).filter fun p => decide (p.2.storage.size ≠ 0)).map
            (fun p => index_action.non_empty_idx_info p.1) ∧
      (∀ (i : Nat) (idx : base_index Block), fm.idxs[i]? = some idx → idx.storage.size ≠ 0 →
        index_action.non_empty_idx_info i
          ∈ (fm.prepare_all c u prepare non_empty_idx_info interrupt).2.2) ∧
      List.Forall₂
        (fun idx after => if idx.storage.size ≠ 0 then non_empty_idx_info idx = Except.ok after
          else after = idx)
        fm.idxs (fm.prepare_all c u prepare non_empty_idx_info interrupt).2.1.idxs) ∧
    ((∀ idx ∈ fm.idxs, idx.storage.size = 0) →
      fm.prepare_all c u prepare non_empty_idx_info interrupt = (none, fm, [])) ∧
    ((fm.prepare_all c u prepare base_index.non_empty_idx_info interrupt).1 = none ∧
      (∀ (i : Nat) (idx : base_index Block), fm.idxs[i]? = some idx → idx.storage.size ≠ 0 →
        ∃ after : base_index Block,
          (fm.prepare_all c u prepare base_index.non_empty_idx_info interrupt).2.1.idxs[i]?
            = some after
          ∧ after.records = [] ∧ after.storage.size = 0 ∧ after.kind = idx.kind) ∧
      (∀ after ∈ (fm.prepare_all c u prepare base_index.non_empty_idx_info interrupt).2.1.idxs,
        after.storage.size = 0)) := by
  have hres : ∀ call : base_index Block → Except fc_exception (base_index Block),
      fm.prepare_all c u prepare call interrupt
        = ((non_empty_idx_infos call fm.idxs 0).1,
            { fm with idxs := (non_empty_idx_infos call fm.idxs 0).2.1 },
            (non_empty_idx_infos call fm.idxs 0).2.2) := by
    intro call
    simp only [file_manager.prepare_all, hsize, ne_eq, not_true_eq_false, if_false]
  have hdrop : ∀ idx ∈ fm.idxs, idx.storage.size ≠ 0 →
      ∃ d, base_index.non_empty_idx_info idx = Except.ok d := fun _ _ _ => ⟨_, rfl⟩
  rw [hres non_empty_idx_info, hres base_index.non_empty_idx_info]
  refine ⟨rfl, ?_, ?_, ?_, ?_, ?_, ?_, ?_, ?_⟩
  · intro a ha
    obtain ⟨i, idx, ha1, _, hget, hne⟩ :=
      non_empty_idx_infos_calls non_empty_idx_info fm.idxs 0 a ha
    exact ⟨i, idx, ha1, by simpa using hget, hne⟩
  · exact non_empty_idx_infos_none_iff non_empty_idx_info fm.idxs 0
  · exact non_empty_idx_infos_raises non_empty_idx_info fm.idxs 0
  · intro hall
    obtain ⟨_, h2, h3⟩ := non_empty_idx_infos_returns non_empty_idx_info fm.idxs 0 hall
    refine ⟨h2, ?_, h3⟩
    intro i idx hi hne
    show _ ∈ (non_empty_idx_infos non_empty_idx_info fm.idxs 0).2.2
    rw [h2]
    simp only [List.mem_map, List.mem_filter, decide_eq_true_eq]
    refine ⟨(i, idx), ⟨?_, hne⟩, rfl⟩
    rw [List.mk_mem_enumFrom_iff_le_and_getElem?_sub]
    exact ⟨Nat.zero_le _, by simpa using hi⟩
  · intro hall
    obtain ⟨h1, h2, h3⟩ := non_empty_idx_infos_returns non_empty_idx_info fm.idxs 0
      (fun idx hidx hne => absurd (hall idx hidx) hne)
    have hnil : ((fm.idxs.enumFrom 0).filter fun p => decide (p.2.storage.size ≠ 0)) = [] := by
      rw [List.filter_eq_nil_iff]
      intro p hp
      have hm : p.2 ∈ fm.idxs := List.snd_mem_of_mem_enumFrom hp
      simp [hall p.2 hm]
    have hsame : (non_empty_idx_infos non_empty_idx_info fm.idxs 0).2.1 = fm.idxs := by
      apply List.ext_getElem?
      intro i
      cases hget : fm.idxs[i]? with
      | none =>
        have hlen := h3.length_eq
        rw [List.getElem?_eq_none_iff] at hget ⊢
        omega
      | some idx =>
        obtain ⟨b, hb, hr⟩ := forall₂_getElem? _ _ _ h3 i idx hget
        have hz : idx.storage.size = 0 := hall idx (List.mem_iff_getElem?.mpr ⟨i, hget⟩)
        simp only [hz, ne_eq, not_true_eq_false, if_false] at hr
        rw [hb, hr]
    rw [h1, h2, hnil, hsame]
    rfl
  · exact (non_empty_idx_infos_returns base_index.non_empty_idx_info fm.idxs 0 hdrop).1
  · intro i idx hi hne
    obtain ⟨_, _, h3⟩ := non_empty_idx_infos_returns base_index.non_empty_idx_info fm.idxs 0 hdrop
    obtain ⟨b, hb, hr⟩ := forall₂_getElem? _ _ _ h3 i idx hi
    simp only [hne, ne_eq, not_false_eq_true, if_true, base_index.non_empty_idx_info,
      Except.ok.injEq] at hr
    refine ⟨b, hb, ?_⟩
    subst hr
    exact ⟨rfl, rfl, rfl⟩
  · intro after hafter
    obtain ⟨_, _, h3⟩ := non_empty_idx_infos_returns base_index.non_empty_idx_info fm.idxs 0 hdrop
    obtain ⟨idx, _, hr⟩ := forall₂_mem_right _ _ _ h3 after hafter
    by_cases hz : idx.storage.size = 0
    · simp only [hz, ne_eq, not_true_eq_false, if_false] at hr
      rw [hr]
      exact hz
    · simp only [hz, ne_eq, not_false_eq_true, if_true, base_index.non_empty_idx_info,
        Except.ok.injEq] at hr
      subst hr
      rfl

theorem C16_startup_with_empty_log_witness :
    ((file_manager.of_log [] (none : Option toy_block) [(toy_b1, 0)] status_type.none 0
        0).prepare_all framed_serializer framed_unpack_stream
        (base_index.prepare framed_serializer) base_index.non_empty_idx_info
        never_interrupted).2.2
      = [index_action.non_empty_idx_info 0, index_action.non_empty_idx_info 1] ∧
    ((file_manager.of_log [] (none : Option toy_block) [(toy_b1, 0)] status_type.none 0
        0).prepare_all framed_serializer framed_unpack_stream
        (base_index.prepare framed_serializer) base_index.non_empty_idx_info
        never_interrupted).2.1.idxs.map (fun idx => (idx.records.length, idx.storage.size))
      = [(0, 0), (0, 0)] :=
  ⟨((C16_startup_with_empty_log framed_serializer framed_unpack_stream
      (base_index.prepare framed_serializer) base_index.non_empty_idx_info never_interrupted
      (file_manager.of_log [] (none : Option toy_block) [(toy_b1, 0)] status_type.none 0 0)
      rfl).2.2.2.2.1 (fun _ _ _ => ⟨_, rfl⟩)).1,
    by decide⟩
/-! ## Claims on backward extraction -/

theorem trailer_offsets_append {Block : Type} (c : block_serializer Block) (xs ys : List Block) :
    ∀ p, trailer_offsets c p (xs ++ ys)
      = trailer_offsets c p xs ++ trailer_offsets c (p + total_size c xs) ys := by
  induction xs with
  | nil => intro p; simp [trailer_offsets, total_size]
  | cons b xs ih =>
    intro p
    simp [trailer_offsets, ih, total_size_cons, Nat.add_assoc]

theorem trailer_offsets_length {Block : Type} (c : block_serializer Block) (bs : List Block) :
    ∀ p, (trailer_offsets c p bs).length = bs.length := by
  induction bs with
  | nil => intro p; rfl
  | cons b bs ih => intro p; simp [trailer_offsets, ih]

theorem trailer_offsets_bound {Block : Type} (c : block_serializer Block) (bs : List Block) :
    ∀ p, ∀ o ∈ trailer_offsets c p bs, p ≤ o ∧ o + 8 ≤ p + total_size c bs := by
  induction bs with
  | nil => intro p o ho; simp [trailer_offsets] at ho
  | cons b bs ih =>
    intro p o ho
    simp only [trailer_offsets, List.mem_cons] at ho
    rw [total_size_cons]
    rcases ho with rfl | ho
    · simp only [record_size]; omega
    · have := ih _ o ho
      simp only [record_size] at *
      omega

theorem set_slot (F : List Nat) (k n P : Nat) (hk : k ≤ n) (hn : n < F.length) :
    (F.set n P).take k = F.take k ∧ (F.set n P).drop n = P :: F.drop (n + 1) := by
  rw [List.set_eq_take_append_cons_drop, if_pos hn]
  constructor
  · rw [List.take_append_of_le_length (by simp; omega), List.take_take, Nat.min_eq_left hk]
  · exact List.drop_left' (by simp; omega)

/-- The backward extraction loop across the records `sfx` at the end of the part of the
log it has not walked yet. -/
theorem backward_extraction_loop_walk {Block : Type} (c : block_serializer Block)
    (content : List Nat) (sfx : List Block) :
    ∀ (X Y : List Nat) (k : Nat) (F : List Nat) (R : List access),
      (∀ b ∈ sfx, 0 < (c.pack_to_vector b).length) →
      content = X ++ log_image c X.length sfx ++ Y →
      X.length + total_size c sfx < 2 ^ 64 →
      k + sfx.length ≤ F.length →
      backward_extraction_loop content (k + sfx.length) never_interrupted
          { block_index := k + sfx.length,
            block_log_offset_of_block_pos := sub64 (X.length + total_size c sfx) 8,
            index_file := F, reads := R }
        = backward_extraction_loop content k never_interrupted
          { block_index := k, block_log_offset_of_block_pos := sub64 X.length 8,
            index_file := F.take k ++ record_starts c X.length sfx ++ F.drop (k + sfx.length),
            reads := R ++ (trailer_offsets c X.length sfx).reverse.map
              (fun o => access.log_read o 8) } := by
  induction sfx using List.reverseRecOn with
  | nil =>
    intro X Y k F R _ _ _ _
    simp [record_starts, trailer_offsets, total_size]
  | append_singleton init b ih =>
    intro X Y k F R hpos hc hfit hF
    have hb : 0 < (c.pack_to_vector b).length := hpos b (by simp)
    have hT : total_size c (init ++ [b])
        = total_size c init + ((c.pack_to_vector b).length + 8) := by
      rw [total_size_append]; simp [total_size, record_size]
    rw [hT] at hfit
    have hlen : (init ++ [b]).length = init.length + 1 := by simp
    rw [hlen] at hF
    have hoff : sub64 (X.length + total_size c (init ++ [b])) 8
        = X.length + total_size c init + (c.pack_to_vector b).length := by
      rw [hT]; unfold sub64; omega
    have hc2 : content = (X ++ log_image c X.length init ++ c.pack_to_vector b)
        ++ (le64 (X.length + total_size c init) ++ Y) := by
      rw [hc, log_image_append]
      simp [log_image]
    have hread : pread_with_retry content 8
        (X.length + total_size c init + (c.pack_to_vector b).length)
        = Except.ok (le64 (X.length + total_size c init)) := by
      have h := pread_with_retry_mid (X ++ log_image c X.length init ++ c.pack_to_vector b)
        (le64 (X.length + total_size c init)) Y
      rw [← hc2, le64_length] at h
      simp only [List.length_append, log_image_length] at h
      exact h
    have hP : from_le64 (le64 (X.length + total_size c init)) = X.length + total_size c init :=
      from_le64_le64 _ (by omega)
    have hnever : (fun k => never_interrupted (k + 1)) = never_interrupted := rfl
    have hstep : backward_extraction_loop content (k + (init ++ [b]).length) never_interrupted
          { block_index := k + (init ++ [b]).length,
            block_log_offset_of_block_pos := sub64 (X.length + total_size c (init ++ [b])) 8,
            index_file := F, reads := R }
        = backward_extraction_loop content (k + init.length) never_interrupted
          { block_index := k + init.length,
            block_log_offset_of_block_pos := sub64 (X.length + total_size c init) 8,
            index_file := F.set (k + init.length) (X.length + total_size c init),
            reads := R ++ [access.log_read
              (X.length + total_size c init + (c.pack_to_vector b).length) 8] } := by
      rw [hlen, hoff, ← Nat.add_assoc]
      simp only [backward_extraction_loop, hread, hP, hnever]
      rw [if_neg (by simp [never_interrupted]), if_neg (by omega)]
    rw [hstep]
    have ih1 := ih X (c.pack_to_vector b ++ le64 (X.length + total_size c init) ++ Y) k
      (F.set (k + init.length) (X.length + total_size c init))
      (R ++ [access.log_read (X.length + total_size c init + (c.pack_to_vector b).length) 8])
      (fun x hx => hpos x (by simp [hx]))
      (by rw [hc, log_image_append]; simp [log_image])
      (by omega) (by simp; omega)
    rw [ih1]
    obtain ⟨hs1, hs2⟩ := set_slot F k (k + init.length) (X.length + total_size c init)
      (by omega) (by omega)
    rw [hs1, hs2, record_starts_append, trailer_offsets_append, hlen]
    simp [record_starts, trailer_offsets, Nat.add_assoc]

theorem slot_bytes (index_file : List Nat) :
    ∀ (i v : Nat), index_file[i]? = some v →
      ((index_file_bytes index_file).drop (i * 8)).take 8 = le64 v := by
  induction index_file with
  | nil => intro i v h; simp at h
  | cons a l ih =>
    intro i v h
    cases i with
    | zero =>
      simp only [List.getElem?_cons_zero, Option.some.injEq] at h
      subst h
      simp only [index_file_bytes, List.map_cons, List.flatten_cons, Nat.zero_mul, List.drop_zero]
      exact List.take_left' (le64_length _)
    | succ i =>
      simp only [List.getElem?_cons_succ] at h
      have := ih i v h
      simp only [index_file_bytes, List.map_cons, List.flatten_cons] at this ⊢
      have h8 : (i + 1) * 8 = (le64 a).length + i * 8 := by rw [le64_length]; omega
      rw [h8, ← List.drop_drop, List.drop_left' rfl]
      exact this

/-- C22: for every well-formed log of the blocks `bs` whose head block
number is `|bs|`, backward extraction that is not interrupted ends without raising
after exactly `|bs|` steps with `block_index` 0; slot `i - 1` of the new index file
(its 8 bytes at offset `(i - 1) * 8`) holds the start offset of record `i`, for every
`i` in `1..|bs|`; the reads it made are one 8-byte read per record, of the trailers
from the last record back to the first, all inside the log. Serializations are not
empty, the log is smaller than `2 ^ 64` bytes and holds fewer than `2 ^ 32` blocks. -/
theorem C22_backward_extraction_builds_index {Block : Type} (c : block_serializer Block)
    (fm : file_manager Block) (bs : List Block) (h : Block)
    (hcontent : fm.block_log.content = log_image c 0 bs)
    (hsize : fm.block_log.storage.size = fm.block_log.content.length)
    (hhead : fm.block_log.head = some h)
    (hnum : c.block_num h = bs.length)
    (hpos : ∀ b ∈ bs, 0 < (c.pack_to_vector b).length)
    (hfit : total_size c bs < 2 ^ 64)
    (hcount : bs.length < 2 ^ 32) :
    (fm.backward_extraction c never_interrupted).1 = none ∧
    (fm.backward_extraction c never_interrupted).2.block_index = 0 ∧
    (fm.backward_extraction c never_interrupted).2.index_file = record_starts c 0 bs ∧
    (∀ (i : Nat), i < bs.length →
      (fm.backward_extraction c never_interrupted).2.index_file[i]?
        = some (total_size c (bs.take i)) ∧
      ((index_file_bytes (fm.backward_extraction c never_interrupted).2.index_file).drop
          (i * 8)).take 8 = le64 (total_size c (bs.take i))) ∧
    (fm.backward_extraction c never_interrupted).2.reads
      = (trailer_offsets c 0 bs).reverse.map (fun o => access.log_read o 8) ∧
    (fm.backward_extraction c never_interrupted).2.reads.length = bs.length ∧
    (∀ a ∈ (fm.backward_extraction c never_interrupted).2.reads,
      ∃ o, a = access.log_read o 8 ∧ o + 8 ≤ fm.block_log.content.length) := by
  have hlen : fm.block_log.content.length = total_size c bs := by
    rw [hcontent, log_image_length]
  have hwalk := backward_extraction_loop_walk c fm.block_log.content bs [] [] 0
    (List.replicate bs.length 0) [] hpos (by simpa using hcontent) (by simpa using hfit)
    (by simp)
  simp only [Nat.zero_add, List.length_nil, List.take_zero, List.nil_append] at hwalk
  have hrun : fm.backward_extraction c never_interrupted
      = (none, { block_index := 0, block_log_offset_of_block_pos := sub64 0 8,
                 index_file := record_starts c 0 bs,
                 reads := (trailer_offsets c 0 bs).reverse.map
                   (fun o => access.log_read o 8) }) := by
    simp only [file_manager.backward_extraction, hhead, hnum, Nat.mod_eq_of_lt hcount, hsize,
      hlen, hwalk, backward_extraction_loop]
    simp
  rw [hrun]
  refine ⟨rfl, rfl, rfl, ?_, rfl, by simp [trailer_offsets_length], ?_⟩
  · intro i hi
    have hs : (record_starts c 0 bs)[i]? = some (total_size c (bs.take i)) := by
      rw [record_starts_index c bs 0 i hi, Nat.zero_add]
    exact ⟨hs, slot_bytes _ i _ hs⟩
  · intro a ha
    simp only [List.mem_map, List.mem_reverse] at ha
    obtain ⟨o, ho, rfl⟩ := ha
    have := (trailer_offsets_bound c bs 0 o ho).2
    exact ⟨o, rfl, by rw [hlen]; omega⟩

theorem C22_backward_extraction_builds_index_witness :
    (file_manager.backward_extraction framed_serializer never_interrupted
        (file_manager.of_log toy_log3 (some toy_b3) [] status_type.empty 0 0)).2.index_file
      = record_starts framed_serializer 0 [toy_b1, toy_b2, toy_b3] :=
  (C22_backward_extraction_builds_index framed_serializer
    (file_manager.of_log toy_log3 (some toy_b3) [] status_type.empty 0 0)
    [toy_b1, toy_b2, toy_b3] toy_b3 rfl rfl rfl rfl (by decide) (by decide)
    (by decide)).2.2.1

/-- C21 (as stated, refuted): in the log that holds the single record of block 1 (3
bytes of block, trailer at offset 3), the trailing offset is changed from 0 to 1;
backward extraction passes its check, since 1 is below the trailer's own offset 3, and
completes without raising with the wrong value 1 in the slot of block 1. -/
theorem C21_changed_trailer_passes_the_check :
    corrupt_trailer toy_log1 3 1 ≠ toy_log1 ∧
    (corrupt_trailer toy_log1 3 1).length = toy_log1.length ∧
    (file_manager.backward_extraction framed_serializer never_interrupted
        (file_manager.of_log (corrupt_trailer toy_log1 3 1) (some toy_b1) [] status_type.empty
          0 0))
      = (none, { block_index := 0, block_log_offset_of_block_pos := sub64 1 8,
                 index_file := [1], reads := [access.log_read 3 8] }) ∧
    record_starts framed_serializer 0 [toy_b1] = [0] := by
  refine ⟨by decide, by decide, by decide, by decide⟩

theorem store_le64_trailer (A s t rest : List Nat) (v : Nat) (ht : t.length = 8) :
    store_le64 (A ++ s ++ t ++ rest) (A ++ s).length v = A ++ s ++ le64 v ++ rest := by
  unfold store_le64
  have h1 : (A ++ s ++ t ++ rest).take (A ++ s).length = A ++ s := by
    rw [List.append_assoc (A ++ s), List.take_left' rfl]
  have h2 : (A ++ s ++ t ++ rest).drop ((A ++ s).length + 8) = rest := by
    apply List.drop_left'
    simp only [List.length_append, ht]
  rw [h1, h2]

/-- C21 (amended): for every well-formed log of the blocks `bs` whose head block number
is `|bs|`, changing the 8-byte trailing offset of record `i` to a value `v` that is
not below the offset of that trailer itself makes uninterrupted backward extraction
fail with the 'bad block index' error. (A changed value below the trailer's offset
passes the check.) Serializations are not empty, the log is smaller than `2 ^ 64`
bytes and holds fewer than `2 ^ 32` blocks. -/
theorem C21_consistency_gate {Block : Type} (c : block_serializer Block)
    (fm : file_manager Block) (bs : List Block) (h : Block) (i : Nat) (b : Block) (v : Nat)
    (hbi : bs[i]? = some b)
    (hcontent : fm.block_log.content
      = corrupt_trailer (log_image c 0 bs)
          (total_size c (bs.take i) + (c.pack_to_vector b).length) v)
    (hsize : fm.block_log.storage.size = fm.block_log.content.length)
    (hhead : fm.block_log.head = some h)
    (hnum : c.block_num h = bs.length)
    (hpos : ∀ b ∈ bs, 0 < (c.pack_to_vector b).length)
    (hfit : total_size c bs < 2 ^ 64)
    (hcount : bs.length < 2 ^ 32)
    (hv : total_size c (bs.take i) + (c.pack_to_vector b).length ≤ v)
    (hv64 : v < 2 ^ 64) :
    (fm.backward_extraction c never_interrupted).1 = some fc_exception.bad_block_index := by
  have hi : i < bs.length := (List.getElem?_eq_some_iff.mp hbi).1
  have hTsucc := total_size_take_succ c bs i b hbi
  have hsplitT : total_size c bs
      = total_size c (bs.take (i + 1)) + total_size c (bs.drop (i + 1)) := by
    rw [← total_size_append, List.take_append_drop]
  have hrs : record_size c b = (c.pack_to_vector b).length + 8 := rfl
  -- the log, split at the record of block `i`
  have hlog : log_image c 0 bs
      = log_image c 0 (bs.take i) ++ c.pack_to_vector b ++ le64 (total_size c (bs.take i))
        ++ log_image c (total_size c (bs.take (i + 1))) (bs.drop (i + 1)) := by
    conv_lhs => rw [split_at_index bs i b hbi]
    rw [log_image_append]
    simp [log_image, hTsucc]
  have hAlen : (log_image c 0 (bs.take i) ++ c.pack_to_vector b).length
      = total_size c (bs.take i) + (c.pack_to_vector b).length := by
    simp [log_image_length]
  have hcorrupt : fm.block_log.content
      = (log_image c 0 (bs.take i) ++ c.pack_to_vector b ++ le64 v)
        ++ log_image c (total_size c (bs.take (i + 1))) (bs.drop (i + 1)) := by
    rw [hcontent, corrupt_trailer, hlog, ← hAlen]
    exact store_le64_trailer _ _ _ _ v (le64_length _)
  have hXlen : (log_image c 0 (bs.take i) ++ c.pack_to_vector b ++ le64 v).length
      = total_size c (bs.take (i + 1)) := by
    simp only [List.length_append, log_image_length, le64_length, hTsucc, hrs]
    omega
  have hlen : fm.block_log.content.length = total_size c bs := by
    rw [hcorrupt]
    simp only [List.length_append, log_image_length, le64_length, hsplitT, hTsucc, hrs]
    omega
  have hwalk := backward_extraction_loop_walk c fm.block_log.content (bs.drop (i + 1))
    (log_image c 0 (bs.take i) ++ c.pack_to_vector b ++ le64 v) [] (i + 1)
    (List.replicate bs.length 0) []
    (fun x hx => hpos x (List.mem_of_mem_drop hx))
    (by rw [hXlen, List.append_nil]; exact hcorrupt)
    (by rw [hXlen]; omega)
    (by simp; omega)
  rw [hXlen] at hwalk
  have hidx : i + 1 + (bs.drop (i + 1)).length = bs.length := by
    simp only [List.length_drop]; omega
  rw [hidx, ← hsplitT] at hwalk
  have hoff : sub64 (total_size c (bs.take (i + 1))) 8
      = total_size c (bs.take i) + (c.pack_to_vector b).length := by
    rw [hTsucc, hrs]; unfold sub64; omega
  have hread : pread_with_retry fm.block_log.content 8
      (total_size c (bs.take i) + (c.pack_to_vector b).length) = Except.ok (le64 v) := by
    have hm := pread_with_retry_mid (log_image c 0 (bs.take i) ++ c.pack_to_vector b) (le64 v)
      (log_image c (total_size c (bs.take (i + 1))) (bs.drop (i + 1)))
    rw [le64_length, hAlen, ← List.append_assoc, ← hcorrupt] at hm
    exact hm
  have hV : from_le64 (le64 v) = v := from_le64_le64 v hv64
  simp only [file_manager.backward_extraction, hhead, hnum, Nat.mod_eq_of_lt hcount, hsize,
    hlen, hwalk, hoff, backward_extraction_loop, hread, hV]
  rw [if_neg (by simp [never_interrupted]), if_pos hv]

theorem C21_consistency_gate_witness :
    (file_manager.backward_extraction framed_serializer never_interrupted
        (file_manager.of_log
          (corrupt_trailer (log_image framed_serializer 0 [toy_b1, toy_b2, toy_b3])
            (total_size framed_serializer ([toy_b1, toy_b2, toy_b3].take 1)
              + (framed_serializer.pack_to_vector toy_b2).length) 40)
          (some toy_b3) [] status_type.empty 0 0)).1
      = some fc_exception.bad_block_index :=
  C21_consistency_gate framed_serializer
    (file_manager.of_log
      (corrupt_trailer (log_image framed_serializer 0 [toy_b1, toy_b2, toy_b3])
        (total_size framed_serializer ([toy_b1, toy_b2, toy_b3].take 1)
          + (framed_serializer.pack_to_vector toy_b2).length) 40)
      (some toy_b3) [] status_type.empty 0 0)
    [toy_b1, toy_b2, toy_b3] toy_b3 1 toy_b2 40 rfl rfl rfl rfl rfl (by decide) (by decide)
    (by decide) (by decide) (by decide)

/-! ## Claims on failing appends and on the byte range of `read_head` -/

theorem append_checked_success {Block : Type} (c : block_serializer Block)
    (fm : file_manager Block) (b : Block) :
    fm.append_checked c { log_write_failure := none, index_append_failure := none } b
      = (none, (fm.append c b).1, some (fm.append c b).2) := rfl

/-- C23: in every state, when the write of the record to the log fails, after any
number `k` of its bytes reached the file, `append` raises, returns no offset, and
leaves the recorded size of the log, every index and the published head exactly as
they were; the file holds the old content followed by the first `k` bytes of the
record. The recorded size is advanced and the head replaced only in the run in which
the write returned: then the state is that of a successful `append`, with the size
advanced by the length of the record and the head equal to the block. -/
theorem C23_write_before_publish {Block : Type} (c : block_serializer Block)
    (fm : file_manager Block) (b : Block) (k : Nat) (later : Option Nat) :
    (fm.append_checked c { log_write_failure := some k, index_append_failure := later } b).1
      = some fc_exception.io_error ∧
    (fm.append_checked c { log_write_failure := some k, index_append_failure := later } b).2.2
      = none ∧
    (fm.append_checked c { log_write_failure := some k, index_append_failure := later }
        b).2.1.block_log.storage = fm.block_log.storage ∧
    (fm.append_checked c { log_write_failure := some k, index_append_failure := later }
        b).2.1.idxs = fm.idxs ∧
    (fm.append_checked c { log_write_failure := some k, index_append_failure := later }
        b).2.1.block_log.head = fm.block_log.head ∧
    (fm.append_checked c { log_write_failure := some k, index_append_failure := later }
        b).2.1.block_log.content
      = fm.block_log.content ++ (append_buffer c fm.block_log.storage.size b).take k ∧
    (fm.append_checked c { log_write_failure := none, index_append_failure := none } b).1
      = none ∧
    (fm.append_checked c { log_write_failure := none, index_append_failure := none }
        b).2.1.block_log.storage.size
      = (fm.block_log.storage.size + (append_buffer c fm.block_log.storage.size b).length)
          % 2 ^ 64 ∧
    (fm.append_checked c { log_write_failure := none, index_append_failure := none }
        b).2.1.block_log.head = some b ∧
    (fm.append_checked c { log_write_failure := none, index_append_failure := none }
        b).2.1.block_log.content
      = fm.block_log.content ++ append_buffer c fm.block_log.storage.size b := by
  refine ⟨rfl, rfl, rfl, rfl, rfl, rfl, rfl, rfl, rfl, rfl⟩

/-- C27: in every state, when the write of the record to the log succeeds and the
`append` of index `j` raises, `append` raises and returns no offset; the log is
already extended by the whole record and the recorded size advanced by the length of
the record, the indexes before `j` hold the new record after their old ones, the
indexes from `j` on hold what they held, and the published head is still the previous
head. For a serialization shorter than `2 ^ 32` bytes and a log that stays below
`2 ^ 64` bytes the record is the serialized block followed by the old size, and the
size grows by the length of the serialization plus 8. -/
theorem C27_append_not_atomic {Block : Type} (c : block_serializer Block)
    (fm : file_manager Block) (b : Block) (j : Nat) (hj : j < fm.idxs.length) :
    (fm.append_checked c { log_write_failure := none, index_append_failure := some j } b).1
      = some fc_exception.io_error ∧
    (fm.append_checked c { log_write_failure := none, index_append_failure := some j } b).2.2
      = none ∧
    (fm.append_checked c { log_write_failure := none, index_append_failure := some j }
        b).2.1.block_log.content
      = fm.block_log.content ++ append_buffer c fm.block_log.storage.size b ∧
    (fm.append_checked c { log_write_failure := none, index_append_failure := some j }
        b).2.1.block_log.storage.size
      = (fm.block_log.storage.size + (append_buffer c fm.block_log.storage.size b).length)
          % 2 ^ 64 ∧
    (fm.append_checked c { log_write_failure := none, index_append_failure := some j }
        b).2.1.block_log.head = fm.block_log.head ∧
    (fm.append_checked c { log_write_failure := none, index_append_failure := some j }
        b).2.1.idxs.take j
      = (fm.idxs.take j).map (fun idx =>
          { idx with records := idx.records ++ [(b, fm.block_log.storage.size)] }) ∧
    (fm.append_checked c { log_write_failure := none, index_append_failure := some j }
        b).2.1.idxs.drop j = fm.idxs.drop j ∧
    ((c.pack_to_vector b).length < 2 ^ 32 →
      fm.block_log.storage.size + (c.pack_to_vector b).length + 8 < 2 ^ 64 →
      (fm.append_checked c { log_write_failure := none, index_append_failure := some j }
          b).2.1.block_log.content
        = fm.block_log.content ++ c.pack_to_vector b ++ le64 fm.block_log.storage.size ∧
      (fm.append_checked c { log_write_failure := none, index_append_failure := some j }
          b).2.1.block_log.storage.size
        = fm.block_log.storage.size + (c.pack_to_vector b).length + 8) := by
  have hres : fm.append_checked c { log_write_failure := none, index_append_failure := some j } b
      = (some fc_exception.io_error,
          { block_log :=
              { fm.block_log with
                content := fm.block_log.content ++ append_buffer c fm.block_log.storage.size b,
                storage := { fm.block_log.storage with
                  size := (fm.block_log.storage.size
                    + (append_buffer c fm.block_log.storage.size b).length) % 2 ^ 64 } },
            idxs := (fm.idxs.take j).map (fun idx => idx.append b fm.block_log.storage.size)
              ++ fm.idxs.drop j },
          none) := by
    simp only [file_manager.append_checked, hj, if_true]
  have htl : ((fm.idxs.take j).map
      (fun idx => idx.append b fm.block_log.storage.size)).length = j := by
    simp only [List.length_map, List.length_take]
    omega
  rw [hres]
  refine ⟨rfl, rfl, rfl, rfl, rfl, ?_, ?_, ?_⟩
  · simp only []
    rw [List.take_left' htl]
    rfl
  · simp only []
    rw [List.drop_left' htl]
  · intro hb hfit
    simp only []
    rw [append_buffer_eq c _ b hb]
    refine ⟨by rw [List.append_assoc], ?_⟩
    simp only [List.length_append, le64_length]
    rw [Nat.mod_eq_of_lt (by omega)]
    omega

theorem C27_append_not_atomic_witness :
    (toy_fm1.append_checked toy_serializer
        { log_write_failure := none, index_append_failure := some 1 } toy_b2).2.1.idxs.map
        (fun idx => idx.records)
      = [[(toy_b1, 0), (toy_b2, 10)], [(toy_b1, 0)]] ∧
    (toy_fm1.append_checked toy_serializer
        { log_write_failure := none, index_append_failure := some 1 }
        toy_b2).2.1.block_log.head = toy_fm1.block_log.head :=
  ⟨by decide,
    (C27_append_not_atomic toy_serializer toy_fm1 toy_b2 1 (by decide)).2.2.2.2.1⟩

theorem from_le64_lt : ∀ (bytes : List Nat), from_le64 bytes < 256 ^ bytes.length := by
  intro bytes
  induction bytes with
  | nil => simp [from_le64]
  | cons a l ih =>
    have h1 : from_le64 (a :: l) = a % 256 + 256 * from_le64 l := rfl
    rw [h1, List.length_cons, Nat.pow_succ]
    have : a % 256 < 256 := Nat.mod_lt _ (by decide)
    nlinarith

/-- C28: for every log file of size `s ≥ 8` (below `2 ^ 64`) whose last 8 bytes encode
the offset `o`, `read_head` reads the trailer and then requests the range that starts
at `o` and has length `(s - o - 8) mod 2 ^ 64`, and returns or raises what the read of
that range does: no other check is made. For `o ≤ s - 8` this is exactly the range
`[o, s - 8)`, which lies inside the file and excludes the trailer. -/
theorem C28_read_head_byte_range {Block : Type} (c : block_serializer Block)
    (fm : file_manager Block)
    (hs : 8 ≤ fm.block_log.content.length)
    (hs64 : fm.block_log.content.length < 2 ^ 64) :
    fm.read_head_traced c
      = (read_block_from_offset_and_size c fm.block_log.content
            (from_le64 (fm.block_log.content.drop (fm.block_log.content.length - 8)))
            (sub64 (sub64 fm.block_log.content.length
              (from_le64 (fm.block_log.content.drop (fm.block_log.content.length - 8)))) 8),
          [access.log_read (fm.block_log.content.length - 8) 8,
           access.log_read
            (from_le64 (fm.block_log.content.drop (fm.block_log.content.length - 8)))
            (sub64 (sub64 fm.block_log.content.length
              (from_le64 (fm.block_log.content.drop (fm.block_log.content.length - 8)))) 8)]) ∧
    ((sub64 (sub64 fm.block_log.content.length
        (from_le64 (fm.block_log.content.drop (fm.block_log.content.length - 8)))) 8 : Nat) : Int)
      = ((fm.block_log.content.length : Int)
          - (from_le64 (fm.block_log.content.drop (fm.block_log.content.length - 8)) : Int) - 8)
        % 2 ^ 64 ∧
    (from_le64 (fm.block_log.content.drop (fm.block_log.content.length - 8))
        ≤ fm.block_log.content.length - 8 →
      sub64 (sub64 fm.block_log.content.length
        (from_le64 (fm.block_log.content.drop (fm.block_log.content.length - 8)))) 8
        = fm.block_log.content.length - 8
          - from_le64 (fm.block_log.content.drop (fm.block_log.content.length - 8)) ∧
      from_le64 (fm.block_log.content.drop (fm.block_log.content.length - 8))
        + (fm.block_log.content.length - 8
          - from_le64 (fm.block_log.content.drop (fm.block_log.content.length - 8)))
        = fm.block_log.content.length - 8) := by
  have hdl : (fm.block_log.content.drop (fm.block_log.content.length - 8)).length = 8 := by
    rw [List.length_drop]; omega
  have hread : pread_with_retry fm.block_log.content 8 (fm.block_log.content.length - 8)
      = Except.ok (fm.block_log.content.drop (fm.block_log.content.length - 8)) := by
    unfold pread_with_retry
    rw [if_pos (by omega), List.take_of_length_le (by omega)]
  have ho := from_le64_lt (fm.block_log.content.drop (fm.block_log.content.length - 8))
  rw [hdl] at ho
  refine ⟨?_, ?_, ?_⟩
  · unfold file_manager.read_head_traced
    simp only [hread]
    rw [if_neg (by omega)]
  · generalize from_le64 (fm.block_log.content.drop (fm.block_log.content.length - 8)) = o at *
    unfold sub64
    omega
  · intro hle
    unfold sub64
    omega

theorem C28_read_head_byte_range_witness :
    (file_manager.read_head_traced framed_serializer
        (file_manager.of_log toy_log3 (none : Option toy_block) [] status_type.empty 0 0)).2
      = [access.log_read 25 8, access.log_read 23 2] :=
  (congrArg Prod.snd (C28_read_head_byte_range framed_serializer
    (file_manager.of_log toy_log3 (none : Option toy_block) [] status_type.empty 0 0)
    (by decide) (by decide)).1).trans (by decide)

end hive.chain

namespace hive.plugins.sql_serializer

/-! ## Claims on `get_id_with_counter` -/

theorem find_eq_none_iff {α : Type} [DecidableEq α] (accounts : accountname_id_counter_map_t α)
    (name : α) : find accounts name = none ↔ name ∉ accounts.map Prod.fst := by
  induction accounts with
  | nil => simp [find]
  | cons e rest ih =>
    by_cases h : e.1 = name
    · simp [find, h]
    · simp only [find, h, if_false, ih, List.map_cons, List.mem_cons, not_or]
      constructor
      · intro h1; exact ⟨fun h2 => h h2.symm, h1⟩
      · intro h1; exact h1.2

theorem find_mem {α : Type} [DecidableEq α] (accounts : accountname_id_counter_map_t α)
    (name : α) (e : id_counter_t) (h : find accounts name = some e) : (name, e) ∈ accounts := by
  induction accounts with
  | nil => simp [find] at h
  | cons a rest ih =>
    by_cases ha : a.1 = name
    · simp only [find, ha, if_true, Option.some.injEq] at h
      subst h
      subst ha
      simp
    · simp only [find, ha, if_false] at h
      exact List.mem_cons_of_mem _ (ih h)

theorem entry_unique {α : Type} [DecidableEq α] (accounts : accountname_id_counter_map_t α)
    (hn : (accounts.map Prod.fst).Nodup) (name : α) (e1 e2 : id_counter_t)
    (h1 : (name, e1) ∈ accounts) (h2 : (name, e2) ∈ accounts) : e1 = e2 := by
  induction accounts with
  | nil => simp at h1
  | cons a rest ih =>
    simp only [List.map_cons, List.nodup_cons, List.mem_map, not_exists, not_and] at hn
    simp only [List.mem_cons] at h1 h2
    rcases h1 with h1 | h1 <;> rcases h2 with h2 | h2
    · rw [← h1] at h2
      exact (Prod.mk.inj h2).2.symm
    · exact absurd (by rw [← h1]) (hn.1 _ h2)
    · exact absurd (by rw [← h2]) (hn.1 _ h1)
    · exact ih hn.2 h1 h2

theorem first_seen_from_append {α : Type} [DecidableEq α] (l m : List α) :
    ∀ seen : List α, first_seen_from seen (l ++ m) = first_seen_from (first_seen_from seen l) m := by
  induction l with
  | nil => intro seen; rfl
  | cons x l ih =>
    intro seen
    show first_seen_from (if x ∈ seen then seen else seen ++ [x]) (l ++ m) = _
    rw [ih]
    rfl

theorem mem_first_seen_from {α : Type} [DecidableEq α] (l : List α) :
    ∀ (seen : List α) (x : α), x ∈ first_seen_from seen l ↔ x ∈ seen ∨ x ∈ l := by
  induction l with
  | nil => intro seen x; simp [first_seen_from]
  | cons a l ih =>
    intro seen x
    simp only [first_seen_from, ih, List.mem_cons]
    by_cases h : a ∈ seen
    · simp only [h, if_true]
      constructor
      · rintro (h1 | h1)
        · exact Or.inl h1
        · exact Or.inr (Or.inr h1)
      · rintro (h1 | h1 | h1)
        · exact Or.inl h1
        · exact Or.inl (h1 ▸ h)
        · exact Or.inr h1
    · simp only [h, if_false, List.mem_append, List.mem_singleton]
      tauto

theorem nodup_first_seen_from {α : Type} [DecidableEq α] (l : List α) :
    ∀ (seen : List α), seen.Nodup → (first_seen_from seen l).Nodup := by
  induction l with
  | nil => intro seen h; exact h
  | cons a l ih =>
    intro seen h
    simp only [first_seen_from]
    by_cases ha : a ∈ seen
    · simp only [ha, if_true]; exact ih _ h
    · simp only [ha, if_false]
      apply ih
      rw [List.nodup_append]
      refine ⟨h, List.nodup_singleton _, ?_⟩
      intro x hx hx2
      simp only [List.mem_singleton] at hx2
      exact ha (hx2 ▸ hx)

theorem length_first_seen_from_le {α : Type} [DecidableEq α] (l : List α) :
    ∀ (seen : List α), (first_seen_from seen l).length ≤ seen.length + l.length := by
  induction l with
  | nil => intro seen; simp [first_seen_from]
  | cons a l ih =>
    intro seen
    simp only [first_seen_from, List.length_cons]
    by_cases ha : a ∈ seen
    · simp only [ha, if_true]
      have := ih seen
      omega
    · simp only [ha, if_false]
      have := ih (seen ++ [a])
      simp only [List.length_append, List.length_singleton] at this
      omega

theorem accounts_of_step {α : Type} [DecidableEq α]
    (accounts : accountname_id_counter_map_t α) (pre : List α) (name : α)
    (hinv : accounts_of accounts pre) (hlen : pre.length + 1 < 2 ^ 32) :
    accounts_of (get_id_with_counter accounts name).1 (pre ++ [name]) := by
  obtain ⟨hkeys, hids, hcnt⟩ := hinv
  have hnodup : (accounts.map Prod.fst).Nodup := by
    rw [hkeys]; exact nodup_first_seen_from pre [] List.nodup_nil
  have hmem : ∀ x, x ∈ accounts.map Prod.fst ↔ x ∈ pre := by
    intro x
    rw [hkeys, first_seen, mem_first_seen_from]
    simp
  have hsize : accounts.length ≤ pre.length := by
    have h1 := length_first_seen_from_le pre []
    have h2 : (accounts.map Prod.fst).length = accounts.length := List.length_map _ _
    rw [hkeys] at h2
    simp only [first_seen] at h2
    simp only [List.length_nil] at h1
    omega
  have hfs : first_seen (pre ++ [name])
      = if name ∈ first_seen pre then first_seen pre else first_seen pre ++ [name] := by
    simp only [first_seen, first_seen_from_append, first_seen_from]
  cases hf : find accounts name with
  | none =>
    have hnot : name ∉ accounts.map Prod.fst := (find_eq_none_iff accounts name).mp hf
    have hnotpre : name ∉ pre := fun h => hnot ((hmem name).mpr h)
    simp only [get_id_with_counter, hf]
    refine ⟨?_, ?_, ?_⟩
    · rw [hfs, ← hkeys, if_neg hnot]
      simp
    · intro i e hi
      by_cases hlt : i < accounts.length
      · rw [List.getElem?_append_left hlt] at hi
        exact hids i e hi
      · rw [List.getElem?_append_right (by omega)] at hi
        have hi0 : i - accounts.length = 0 := by
          by_contra hne
          have : ([(name, (accounts.length % 2 ^ 32, 0))] :
              List (α × id_counter_t))[i - accounts.length]? = none := by
            apply List.getElem?_eq_none
            simp only [List.length_singleton]
            omega
          rw [this] at hi
          cases hi
        rw [hi0] at hi
        simp only [List.getElem?_cons_zero, Option.some.injEq] at hi
        subst hi
        simp only []
        rw [Nat.mod_eq_of_lt (by omega)]
        omega
    · intro e he
      simp only [List.mem_append, List.mem_singleton] at he
      rcases he with he | he
      · have hne : e.1 ≠ name := by
          intro h
          exact hnot (h ▸ List.mem_map_of_mem Prod.fst he)
        rw [List.count_append, hcnt e he]
        simp [hne, List.count_cons]
      · subst he
        simp only []
        rw [List.count_append, List.count_eq_zero_of_not_mem hnotpre]
        simp
  | some found =>
    have hin : (name, found) ∈ accounts := find_mem accounts name found hf
    have hkey : name ∈ accounts.map Prod.fst := List.mem_map_of_mem Prod.fst hin
    have hfound := hcnt _ hin
    simp only [] at hfound
    have hcount_le : pre.count name ≤ pre.length := List.count_le_length _ _
    simp only [get_id_with_counter, hf]
    refine ⟨?_, ?_, ?_⟩
    · rw [hfs, ← hkeys, if_pos hkey, List.map_map]
      apply List.map_congr_left
      intro e _
      simp only [Function.comp]
      split <;> rfl
    · intro i e hi
      rw [List.getElem?_map] at hi
      cases hget : accounts[i]? with
      | none => rw [hget] at hi; cases hi
      | some a =>
        rw [hget] at hi
        simp only [Option.map_some', Option.some.injEq] at hi
        have hid := hids i a hget
        by_cases ha : a.1 = name
        · rw [if_pos ha] at hi
          subst hi
          simp only []
          have hain : (name, a.2) ∈ accounts := by
            have := List.mem_iff_getElem?.mpr ⟨i, hget⟩
            rw [← ha]
            exact this
          have := entry_unique accounts hnodup name a.2 found hain hin
          rw [← this]
          exact hid
        · rw [if_neg ha] at hi
          subst hi
          exact hid
    · intro e he
      simp only [List.mem_map] at he
      obtain ⟨a, ha, rfl⟩ := he
      by_cases hname : a.1 = name
      · simp only [hname, if_true]
        have hain : (name, a.2) ∈ accounts := by rw [← hname]; exact ha
        rw [List.count_append]
        simp only [List.count_singleton_self]
        rw [Nat.mod_eq_of_lt (by omega)]
        omega
      · simp only [hname, if_false]
        rw [List.count_append, hcnt a ha]
        simp [List.count_cons]
        intro h
        exact absurd h.symm hname

theorem accounts_of_run {α : Type} [DecidableEq α] (names : List α) :
    ∀ (accounts : accountname_id_counter_map_t α) (pre : List α),
      accounts_of accounts pre → pre.length + names.length < 2 ^ 32 →
      accounts_of (get_participants_ids accounts names).1 (pre ++ names) := by
  induction names with
  | nil => intro accounts pre h _; simpa [get_participants_ids] using h
  | cons x names ih =>
    intro accounts pre h hlen
    simp only [List.length_cons] at hlen
    have hstep := accounts_of_step accounts pre x h (by omega)
    have := ih _ _ hstep (by simp only [List.length_append, List.length_singleton]; omega)
    simpa [get_participants_ids] using this

theorem find_append {α : Type} [DecidableEq α] (a b : accountname_id_counter_map_t α) (x : α) :
    find (a ++ b) x = match find a x with
      | some e => some e
      | none => find b x := by
  induction a with
  | nil => simp [find]
  | cons e rest ih =>
    by_cases h : e.1 = x
    · simp [find, h]
    · show find (e :: (rest ++ b)) x = _
      simp only [find, h, if_false]
      exact ih

theorem find_map_update {α : Type} [DecidableEq α] (accounts : accountname_id_counter_map_t α)
    (name : α) (updated : id_counter_t) (x : α) :
    find (accounts.map fun entry => if entry.1 = name then (entry.1, updated) else entry) x
      = if x = name then (find accounts x).map (fun _ => updated) else find accounts x := by
  induction accounts with
  | nil => simp [find]
  | cons e rest ih =>
    by_cases hx : x = name
    · subst hx
      by_cases he : e.1 = x
      · simp [find, he]
      · simp only [List.map_cons, he, if_false, find, ih, if_true]
    · by_cases he : e.1 = name
      · have hne : ¬ e.1 = x := fun h => hx (h ▸ he)
        have hnx : ¬ name = x := fun h => hx h.symm
        simp [find, he, ih, hx, hnx]
      · by_cases hex : e.1 = x
        · simp [find, he, hex, hx]
        · simp only [List.map_cons, he, if_false, find, hex, ih, hx]

/-- C29: for every map and account name, `get_id_with_counter` gives a name without an
entry the id `accounts.size()` (as a `uint32_t`) and the counter 0, adding that entry;
for a name with an entry it keeps the id and increases the counter by exactly 1 (as a
`uint32_t`); it returns the resulting pair and leaves the entry of every other name,
and in the second case the size of the map, as they were. Hence, after fewer than
`2 ^ 32` lookups that start from an empty map, the names of the map are the names
looked up in first-seen order, the id of each is its position in that order (the
distinct values `0..n-1`), and the counter of each is the number of its occurrences
minus one. -/
theorem C29_account_id_counter_assignment {α : Type} [DecidableEq α] :
    (∀ (accounts : accountname_id_counter_map_t α) (name : α), find accounts name = none →
      get_id_with_counter accounts name
        = (accounts ++ [(name, (accounts.length % 2 ^ 32, 0))],
            (accounts.length % 2 ^ 32, 0)) ∧
      (accounts.length < 2 ^ 32 →
        (get_id_with_counter accounts name).2 = (accounts.length, 0)) ∧
      find (get_id_with_counter accounts name).1 name = some (accounts.length % 2 ^ 32, 0) ∧
      ∀ other, other ≠ name →
        find (get_id_with_counter accounts name).1 other = find accounts other) ∧
    (∀ (accounts : accountname_id_counter_map_t α) (name : α) (id counter : Nat),
      find accounts name = some (id, counter) →
      (get_id_with_counter accounts name).2 = (id, (counter + 1) % 2 ^ 32) ∧
      (counter + 1 < 2 ^ 32 → (get_id_with_counter accounts name).2 = (id, counter + 1)) ∧
      find (get_id_with_counter accounts name).1 name = some (id, (counter + 1) % 2 ^ 32) ∧
      (get_id_with_counter accounts name).1.length = accounts.length ∧
      ∀ other, other ≠ name →
        find (get_id_with_counter accounts name).1 other = find accounts other) ∧
    (∀ (names : List α), names.length < 2 ^ 32 →
      (get_participants_ids [] names).1.map Prod.fst = first_seen names ∧
      ((get_participants_ids [] names).1.map Prod.fst).Nodup ∧
      (get_participants_ids [] names).1.map (fun e => e.2.1)
        = List.range (first_seen names).length ∧
      ∀ name ∈ names, ∃ id, id < (first_seen names).length ∧
        find (get_participants_ids [] names).1 name = some (id, names.count name - 1)) := by
  refine ⟨?_, ?_, ?_⟩
  · intro accounts name hf
    have hres : get_id_with_counter accounts name
        = (accounts ++ [(name, (accounts.length % 2 ^ 32, 0))],
            (accounts.length % 2 ^ 32, 0)) := by
      simp only [get_id_with_counter, hf]
    rw [hres]
    refine ⟨rfl, ?_, ?_, ?_⟩
    · intro hlt
      simp only [Nat.mod_eq_of_lt hlt]
    · simp only [find_append, hf, find, if_true]
    · intro other hne
      rw [find_append]
      cases hfo : find accounts other with
      | some e => rfl
      | none =>
        simp only [find]
        rw [if_neg (fun h => hne h.symm)]
  · intro accounts name id counter hf
    have hres : get_id_with_counter accounts name
        = (accounts.map fun entry =>
            if entry.1 = name then (entry.1, (id, (counter + 1) % 2 ^ 32)) else entry,
          (id, (counter + 1) % 2 ^ 32)) := by
      simp only [get_id_with_counter, hf]
    rw [hres]
    refine ⟨rfl, ?_, ?_, ?_, ?_⟩
    · intro hlt
      simp only [Nat.mod_eq_of_lt hlt]
    · simp only [find_map_update, if_true, hf, Option.map_some']
    · simp
    · intro other hne
      simp only [find_map_update, hne, if_false]
  · intro names hlen
    have hinv := accounts_of_run names [] []
      ⟨rfl, by intro i e h; simp at h, by intro e he; simp at he⟩
      (by simpa using hlen)
    simp only [List.nil_append] at hinv
    obtain ⟨hkeys, hids, hcnt⟩ := hinv
    have hnodup : ((get_participants_ids [] names).1.map Prod.fst).Nodup := by
      rw [hkeys]; exact nodup_first_seen_from names [] List.nodup_nil
    have hlen2 : (get_participants_ids [] names).1.length = (first_seen names).length := by
      rw [← hkeys, List.length_map]
    refine ⟨hkeys, hnodup, ?_, ?_⟩
    · apply List.ext_getElem?
      intro i
      rw [List.getElem?_map]
      by_cases hi : i < (get_participants_ids [] names).1.length
      · rw [List.getElem?_eq_getElem hi, List.getElem?_range (by rw [← hlen2]; exact hi)]
        simp only [Option.map_some', Option.some.injEq]
        exact hids i _ (List.getElem?_eq_getElem hi)
      · rw [List.getElem?_eq_none (by omega), List.getElem?_eq_none (by simp; omega)]
        rfl
    · intro name hname
      have hkey : name ∈ (get_participants_ids [] names).1.map Prod.fst := by
        rw [hkeys, first_seen, mem_first_seen_from]
        exact Or.inr hname
      cases hf : find (get_participants_ids [] names).1 name with
      | none => exact absurd hkey ((find_eq_none_iff _ _).mp hf)
      | some e =>
        have hin := find_mem _ _ _ hf
        have hc := hcnt _ hin
        simp only [] at hc
        obtain ⟨i, hi⟩ := List.mem_iff_getElem?.mp hin
        have hid := hids i _ hi
        simp only [] at hid
        have hilt : i < (get_participants_ids [] names).1.length := by
          by_contra hge
          rw [List.getElem?_eq_none (by omega)] at hi
          cases hi
        refine ⟨e.1, by rw [hid, ← hlen2]; exact hilt, ?_⟩
        have : e = (e.1, names.count name - 1) := by
          apply Prod.ext
          · rfl
          · simp only []
            omega
        rw [← this]

theorem C29_account_id_counter_assignment_witness :
    (get_participants_ids ([] : accountname_id_counter_map_t String)
        ["bob", "alice", "bob", "sam", "bob"]).1
      = [("bob", (0, 2)), ("alice", (1, 0)), ("sam", (2, 0))] ∧
    (get_participants_ids ([] : accountname_id_counter_map_t String)
        ["bob", "alice", "bob", "sam", "bob"]).1.map Prod.fst
      = first_seen ["bob", "alice", "bob", "sam", "bob"] :=
  ⟨by decide,
    ((C29_account_id_counter_assignment (α := String)).2.2
      ["bob", "alice", "bob", "sam", "bob"] (by decide)).1⟩

end hive.plugins.sql_serializer

namespace ah_manager

/-! ## Claims on `get_counter` -/

theorem get_counter_stored (m : acc_counters_type) (a c : Int) (key : Nat) :
    (get_counter m a c).1 key
      = if key = (a % 2 ^ 32).toNat then
          (match m (a % 2 ^ 32).toNat with
            | none => some ((c + 1) % 2 ^ 32).toNat
            | some found => some ((found + 1) % 2 ^ 64))
        else m key := by
  unfold get_counter
  cases h : m (a % 2 ^ 32).toNat <;> simp only [h]

theorem get_counter_calls_stored (calls : List (Int × Int)) (a : Int) :
    ∀ (m : acc_counters_type) (v : Nat), v < 2 ^ 64 → m (a % 2 ^ 32).toNat = some v →
      (get_counter_calls m calls).1 (a % 2 ^ 32).toNat
        = some ((v + (calls.filter fun call => decide (call.1 % 2 ^ 32 = a % 2 ^ 32)).length)
            % 2 ^ 64) := by
  induction calls with
  | nil =>
    intro m v hv hm
    simp only [get_counter_calls, List.filter_nil, List.length_nil, Nat.add_zero,
      Nat.mod_eq_of_lt hv]
    exact hm
  | cons call calls ih =>
    intro m v hv hm
    simp only [get_counter_calls]
    by_cases hc : call.1 % 2 ^ 32 = a % 2 ^ 32
    · have hstep : (get_counter m call.1 call.2).1 (a % 2 ^ 32).toNat
          = some ((v + 1) % 2 ^ 64) := by
        rw [get_counter_stored, hc, if_pos rfl, hm]
      rw [ih _ _ (Nat.mod_lt _ (by decide)) hstep,
        List.filter_cons_of_pos (by simpa using hc), List.length_cons]
      generalize (calls.filter fun call => decide (call.1 % 2 ^ 32 = a % 2 ^ 32)).length = k
      simp only [Option.some.injEq]
      omega
    · have hkey : (a % 2 ^ 32).toNat ≠ (call.1 % 2 ^ 32).toNat := by
        intro h
        apply hc
        have h1 : (0 : Int) ≤ a % 2 ^ 32 := Int.emod_nonneg _ (by decide)
        have h2 : (0 : Int) ≤ call.1 % 2 ^ 32 := Int.emod_nonneg _ (by decide)
        omega
      have hstep : (get_counter m call.1 call.2).1 (a % 2 ^ 32).toNat = some v := by
        rw [get_counter_stored, if_neg hkey, hm]
      rw [ih _ _ hv hstep, List.filter_cons_of_neg (by simpa using hc)]

/-- C30 (as stated, refuted): after `clear_counters`, the first call of `get_counter`
for account 7 with count `2 ^ 32 - 2` returns `2 ^ 32 - 1`; the next call for account 7
returns 0, not that first value plus 1. -/
theorem C30_later_call_wraps_at_32_bits :
    (get_counter (clear_counters fun _ => none).1 7 4294967294).2 = 4294967295 ∧
    (get_counter (get_counter (clear_counters fun _ => none).1 7 4294967294).1 7 0).2 = 0 ∧
    (get_counter (get_counter (clear_counters fun _ => none).1 7 4294967294).1 7 0).2
      ≠ 4294967295 + 1 := by
  refine ⟨by decide, by decide, by decide⟩

/-- C30 (amended): `clear_counters` always returns 0 and empties the map. After it, the
first `get_counter(a, c)` for an account id `a` stores and returns `(c + 1) mod 2^32`;
after any further calls, a call for an id that agrees with `a` mod `2^32` returns that
first value plus `n`, reduced mod `2^32`, where `n` counts the calls made for such ids
since the first one, this call included, whatever count arguments are passed (so the
first value plus `n` itself as long as that is below `2^32`). -/
theorem C30_per_account_counter (m : acc_counters_type) (a c : Int) :
    (clear_counters m).2 = 0 ∧
    (∀ key, (clear_counters m).1 key = none) ∧
    (get_counter (clear_counters m).1 a c).2 = ((c + 1) % 2 ^ 32).toNat ∧
    (get_counter (clear_counters m).1 a c).1 (a % 2 ^ 32).toNat
      = some ((c + 1) % 2 ^ 32).toNat ∧
    (∀ (calls : List (Int × Int)) (a2 c2 : Int), a2 % 2 ^ 32 = a % 2 ^ 32 →
      (get_counter (get_counter_calls (get_counter (clear_counters m).1 a c).1 calls).1
          a2 c2).2
        = (((c + 1) % 2 ^ 32).toNat
            + ((calls.filter fun call => decide (call.1 % 2 ^ 32 = a % 2 ^ 32)).length + 1))
          % 2 ^ 32 ∧
      (((c + 1) % 2 ^ 32).toNat
          + ((calls.filter fun call => decide (call.1 % 2 ^ 32 = a % 2 ^ 32)).length + 1)
          < 2 ^ 32 →
        (get_counter (get_counter_calls (get_counter (clear_counters m).1 a c).1 calls).1
            a2 c2).2
          = ((c + 1) % 2 ^ 32).toNat
            + ((calls.filter fun call => decide (call.1 % 2 ^ 32 = a % 2 ^ 32)).length + 1))) := by
  have hfirst : (get_counter (clear_counters m).1 a c).1 (a % 2 ^ 32).toNat
      = some ((c + 1) % 2 ^ 32).toNat := by
    rw [get_counter_stored, if_pos rfl]
    rfl
  refine ⟨rfl, fun _ => rfl, rfl, hfirst, ?_⟩
  intro calls a2 c2 ha2
  have hret : ∀ (m2 : acc_counters_type) (v : Nat), m2 (a % 2 ^ 32).toNat = some v →
      (get_counter m2 a2 c2).2 = (v + 1) % 2 ^ 64 % 2 ^ 32 := by
    intro m2 v hv
    simp only [get_counter, ha2, hv]
  have key : (get_counter (get_counter_calls (get_counter (clear_counters m).1 a c).1 calls).1
      a2 c2).2
      = (((c + 1) % 2 ^ 32).toNat
          + ((calls.filter fun call => decide (call.1 % 2 ^ 32 = a % 2 ^ 32)).length + 1))
        % 2 ^ 32 := by
    have hlt : ((c + 1) % 2 ^ 32).toNat < 2 ^ 64 := by
      have h1 : (0 : Int) ≤ (c + 1) % 2 ^ 32 := Int.emod_nonneg _ (by decide)
      have h2 : (c + 1) % 2 ^ 32 < 2 ^ 32 := Int.emod_lt_of_pos _ (by decide)
      omega
    rw [hret _ _ (get_counter_calls_stored calls a _ _ hlt hfirst)]
    generalize (calls.filter fun call => decide (call.1 % 2 ^ 32 = a % 2 ^ 32)).length = k
    generalize ((c + 1) % 2 ^ 32).toNat = f
    omega
  refine ⟨key, ?_⟩
  intro hlt
  rw [key, Nat.mod_eq_of_lt hlt]

end ah_manager

namespace hive.plugins.market_history

/-! ## Claim on the market history buckets -/

theorem aggregate_shift (d s o hive non_hive : Nat) (buckets : List bucket) :
    aggregate (buckets.map (shift_bucket d)) s (o + d) hive non_hive
      = (aggregate buckets s o hive non_hive).map (shift_bucket d) := by
  induction buckets with
  | nil => simp [aggregate, shift_bucket, new_bucket]
  | cons b rest ih =>
    simp only [List.map_cons, aggregate]
    have h1 : ((shift_bucket d b).seconds = s ∧ (shift_bucket d b).open_time = o + d)
        ↔ (b.seconds = s ∧ b.open_time = o) := by
      simp [shift_bucket]
    have h2 : (s < (shift_bucket d b).seconds
          ∨ (s = (shift_bucket d b).seconds ∧ o + d < (shift_bucket d b).open_time))
        ↔ (s < b.seconds ∨ (s = b.seconds ∧ o < b.open_time)) := by
      simp [shift_bucket]
    by_cases c1 : b.seconds = s ∧ b.open_time = o
    · rw [if_pos (h1.mpr c1), if_pos c1]
      simp [shift_bucket, update_bucket]
    · rw [if_neg (fun h => c1 (h1.mp h)), if_neg c1]
      by_cases c2 : s < b.seconds ∨ (s = b.seconds ∧ o < b.open_time)
      · rw [if_pos (h2.mpr c2), if_pos c2]
        simp [shift_bucket, new_bucket]
      · rw [if_neg (fun h => c2 (h2.mp h)), if_neg c2, ih]
        simp

theorem foldl_aggregate_shift (d : Nat) (steps : List (Nat × Nat × Nat × Nat)) :
    ∀ (buckets : List bucket),
      (steps.map (shift_step d)).foldl
          (fun buckets st => aggregate buckets st.1 st.2.1 st.2.2.1 st.2.2.2)
          (buckets.map (shift_bucket d))
        = (steps.foldl (fun buckets st => aggregate buckets st.1 st.2.1 st.2.2.1 st.2.2.2)
            buckets).map (shift_bucket d) := by
  induction steps with
  | nil => intro buckets; rfl
  | cons st steps ih =>
    intro buckets
    simp only [List.map_cons, List.foldl_cons, shift_step]
    rw [aggregate_shift, ih]

theorem mh_test_bucket_index (G ta tb tc : Nat)
    (hG : G % 86400 = 0) (ha1 : G ≤ ta) (ha2 : ta < G + 15)
    (hb1 : G + 5400 ≤ tb) (hb2 : tb < G + 5415)
    (hc1 : G + 5460 ≤ tc) (hc2 : tc < G + 5475) :
    ta / 15 * 15 = G ∧
    bucket_index (mh_test_fills ta tb tc) = mh_test_buckets (ta / 15 * 15) G := by
  have a15 : bucket_open ta 15 = 0 + G := by unfold bucket_open; omega
  have a60 : bucket_open ta 60 = 0 + G := by unfold bucket_open; omega
  have a300 : bucket_open ta 300 = 0 + G := by unfold bucket_open; omega
  have a3600 : bucket_open ta 3600 = 0 + G := by unfold bucket_open; omega
  have a86400 : bucket_open ta 86400 = 0 + G := by unfold bucket_open; omega
  have b15 : bucket_open tb 15 = 5400 + G := by unfold bucket_open; omega
  have b60 : bucket_open tb 60 = 5400 + G := by unfold bucket_open; omega
  have b300 : bucket_open tb 300 = 5400 + G := by unfold bucket_open; omega
  have b3600 : bucket_open tb 3600 = 3600 + G := by unfold bucket_open; omega
  have b86400 : bucket_open tb 86400 = 0 + G := by unfold bucket_open; omega
  have c15 : bucket_open tc 15 = 5460 + G := by unfold bucket_open; omega
  have c60 : bucket_open tc 60 = 5460 + G := by unfold bucket_open; omega
  have c300 : bucket_open tc 300 = 5400 + G := by unfold bucket_open; omega
  have c3600 : bucket_open tc 3600 = 3600 + G := by unfold bucket_open; omega
  have c86400 : bucket_open tc 86400 = 0 + G := by unfold bucket_open; omega
  have hta : ta / 15 * 15 = G := by
    have := a15
    unfold bucket_open at this
    omega
  have hsteps : ((mh_test_fills ta tb tc).map fill_steps).flatten
      = (((mh_test_fills 0 5400 5460).map fill_steps).flatten).map (shift_step G) := by
    have z : ∀ s, bucket_open 0 s = 0 := by intro s; simp [bucket_open]
    have e1 : bucket_open 5400 15 = 5400 := by decide
    have e2 : bucket_open 5400 60 = 5400 := by decide
    have e3 : bucket_open 5400 300 = 5400 := by decide
    have e4 : bucket_open 5400 3600 = 3600 := by decide
    have e5 : bucket_open 5400 86400 = 0 := by decide
    have e6 : bucket_open 5460 15 = 5460 := by decide
    have e7 : bucket_open 5460 60 = 5460 := by decide
    have e8 : bucket_open 5460 300 = 5400 := by decide
    have e9 : bucket_open 5460 3600 = 3600 := by decide
    have e10 : bucket_open 5460 86400 = 0 := by decide
    simp only [mh_test_fills, fill_steps, tracked_buckets, List.map, List.flatten,
      List.append, shift_step, a15, a60, a300, a3600, a86400, b15, b60, b300, b3600, b86400,
      c15, c60, c300, c3600, c86400, z, e1, e2, e3, e4, e5, e6, e7, e8, e9, e10]
    rfl
  have hconcrete : bucket_index (mh_test_fills 0 5400 5460) = mh_test_buckets 0 0 := by
    decide
  have hidx : bucket_index (mh_test_fills ta tb tc) = mh_test_buckets G G := by
    have h := foldl_aggregate_shift G (((mh_test_fills 0 5400 5460).map fill_steps).flatten) []
    rw [List.map_nil, ← hsteps] at h
    unfold bucket_index apply_steps at hconcrete ⊢
    rw [h, hconcrete]
    simp [mh_test_buckets, shift_bucket, Nat.add_comm]
    omega
  exact ⟨hta, by rw [hta, hidx]⟩

theorem aggregate_mem_key (s o hive non_hive : Nat) :
    ∀ (bs : List bucket), ∀ y ∈ aggregate bs s o hive non_hive,
      (y.seconds = s ∧ y.open_time = o)
        ∨ ∃ b ∈ bs, b.seconds = y.seconds ∧ b.open_time = y.open_time := by
  intro bs
  induction bs with
  | nil =>
    intro y hy
    simp only [aggregate, List.mem_singleton] at hy
    subst hy
    exact Or.inl ⟨rfl, rfl⟩
  | cons b rest ih =>
    intro y hy
    rw [aggregate] at hy
    by_cases c1 : b.seconds = s ∧ b.open_time = o
    · rw [if_pos c1] at hy
      rcases List.mem_cons.mp hy with rfl | hmem
      · exact Or.inl c1
      · exact Or.inr ⟨y, List.mem_cons_of_mem _ hmem, rfl, rfl⟩
    · rw [if_neg c1] at hy
      by_cases c2 : s < b.seconds ∨ (s = b.seconds ∧ o < b.open_time)
      · rw [if_pos c2] at hy
        rcases List.mem_cons.mp hy with rfl | hmem
        · exact Or.inl ⟨rfl, rfl⟩
        · exact Or.inr ⟨y, hmem, rfl, rfl⟩
      · rw [if_neg c2] at hy
        rcases List.mem_cons.mp hy with rfl | hmem
        · exact Or.inr ⟨y, List.mem_cons_self _ _, rfl, rfl⟩
        · rcases ih y hmem with h | ⟨b0, hb0, hk⟩
          · exact Or.inl h
          · exact Or.inr ⟨b0, List.mem_cons_of_mem _ hb0, hk⟩

theorem aggregate_sorted (s o hive non_hive : Nat) :
    ∀ (bs : List bucket), List.Pairwise by_bucket_less bs →
      List.Pairwise by_bucket_less (aggregate bs s o hive non_hive) := by
  intro bs
  induction bs with
  | nil => intro _; simp [aggregate]
  | cons b rest ih =>
    intro hp
    rw [List.pairwise_cons] at hp
    rw [aggregate]
    by_cases c1 : b.seconds = s ∧ b.open_time = o
    · rw [if_pos c1, List.pairwise_cons]
      exact ⟨fun y hy => hp.1 y hy, hp.2⟩
    · rw [if_neg c1]
      by_cases c2 : s < b.seconds ∨ (s = b.seconds ∧ o < b.open_time)
      · rw [if_pos c2, List.pairwise_cons, List.pairwise_cons]
        refine ⟨?_, hp⟩
        intro y hy
        rcases List.mem_cons.mp hy with rfl | hmem
        · exact c2
        · have h := hp.1 y hmem
          unfold by_bucket_less at h
          show s < y.seconds ∨ (s = y.seconds ∧ o < y.open_time)
          omega
      · rw [if_neg c2, List.pairwise_cons]
        refine ⟨?_, ih hp.2⟩
        intro y hy
        show b.seconds < y.seconds ∨ (b.seconds = y.seconds ∧ b.open_time < y.open_time)
        rcases aggregate_mem_key s o hive non_hive rest y hy with h | ⟨b0, hb0, hk⟩
        · omega
        · have h := hp.1 b0 hb0
          unfold by_bucket_less at h
          omega

theorem aggregate_mem (s o hive non_hive : Nat) :
    ∀ (bs : List bucket), List.Pairwise by_bucket_less bs →
      ∀ y ∈ aggregate bs s o hive non_hive,
        (y ∈ bs ∧ ¬ (y.seconds = s ∧ y.open_time = o)) ∨
        (∃ b ∈ bs, b.seconds = s ∧ b.open_time = o ∧ y = update_bucket b hive non_hive) ∨
        ((∀ b ∈ bs, ¬ (b.seconds = s ∧ b.open_time = o)) ∧ y = new_bucket s o hive non_hive) := by
  intro bs
  induction bs with
  | nil =>
    intro _ y hy
    simp only [aggregate, List.mem_singleton] at hy
    exact Or.inr (Or.inr ⟨fun b hb => by simp at hb, hy⟩)
  | cons b rest ih =>
    intro hp y hy
    rw [List.pairwise_cons] at hp
    rw [aggregate] at hy
    have hgt : ∀ b0 ∈ rest,
        b.seconds < b0.seconds ∨ (b.seconds = b0.seconds ∧ b.open_time < b0.open_time) :=
      fun b0 hb0 => hp.1 b0 hb0
    by_cases c1 : b.seconds = s ∧ b.open_time = o
    · rw [if_pos c1] at hy
      rcases List.mem_cons.mp hy with rfl | hmem
      · exact Or.inr (Or.inl ⟨b, List.mem_cons_self _ _, c1.1, c1.2, rfl⟩)
      · refine Or.inl ⟨List.mem_cons_of_mem _ hmem, ?_⟩
        have := hgt y hmem
        omega
    · rw [if_neg c1] at hy
      by_cases c2 : s < b.seconds ∨ (s = b.seconds ∧ o < b.open_time)
      · rw [if_pos c2] at hy
        rcases List.mem_cons.mp hy with rfl | hmem
        · refine Or.inr (Or.inr ⟨?_, rfl⟩)
          intro b0 hb0
          rcases List.mem_cons.mp hb0 with rfl | hb0
          · exact c1
          · have := hgt b0 hb0
            omega
        · refine Or.inl ⟨hmem, ?_⟩
          rcases List.mem_cons.mp hmem with rfl | hb0
          · exact c1
          · have := hgt y hb0
            omega
      · rw [if_neg c2] at hy
        rcases List.mem_cons.mp hy with rfl | hmem
        · exact Or.inl ⟨List.mem_cons_self _ _, c1⟩
        · rcases ih hp.2 y hmem with ⟨h1, h2⟩ | ⟨b0, hb0, hk1, hk2, hy0⟩ | ⟨hall, hy0⟩
          · exact Or.inl ⟨List.mem_cons_of_mem _ h1, h2⟩
          · exact Or.inr (Or.inl ⟨b0, List.mem_cons_of_mem _ hb0, hk1, hk2, hy0⟩)
          · refine Or.inr (Or.inr ⟨?_, hy0⟩)
            intro b0 hb0
            rcases List.mem_cons.mp hb0 with rfl | hb0
            · exact c1
            · exact hall b0 hb0

theorem aggregate_has_key (s o hive non_hive : Nat) :
    ∀ (bs : List bucket), ∃ y ∈ aggregate bs s o hive non_hive,
      y.seconds = s ∧ y.open_time = o := by
  intro bs
  induction bs with
  | nil => exact ⟨new_bucket s o hive non_hive, by simp [aggregate], rfl, rfl⟩
  | cons b rest ih =>
    rw [aggregate]
    by_cases c1 : b.seconds = s ∧ b.open_time = o
    · rw [if_pos c1]
      exact ⟨update_bucket b hive non_hive, List.mem_cons_self _ _, c1⟩
    · rw [if_neg c1]
      by_cases c2 : s < b.seconds ∨ (s = b.seconds ∧ o < b.open_time)
      · rw [if_pos c2]
        exact ⟨new_bucket s o hive non_hive, List.mem_cons_self _ _, rfl, rfl⟩
      · rw [if_neg c2]
        obtain ⟨y, hy, hk⟩ := ih
        exact ⟨y, List.mem_cons_of_mem _ hy, hk⟩

theorem aggregate_keeps_keys (s o hive non_hive : Nat) :
    ∀ (bs : List bucket), ∀ b ∈ bs, ∃ y ∈ aggregate bs s o hive non_hive,
      y.seconds = b.seconds ∧ y.open_time = b.open_time := by
  intro bs
  induction bs with
  | nil => intro b hb; simp at hb
  | cons x rest ih =>
    intro b hb
    rw [aggregate]
    by_cases c1 : x.seconds = s ∧ x.open_time = o
    · rw [if_pos c1]
      rcases List.mem_cons.mp hb with rfl | hmem
      · exact ⟨update_bucket b hive non_hive, List.mem_cons_self _ _, rfl, rfl⟩
      · exact ⟨b, List.mem_cons_of_mem _ hmem, rfl, rfl⟩
    · rw [if_neg c1]
      by_cases c2 : s < x.seconds ∨ (s = x.seconds ∧ o < x.open_time)
      · rw [if_pos c2]
        exact ⟨b, List.mem_cons_of_mem _ hb, rfl, rfl⟩
      · rw [if_neg c2]
        rcases List.mem_cons.mp hb with rfl | hmem
        · exact ⟨b, List.mem_cons_self _ _, rfl, rfl⟩
        · obtain ⟨y, hy, hk⟩ := ih b hmem
          exact ⟨y, List.mem_cons_of_mem _ hy, hk⟩

theorem sorted_key_unique :
    ∀ (bs : List bucket), List.Pairwise by_bucket_less bs →
      ∀ a ∈ bs, ∀ b ∈ bs, a.seconds = b.seconds → a.open_time = b.open_time → a = b := by
  intro bs
  induction bs with
  | nil => intro _ a ha; simp at ha
  | cons x rest ih =>
    intro hp a ha b hb hs ho
    rw [List.pairwise_cons] at hp
    have hgt : ∀ b0 ∈ rest,
        x.seconds < b0.seconds ∨ (x.seconds = b0.seconds ∧ x.open_time < b0.open_time) :=
      fun b0 hb0 => hp.1 b0 hb0
    rcases List.mem_cons.mp ha with rfl | ha1
    · rcases List.mem_cons.mp hb with rfl | hb1
      · rfl
      · have := hgt b hb1
        omega
    · rcases List.mem_cons.mp hb with rfl | hb1
      · have := hgt a ha1
        omega
      · exact ih hp.2 a ha1 b hb1 hs ho

theorem amounts_of_bucket_append (a b : List (Nat × Nat × Nat × Nat)) (s o : Nat) :
    amounts_of_bucket (a ++ b) s o = amounts_of_bucket a s o ++ amounts_of_bucket b s o := by
  simp [amounts_of_bucket, List.filter_append]

theorem bucket_summarizes_new (s o hive non_hive : Nat) :
    bucket_summarizes (new_bucket s o hive non_hive) [(hive, non_hive)] := by
  simp [bucket_summarizes, new_bucket]

theorem bucket_summarizes_update (b : bucket) (amounts : List (Nat × Nat))
    (hive non_hive : Nat) (h : bucket_summarizes b amounts) :
    bucket_summarizes (update_bucket b hive non_hive) (amounts ++ [(hive, non_hive)]) := by
  obtain ⟨h1, h2, h3, h4⟩ := h
  cases amounts with
  | nil => simp at h1
  | cons x xs =>
    refine ⟨?_, ?_, ?_, ?_⟩
    · simpa [update_bucket] using h1
    · show ((x :: xs) ++ [(hive, non_hive)]).getLast? = some (hive, non_hive)
      exact List.getLast?_concat _
    · simp only [List.map_append, List.sum_append, h3, update_bucket]
      simp
    · simp only [List.map_append, List.sum_append, h4, update_bucket]
      simp

theorem apply_steps_concat (steps : List (Nat × Nat × Nat × Nat)) (st : Nat × Nat × Nat × Nat) :
    apply_steps (steps ++ [st])
      = aggregate (apply_steps steps) st.1 st.2.1 st.2.2.1 st.2.2.2 := by
  simp [apply_steps, List.foldl_append]

theorem apply_steps_spec (steps : List (Nat × Nat × Nat × Nat)) :
    List.Pairwise by_bucket_less (apply_steps steps) ∧
    (∀ b ∈ apply_steps steps,
      bucket_summarizes b (amounts_of_bucket steps b.seconds b.open_time)) ∧
    (∀ st ∈ steps, ∃ b ∈ apply_steps steps, b.seconds = st.1 ∧ b.open_time = st.2.1) := by
  induction steps using List.reverseRecOn with
  | nil =>
    refine ⟨by simp [apply_steps], ?_, ?_⟩
    · intro b hb; simp [apply_steps] at hb
    · intro st hst; simp at hst
  | append_singleton steps st ih =>
    obtain ⟨ih1, ih2, ih3⟩ := ih
    rw [apply_steps_concat]
    refine ⟨aggregate_sorted _ _ _ _ _ ih1, ?_, ?_⟩
    · intro y hy
      rw [amounts_of_bucket_append]
      rcases aggregate_mem _ _ _ _ _ ih1 y hy with ⟨h1, h2⟩ | ⟨b, hb, hk1, hk2, hy0⟩ | ⟨hall, hy0⟩
      · have hnil : amounts_of_bucket [st] y.seconds y.open_time = [] := by
          have h3 : ¬ (st.1 = y.seconds ∧ st.2.1 = y.open_time) := fun h => h2 ⟨h.1.symm, h.2.symm⟩
          simp [amounts_of_bucket, h3]
        rw [hnil, List.append_nil]
        exact ih2 y h1
      · have hone : amounts_of_bucket [st] y.seconds y.open_time = [(st.2.2.1, st.2.2.2)] := by
          subst hy0
          have h3 : st.1 = b.seconds ∧ st.2.1 = b.open_time := ⟨hk1.symm, hk2.symm⟩
          simp [amounts_of_bucket, update_bucket, h3]
        rw [hone]
        subst hy0
        exact bucket_summarizes_update b _ _ _ (ih2 b hb)
      · have hnone : amounts_of_bucket steps y.seconds y.open_time = [] := by
          subst hy0
          simp only [amounts_of_bucket, List.map_eq_nil_iff, List.filter_eq_nil_iff,
            decide_eq_true_eq]
          intro st0 hst0 hk
          obtain ⟨b, hb, hb1, hb2⟩ := ih3 st0 hst0
          exact hall b hb ⟨hb1.trans hk.1, hb2.trans hk.2⟩
        have hone : amounts_of_bucket [st] y.seconds y.open_time = [(st.2.2.1, st.2.2.2)] := by
          subst hy0
          simp [amounts_of_bucket, new_bucket]
        rw [hnone, hone, List.nil_append]
        subst hy0
        exact bucket_summarizes_new _ _ _ _
    · intro st0 hst0
      rcases List.mem_append.mp hst0 with h | h
      · obtain ⟨b, hb, hk⟩ := ih3 st0 h
        obtain ⟨y, hy, hyk⟩ := aggregate_keeps_keys st.1 st.2.1 st.2.2.1 st.2.2.2 _ b hb
        exact ⟨y, hy, hyk.1.trans hk.1, hyk.2.trans hk.2⟩
      · rw [List.mem_singleton] at h
        subst h
        exact aggregate_has_key _ _ _ _ _

theorem fill_steps_amounts (f : fill) (s o : Nat) (hs : s ∈ tracked_buckets) :
    amounts_of_bucket (fill_steps f) s o
      = if bucket_open f.time s = o then [(f.hive, f.non_hive)] else [] := by
  simp only [tracked_buckets, List.mem_cons, List.mem_singleton, List.not_mem_nil,
    or_false] at hs
  by_cases h : bucket_open f.time s = o
  · rw [if_pos h]
    rcases hs with rfl | rfl | rfl | rfl | rfl <;>
      simp [amounts_of_bucket, fill_steps, tracked_buckets, List.filter, h]
  · rw [if_neg h]
    rcases hs with rfl | rfl | rfl | rfl | rfl <;>
      simp [amounts_of_bucket, fill_steps, tracked_buckets, List.filter, h]

theorem fills_amounts (s o : Nat) (hs : s ∈ tracked_buckets) :
    ∀ (fills : List fill),
      amounts_of_bucket ((fills.map fill_steps).flatten) s o
        = (fills_of_bucket fills s o).map fun f => (f.hive, f.non_hive) := by
  intro fills
  induction fills with
  | nil => rfl
  | cons f rest ih =>
    rw [List.map_cons, List.flatten_cons, amounts_of_bucket_append, ih,
      fill_steps_amounts f s o hs]
    by_cases h : bucket_open f.time s = o
    · simp [fills_of_bucket, List.filter_cons, h]
    · simp [fills_of_bucket, List.filter_cons, h]

theorem order_history_spec (fills : List fill) :
    (order_history fills).map order_history_object.op = fills ∧
    (order_history fills).map order_history_object.id = List.range fills.length := by
  induction fills using List.reverseRecOn with
  | nil => exact ⟨rfl, rfl⟩
  | append_singleton fills f ih =>
    have hlen : (order_history fills).length = fills.length := by
      rw [← List.length_map (order_history fills) order_history_object.op, ih.1]
    have hstep : order_history (fills ++ [f])
        = order_history fills ++ [{ id := (order_history fills).length, op := f }] := by
      simp [order_history, record_fill, List.foldl_append]
    rw [hstep, List.map_append, List.map_append, ih.1, ih.2, hlen]
    refine ⟨rfl, ?_⟩
    rw [List.length_append, List.length_singleton, List.range_succ]
    rfl

theorem bucket_index_spec (fills : List fill) :
    List.Pairwise by_bucket_less (bucket_index fills) ∧
    (∀ b ∈ bucket_index fills, b.seconds ∈ tracked_buckets ∧
      bucket_summarizes b
        ((fills_of_bucket fills b.seconds b.open_time).map fun f => (f.hive, f.non_hive))) ∧
    (∀ f ∈ fills, ∀ s ∈ tracked_buckets,
      ∃ b ∈ bucket_index fills, b.seconds = s ∧ b.open_time = f.time / s * s) := by
  obtain ⟨h1, h2, h3⟩ := apply_steps_spec ((fills.map fill_steps).flatten)
  have hsec : ∀ b ∈ bucket_index fills, b.seconds ∈ tracked_buckets := by
    intro b hb
    have hne : amounts_of_bucket ((fills.map fill_steps).flatten) b.seconds b.open_time ≠ [] := by
      intro hnil
      have := (h2 b hb).1
      rw [hnil] at this
      simp at this
    unfold amounts_of_bucket at hne
    obtain ⟨st, hst⟩ := List.exists_mem_of_ne_nil
      (((fills.map fill_steps).flatten).filter
        fun st => decide (st.1 = b.seconds ∧ st.2.1 = b.open_time))
      (fun h => hne (by rw [h]; rfl))
    rw [List.mem_filter, decide_eq_true_eq] at hst
    obtain ⟨hmem, hk, _⟩ := hst
    rw [List.mem_flatten] at hmem
    obtain ⟨l, hl, hstl⟩ := hmem
    rw [List.mem_map] at hl
    obtain ⟨f, _, rfl⟩ := hl
    unfold fill_steps at hstl
    rw [List.mem_map] at hstl
    obtain ⟨s, hs, rfl⟩ := hstl
    rw [← hk]
    exact hs
  refine ⟨h1, ?_, ?_⟩
  · intro b hb
    refine ⟨hsec b hb, ?_⟩
    rw [← fills_amounts b.seconds b.open_time (hsec b hb) fills]
    exact h2 b hb
  · intro f hf s hs
    have hst : (s, bucket_open f.time s, f.hive, f.non_hive)
        ∈ (fills.map fill_steps).flatten := by
      rw [List.mem_flatten]
      refine ⟨fill_steps f, List.mem_map.mpr ⟨f, hf, rfl⟩, ?_⟩
      unfold fill_steps
      exact List.mem_map.mpr ⟨s, hs, rfl⟩
    obtain ⟨b, hb, hk1, hk2⟩ := h3 _ hst
    exact ⟨b, hb, hk1, hk2⟩

theorem bucket_summarizes_fills (b : bucket) (fs : List fill)
    (h : bucket_summarizes b (fs.map fun f => (f.hive, f.non_hive))) :
    (fs.head?).map fill.hive = some b.hive_open ∧
    (fs.head?).map fill.non_hive = some b.non_hive_open ∧
    (fs.getLast?).map fill.hive = some b.hive_close ∧
    (fs.getLast?).map fill.non_hive = some b.non_hive_close ∧
    (fs.map fill.hive).sum = b.hive_volume ∧
    (fs.map fill.non_hive).sum = b.non_hive_volume := by
  obtain ⟨h1, h2, h3, h4⟩ := h
  rw [List.head?_map] at h1
  rw [List.getLast?_map] at h2
  rw [List.map_map] at h3 h4
  refine ⟨?_, ?_, ?_, ?_, h3, h4⟩
  · cases hh : fs.head? with
    | none => rw [hh] at h1; simp at h1
    | some f => rw [hh] at h1; simp at h1 ⊢; exact h1.1
  · cases hh : fs.head? with
    | none => rw [hh] at h1; simp at h1
    | some f => rw [hh] at h1; simp at h1 ⊢; exact h1.2
  · cases hh : fs.getLast? with
    | none => rw [hh] at h2; simp at h2
    | some f => rw [hh] at h2; simp at h2 ⊢; exact h2.1
  · cases hh : fs.getLast? with
    | none => rw [hh] at h2; simp at h2
    | some f => rw [hh] at h2; simp at h2 ⊢; exact h2.2

/-- C25: for any fills, in the order they happened, every fill at time `t` is in exactly
one bucket of each of the sizes 15, 60, 300, 3600 and 86400 seconds, the one whose open
time is `t` rounded down to a multiple of the size, and it is one of the fills of that
bucket; the bucket index is strictly ordered by `(seconds, open)`; every bucket has a
tracked size, the open amounts of the first of its fills, the close amounts of the last
and the sums of their amounts as volumes; and the order history lists the fills once
each in the order they happened, under increasing ids. When the fills are the four of
`mh_test`, the bucket index is exactly the eleven buckets the test requires, in the
order in which it walks the index, and the order history has the four fills in order:
the fill times are those the open times required by the test stand for, the genesis
time `G` a multiple of a day, the first fill less than 15 seconds after it, and the
later fills within 15 seconds after `G + 5400` and `G + 5460`. -/
theorem C25_market_history_bucketing (fills : List fill) :
    (∀ f ∈ fills, ∀ s ∈ tracked_buckets,
      (∃! b, b ∈ bucket_index fills ∧ b.seconds = s ∧ b.open_time = f.time / s * s) ∧
      f ∈ fills_of_bucket fills s (f.time / s * s)) ∧
    List.Pairwise by_bucket_less (bucket_index fills) ∧
    (∀ b ∈ bucket_index fills,
      b.seconds ∈ tracked_buckets ∧
      ((fills_of_bucket fills b.seconds b.open_time).head?).map fill.hive
        = some b.hive_open ∧
      ((fills_of_bucket fills b.seconds b.open_time).head?).map fill.non_hive
        = some b.non_hive_open ∧
      ((fills_of_bucket fills b.seconds b.open_time).getLast?).map fill.hive
        = some b.hive_close ∧
      ((fills_of_bucket fills b.seconds b.open_time).getLast?).map fill.non_hive
        = some b.non_hive_close ∧
      ((fills_of_bucket fills b.seconds b.open_time).map fill.hive).sum = b.hive_volume ∧
      ((fills_of_bucket fills b.seconds b.open_time).map fill.non_hive).sum
        = b.non_hive_volume) ∧
    (order_history fills).map order_history_object.op = fills ∧
    (order_history fills).map order_history_object.id = List.range fills.length ∧
    (∀ (G ta tb tc : Nat), G % 86400 = 0 → G ≤ ta → ta < G + 15 →
      G + 5400 ≤ tb → tb < G + 5415 → G + 5460 ≤ tc → tc < G + 5475 →
      fills = mh_test_fills ta tb tc →
        ta / 15 * 15 = G ∧
        bucket_index fills = mh_test_buckets (ta / 15 * 15) G ∧
        (order_history fills).map order_history_object.op = mh_test_fills ta tb tc ∧
        (order_history fills).map order_history_object.id = [0, 1, 2, 3]) := by
  obtain ⟨h1, h2, h3⟩ := bucket_index_spec fills
  refine ⟨?_, h1, ?_, (order_history_spec fills).1, (order_history_spec fills).2, ?_⟩
  · intro f hf s hs
    refine ⟨?_, ?_⟩
    · obtain ⟨b, hb, hk1, hk2⟩ := h3 f hf s hs
      refine ⟨b, ⟨hb, hk1, hk2⟩, ?_⟩
      rintro y ⟨hy, hy1, hy2⟩
      exact sorted_key_unique _ h1 y hy b hb (hy1.trans hk1.symm) (hy2.trans hk2.symm)
    · unfold fills_of_bucket
      rw [List.mem_filter, decide_eq_true_eq]
      exact ⟨hf, rfl⟩
  · intro b hb
    exact ⟨(h2 b hb).1, bucket_summarizes_fills b _ (h2 b hb).2⟩
  · intro G ta tb tc hG ha1 ha2 hb1 hb2 hc1 hc2 hfills
    obtain ⟨e1, e2⟩ := mh_test_bucket_index G ta tb tc hG ha1 ha2 hb1 hb2 hc1 hc2
    refine ⟨e1, by rw [hfills]; exact e2, ?_, ?_⟩
    · rw [(order_history_spec fills).1, hfills]
    · rw [(order_history_spec fills).2, hfills]
      rfl

theorem C25_market_history_bucketing_witness :
    bucket_index (mh_test_fills 1451606412 1451611812 1451611872)
      = mh_test_buckets (1451606412 / 15 * 15) 1451606400 :=
  ((C25_market_history_bucketing
    (mh_test_fills 1451606412 1451611812 1451611872)).2.2.2.2.2
    1451606400 1451606412 1451611812 1451611872
    (by decide) (by decide) (by decide) (by decide) (by decide) (by decide) (by decide)
    rfl).2.1

end hive.plugins.market_history
